import Mathlib

set_option linter.unusedVariables false

/-!
Formal model of the orchestration core of the AI-Agent-Framework repository:
the DAG workflow engine (`src/core/workflow_base.py`), the execution context
(`src/core/execution_context.py`), the hierarchical state machine
(`src/orchestrator/state_machine.py`), the worker dispatch loop
(`src/orchestrator/kafka_worker.py`) and the scheduling adapter
(`src/django_app/workflows/adapters.py`).

Modelling conventions used throughout this file:
- Python values are modelled by the opaque inductive `PyVal`.
- Python `dict`s keyed by strings are modelled by association lists with
  CPython's insertion-order semantics (`pyDictSet` updates in place,
  `.items()` order is the list order).
- Python `set`s of strings are modelled by duplicate-free lists in insertion
  order (`pySetAdd` / `List.erase`).
- `datetime.utcnow()` is modelled by an ambient abstract clock tick
  (a `Nat` parameter called `now`); no claim in scope depends on actual
  wall-clock values.  `datetime.isoformat`/`fromisoformat` form a bijection
  on datetimes, so serialized timestamps are modelled by the tick itself.
- Code that raises is modelled with `Except`/`Option`; when mutations
  performed before a raise are observable by a handler, the error payload
  carries the mutated state.
-/

/-- Opaque model of a Python value (None, bool, int, str, list, dict). -/
inductive PyVal where
  | none
  | bool (b : Bool)
  | int (n : Int)
  | str (s : String)
  | list (xs : List PyVal)
  | dict (entries : List (String × PyVal))

/-- A Python dict with string keys, as an insertion-ordered association list. -/
abbrev PyDict (α : Type) := List (String × α)

/-- CPython dict assignment `d[k] = v`: update in place if the key exists
(keeping its position), otherwise append at the end. -/
def pyDictSet {α : Type} (d : PyDict α) (k : String) (v : α) : PyDict α :=
  match d with
  | [] => [(k, v)]
  | (k1, v1) :: rest => if k1 == k then (k1, v) :: rest else (k1, v1) :: pyDictSet rest k v

/-- CPython dict lookup `d[k]` / `d.get(k)`, returning `none` when absent. -/
def pyDictGet? {α : Type} (d : PyDict α) (k : String) : Option α :=
  match d with
  | [] => Option.none
  | (k1, v1) :: rest => if k1 == k then some v1 else pyDictGet? rest k

/-- CPython `d.get(k, default)`. -/
def pyDictGetD {α : Type} (d : PyDict α) (k : String) (default : α) : α :=
  (pyDictGet? d k).getD default

/-- CPython `k in d`. -/
def pyDictContains {α : Type} (d : PyDict α) (k : String) : Bool :=
  (pyDictGet? d k).isSome

/-- Python `set.add` for a set of strings modelled as a duplicate-free list
in insertion order. -/
def pySetAdd (s : List String) (x : String) : List String :=
  if s.contains x then s else s ++ [x]

theorem pyDictGet?_set_self {α : Type} (d : PyDict α) (k : String) (v : α) :
    pyDictGet? (pyDictSet d k v) k = some v := by
  induction d with
  | nil => simp [pyDictSet, pyDictGet?]
  | cons hd tl ih =>
    obtain ⟨k1, v1⟩ := hd
    by_cases h : k1 = k
    · simp [pyDictSet, pyDictGet?, h]
    · simp only [pyDictSet, pyDictGet?, beq_iff_eq, h, if_false]
      simpa [pyDictGet?] using ih

theorem pyDictGet?_set_ne {α : Type} (d : PyDict α) (k k2 : String) (v : α)
    (h : k ≠ k2) : pyDictGet? (pyDictSet d k v) k2 = pyDictGet? d k2 := by
  induction d with
  | nil => simp [pyDictSet, pyDictGet?, h]
  | cons hd tl ih =>
    obtain ⟨k1, v1⟩ := hd
    by_cases h1 : k1 = k
    · subst h1
      simp [pyDictSet, pyDictGet?, h]
    · simp [pyDictSet, pyDictGet?, h1, ih]

theorem pySetAdd_of_not_mem {s : List String} {x : String} (h : ¬ x ∈ s) :
    pySetAdd s x = s ++ [x] := by
  simp [pySetAdd, List.contains, h]

section ExecutionContextModel

/-! Model of `src/core/execution_context.py`. -/

/-- Execution phases for tracking workflow progress
(`ExecutionPhase` in `execution_context.py`). -/
inductive ExecutionPhase where
  | initialization
  | input_processing
  | tool_execution
  | agent_execution
  | output_processing
  | completion
  | error_handling
deriving DecidableEq

/-- The `.value` string of an `ExecutionPhase` member. -/
def ExecutionPhase.value : ExecutionPhase → String
  | .initialization => "initialization"
  | .input_processing => "input_processing"
  | .tool_execution => "tool_execution"
  | .agent_execution => "agent_execution"
  | .output_processing => "output_processing"
  | .completion => "completion"
  | .error_handling => "error_handling"

/-- The `ExecutionPhase(value)` enum constructor: returns the member with the
given value, or `none` (Python would raise `ValueError`). -/
def ExecutionPhase.ofValue? (s : String) : Option ExecutionPhase :=
  if s == "initialization" then some .initialization
  else if s == "input_processing" then some .input_processing
  else if s == "tool_execution" then some .tool_execution
  else if s == "agent_execution" then some .agent_execution
  else if s == "output_processing" then some .output_processing
  else if s == "completion" then some .completion
  else if s == "error_handling" then some .error_handling
  else Option.none

theorem ExecutionPhase.ofValue?_value (p : ExecutionPhase) :
    ExecutionPhase.ofValue? p.value = some p := by
  cases p <;> rfl

/-- An entry of the `errors` list built by `ExecutionContext.add_error`.
The `timestamp` field holds the abstract clock tick whose iso-string
Python stores. -/
structure ErrorEntry where
  etype : String
  message : String
  timestamp : Nat
  phase : String
  step_count : Nat
  details : PyDict PyVal

/-- An entry of the `intermediate_results` list built by
`ExecutionContext.add_intermediate_result`. -/
structure IntermediateResult where
  step_name : String
  result : PyVal
  timestamp : Nat
  step_number : Nat
  metadata : PyDict PyVal

/-- Model of the mutable `ExecutionContext` object.  `memory_usage` and
`cpu_usage` are resource-tracking lists never serialized by `to_dict`. -/
structure ExecutionContext where
  execution_id : String
  workflow_id : Option String
  agent_id : Option String
  user_id : Option String
  session_id : String
  created_at : Nat
  updated_at : Nat
  run_id : String
  phase : ExecutionPhase
  step_count : Nat
  is_cancelled : Bool
  shared_data : PyDict PyVal
  intermediate_results : List IntermediateResult
  memory : PyDict PyVal
  executed_tools : List String
  executed_agents : List String
  agent_outputs : PyDict PyVal
  errors : List ErrorEntry
  warnings : List String
  metadata : PyDict PyVal
  config : PyDict PyVal
  start_time : Option Nat
  end_time : Option Nat
  step_timings : PyDict Int
  memory_usage : List Int
  cpu_usage : List Int

namespace ExecutionContext

/-- The `ExecutionContext.__init__` constructor.  `freshExecutionId` and
`freshSessionId` stand for the two `str(uuid.uuid4())` calls; `now` is the
`datetime.utcnow()` reading for `created_at`.  Optional-string falsiness
(`session_id or ...`, `run_id or ...`, `metadata or {}`, `memory or {}`)
is modelled exactly: `None` and the empty string/dict are falsy. -/
def init (workflow_id agent_id user_id session_id : Option String)
    (metadata : Option (PyDict PyVal)) (run_id : Option String)
    (memory : Option (PyDict PyVal))
    (freshExecutionId freshSessionId : String) (now : Nat) : ExecutionContext :=
  { execution_id := freshExecutionId
    workflow_id := workflow_id
    agent_id := agent_id
    user_id := user_id
    session_id :=
      match session_id with
      | Option.none => freshSessionId
      | some s => if s == "" then freshSessionId else s
    created_at := now
    updated_at := now
    run_id :=
      match run_id with
      | Option.none => freshExecutionId
      | some r => if r == "" then freshExecutionId else r
    phase := .initialization
    step_count := 0
    is_cancelled := false
    shared_data := []
    intermediate_results := []
    memory :=
      match memory with
      | Option.none => []
      | some m => m
    executed_tools := []
    executed_agents := []
    agent_outputs := []
    errors := []
    warnings := []
    metadata :=
      match metadata with
      | Option.none => []
      | some m => m
    config := []
    start_time := Option.none
    end_time := Option.none
    step_timings := []
    memory_usage := []
    cpu_usage := [] }

/-- `_update_timestamp`. -/
def _update_timestamp (c : ExecutionContext) (now : Nat) : ExecutionContext :=
  { c with updated_at := now }

/-- `start_execution`. -/
def start_execution (c : ExecutionContext) (now : Nat) : ExecutionContext :=
  { c with start_time := some now, phase := .input_processing, updated_at := now }

/-- `end_execution`. -/
def end_execution (c : ExecutionContext) (now : Nat) : ExecutionContext :=
  { c with end_time := some now, phase := .completion, updated_at := now }

/-- `advance_phase`. -/
def advance_phase (c : ExecutionContext) (p : ExecutionPhase) (now : Nat) :
    ExecutionContext :=
  { c with phase := p, step_count := c.step_count + 1, updated_at := now }

/-- `add_error`: appends an entry stamped with the phase and step count at the
time of the call. -/
def add_error (c : ExecutionContext) (etype message : String)
    (details : Option (PyDict PyVal)) (now : Nat) : ExecutionContext :=
  { c with
    errors := c.errors ++
      [{ etype := etype
         message := message
         timestamp := now
         phase := c.phase.value
         step_count := c.step_count
         details :=
           match details with
           | Option.none => []
           | some d => d }]
    updated_at := now }

/-- `cancel_execution`: sets the flag, records an `execution_cancelled` error
(the error entry is stamped with the phase at call time, since `add_error`
runs before the phase is switched to `ERROR_HANDLING`), then switches the
phase. -/
def cancel_execution (c : ExecutionContext) (reason : String) (now : Nat) :
    ExecutionContext :=
  let c1 := { c with is_cancelled := true }
  let c2 := c1.add_error "execution_cancelled"
    (if reason == "" then "Execution cancelled by user" else reason) Option.none now
  { c2 with phase := .error_handling, updated_at := now }

/-- `set_shared_data`. -/
def set_shared_data (c : ExecutionContext) (k : String) (v : PyVal) (now : Nat) :
    ExecutionContext :=
  { c with shared_data := pyDictSet c.shared_data k v, updated_at := now }

/-- `add_intermediate_result`. -/
def add_intermediate_result (c : ExecutionContext) (step_name : String)
    (result : PyVal) (metadata : Option (PyDict PyVal)) (now : Nat) :
    ExecutionContext :=
  { c with
    intermediate_results := c.intermediate_results ++
      [{ step_name := step_name
         result := result
         timestamp := now
         step_number := c.intermediate_results.length + 1
         metadata :=
           match metadata with
           | Option.none => []
           | some m => m }]
    updated_at := now }

/-- `record_tool_execution`. -/
def record_tool_execution (c : ExecutionContext) (tool_name : String) (now : Nat) :
    ExecutionContext :=
  { c with executed_tools := c.executed_tools ++ [tool_name], updated_at := now }

/-- `record_agent_execution`: appends the agent id and, when an output is
given, records it in `agent_outputs`. -/
def record_agent_execution (c : ExecutionContext) (agent_id : String)
    (output : Option PyVal) (now : Nat) : ExecutionContext :=
  { c with
    executed_agents := c.executed_agents ++ [agent_id]
    agent_outputs :=
      match output with
      | Option.none => c.agent_outputs
      | some v => pyDictSet c.agent_outputs agent_id v
    updated_at := now }

/-- `add_warning`. -/
def add_warning (c : ExecutionContext) (message : String) (now : Nat) :
    ExecutionContext :=
  { c with warnings := c.warnings ++ [message], updated_at := now }

/-- `record_step_timing`. -/
def record_step_timing (c : ExecutionContext) (step_name : String)
    (duration : Int) (now : Nat) : ExecutionContext :=
  { c with step_timings := pyDictSet c.step_timings step_name duration
           updated_at := now }

/-- `has_errors`. -/
def has_errors (c : ExecutionContext) : Bool :=
  c.errors.length > 0

/-- The dictionary produced by `ExecutionContext.to_dict`, with one field per
serialized key.  List- and dict-valued fields are passed through by
`to_dict` unchanged, so they keep their structured model type here;
timestamps are serialized through the iso-format bijection, modelled by
keeping the tick. -/
structure CtxDict where
  execution_id : String
  workflow_id : Option String
  agent_id : Option String
  user_id : Option String
  session_id : String
  created_at : Nat
  updated_at : Nat
  phase : String
  step_count : Nat
  is_cancelled : Bool
  shared_data : PyDict PyVal
  intermediate_results : List IntermediateResult
  executed_tools : List String
  executed_agents : List String
  agent_outputs : PyDict PyVal
  errors : List ErrorEntry
  warnings : List String
  metadata : PyDict PyVal
  config : PyDict PyVal
  step_timings : PyDict Int
  start_time : Option Nat
  end_time : Option Nat
  run_id : String
  memory : PyDict PyVal

/-- `to_dict`. -/
def to_dict (c : ExecutionContext) : CtxDict :=
  { execution_id := c.execution_id
    workflow_id := c.workflow_id
    agent_id := c.agent_id
    user_id := c.user_id
    session_id := c.session_id
    created_at := c.created_at
    updated_at := c.updated_at
    phase := c.phase.value
    step_count := c.step_count
    is_cancelled := c.is_cancelled
    shared_data := c.shared_data
    intermediate_results := c.intermediate_results
    executed_tools := c.executed_tools
    executed_agents := c.executed_agents
    agent_outputs := c.agent_outputs
    errors := c.errors
    warnings := c.warnings
    metadata := c.metadata
    config := c.config
    step_timings := c.step_timings
    start_time := c.start_time
    end_time := c.end_time
    run_id := c.run_id
    memory := c.memory }

/-- `from_dict`: builds a context through `__init__` (hence the two fresh
uuid parameters and the `now` tick) and then restores serialized state.
Returns `none` when `ExecutionPhase(...)` would raise on an unknown phase
value.  Timestamp strings are parsed back through the iso-format bijection. -/
def from_dict (d : CtxDict) (freshExecutionId freshSessionId : String)
    (now : Nat) : Option ExecutionContext := do
  let base := init d.workflow_id d.agent_id d.user_id (some d.session_id)
    (some d.metadata) (some d.run_id) (some d.memory)
    freshExecutionId freshSessionId now
  let p ← ExecutionPhase.ofValue? d.phase
  let c := { base with
    execution_id := d.execution_id
    phase := p
    step_count := d.step_count
    is_cancelled := d.is_cancelled
    shared_data := d.shared_data
    intermediate_results := d.intermediate_results
    executed_tools := d.executed_tools
    executed_agents := d.executed_agents
    agent_outputs := d.agent_outputs
    errors := d.errors
    warnings := d.warnings
    config := d.config
    step_timings := d.step_timings
    created_at := d.created_at
    updated_at := d.updated_at
    start_time := d.start_time
    end_time := d.end_time }
  pure c

end ExecutionContext

end ExecutionContextModel

/-- C10: every call to `ExecutionContext.cancel_execution`, besides setting
`is_cancelled` and switching the phase to `ERROR_HANDLING`, appends exactly
one error entry of type `"execution_cancelled"` carrying the given reason
(or the default message), so `has_errors()` returns true afterwards even if
no step has failed. -/
theorem C10_cancel_execution_records_error (c : ExecutionContext)
    (reason : String) (now : Nat) :
    (c.cancel_execution reason now).is_cancelled = true ∧
    (c.cancel_execution reason now).phase = ExecutionPhase.error_handling ∧
    (∃ e, (c.cancel_execution reason now).errors = c.errors ++ [e] ∧
      e.etype = "execution_cancelled" ∧
      e.message = (if reason == "" then "Execution cancelled by user" else reason)) ∧
    (c.cancel_execution reason now).has_errors = true := by
  refine ⟨rfl, rfl, ⟨_, rfl, rfl, rfl⟩, ?_⟩
  simp [ExecutionContext.cancel_execution, ExecutionContext.add_error,
    ExecutionContext.has_errors]

/-- C9: for every execution context, `from_dict (to_dict c)` restores every
serialized field.  The two hypotheses are the constructor invariants that
`run_id` and `session_id` are non-empty (both are backed by generated uuids
and no mutator ever empties them); the Python constructor treats the empty
string as falsy, in which case it would substitute fresh uuids. -/
theorem C9_to_dict_from_dict_roundtrip (c : ExecutionContext)
    (f1 f2 : String) (now : Nat)
    (hrun : ¬ c.run_id = "") (hsess : ¬ c.session_id = "") :
    ∃ c2, ExecutionContext.from_dict c.to_dict f1 f2 now = some c2 ∧
      c2.execution_id = c.execution_id ∧
      c2.workflow_id = c.workflow_id ∧
      c2.agent_id = c.agent_id ∧
      c2.user_id = c.user_id ∧
      c2.session_id = c.session_id ∧
      c2.phase = c.phase ∧
      c2.step_count = c.step_count ∧
      c2.is_cancelled = c.is_cancelled ∧
      c2.shared_data = c.shared_data ∧
      c2.intermediate_results = c.intermediate_results ∧
      c2.executed_tools = c.executed_tools ∧
      c2.executed_agents = c.executed_agents ∧
      c2.agent_outputs = c.agent_outputs ∧
      c2.errors = c.errors ∧
      c2.warnings = c.warnings ∧
      c2.metadata = c.metadata ∧
      c2.config = c.config ∧
      c2.step_timings = c.step_timings ∧
      c2.created_at = c.created_at ∧
      c2.updated_at = c.updated_at ∧
      c2.start_time = c.start_time ∧
      c2.end_time = c.end_time ∧
      c2.run_id = c.run_id ∧
      c2.memory = c.memory := by
  simp only [ExecutionContext.from_dict, ExecutionContext.to_dict,
    ExecutionPhase.ofValue?_value, Option.pure_def, Option.bind_eq_bind,
    Option.some_bind]
  refine ⟨_, rfl, ?_⟩
  simp [ExecutionContext.init, hrun, hsess]

/-- C9 witness: a concrete context round-trips through `to_dict`/`from_dict`. -/
theorem C9_to_dict_from_dict_roundtrip_witness :
    (let c : ExecutionContext :=
      { execution_id := "e1", workflow_id := some "wf", agent_id := Option.none
        user_id := Option.none, session_id := "s1", created_at := 3
        updated_at := 5, run_id := "r1", phase := .agent_execution
        step_count := 2, is_cancelled := false
        shared_data := [("k", PyVal.int 7)], intermediate_results := []
        memory := [], executed_tools := ["t"], executed_agents := []
        agent_outputs := [], errors := [], warnings := ["w"], metadata := []
        config := [], start_time := some 4, end_time := Option.none
        step_timings := [("a", 1)], memory_usage := [], cpu_usage := [] }
    ¬ c.run_id = "" ∧ ¬ c.session_id = "" ∧
      ∃ c2, ExecutionContext.from_dict c.to_dict "f1" "f2" 9 = some c2 ∧
        c2.execution_id = c.execution_id ∧
        c2.workflow_id = c.workflow_id ∧
        c2.agent_id = c.agent_id ∧
        c2.user_id = c.user_id ∧
        c2.session_id = c.session_id ∧
        c2.phase = c.phase ∧
        c2.step_count = c.step_count ∧
        c2.is_cancelled = c.is_cancelled ∧
        c2.shared_data = c.shared_data ∧
        c2.intermediate_results = c.intermediate_results ∧
        c2.executed_tools = c.executed_tools ∧
        c2.executed_agents = c.executed_agents ∧
        c2.agent_outputs = c.agent_outputs ∧
        c2.errors = c.errors ∧
        c2.warnings = c.warnings ∧
        c2.metadata = c.metadata ∧
        c2.config = c.config ∧
        c2.step_timings = c.step_timings ∧
        c2.created_at = c.created_at ∧
        c2.updated_at = c.updated_at ∧
        c2.start_time = c.start_time ∧
        c2.end_time = c.end_time ∧
        c2.run_id = c.run_id ∧
        c2.memory = c.memory) :=
  ⟨by decide, by decide,
    C9_to_dict_from_dict_roundtrip _ "f1" "f2" 9 (by decide) (by decide)⟩

section MessagingModel

/-!
Model of `django_app/workflows/adapters.py` (the scheduling entry point that
publishes a run request and falls back to in-process execution) and of
`src/orchestrator/kafka_worker.py` (the worker dispatch loop).
-/

/-- The run-request event dict built by `enqueue_workflow_run`. -/
structure WorkflowRunEvent where
  type : String
  run_id : String
  workflow_id : String
  payload : PyVal

/-- One call made by `enqueue_workflow_run` to an external collaborator:
publishing to the broker, `execute_workflow_run.delay(...)`, or the direct
in-process call `execute_workflow_run(...)`. -/
inductive SchedCall where
  | send (topic : String) (event : WorkflowRunEvent)
  | delayCall (run_id : String) (workflow_ref : PyVal) (payload : PyVal)
  | directCall (run_id : String) (workflow_ref : PyVal) (payload : PyVal)

/-- Behaviour of the external collaborators of the adapter: whether the broker
publish, the Celery `delay` hand-off and the direct function call raise, and
what they return. -/
structure SchedWorld where
  sendResult : String → WorkflowRunEvent → Except String Unit
  delayResult : String → PyVal → PyVal → Except String PyVal
  callResult : String → PyVal → PyVal → Except String PyVal

/-- Model of `enqueue_workflow_run(run_id, workflow_id, payload)`, returning
the trace of collaborator calls it performs (the Python function returns
`None`; its observable behaviour is this call sequence).  Structure of the
source: publish the event; if publishing raises, call
`execute_workflow_run.delay(run_id, {"id": str(workflow_id)}, payload)`,
and if that raises, call `execute_workflow_run` directly with the same
arguments, whose own exceptions are swallowed.  Every exception is caught,
so the function is total: it never raises to the caller.  (The import of
`src.orchestrator.celery_tasks` is a fixed module of this repository and is
modelled as always succeeding.) -/
def enqueue_workflow_run (w : SchedWorld) (run_id workflow_id : String)
    (payload : PyVal) : List SchedCall :=
  let event : WorkflowRunEvent :=
    { type := "workflow.run.requested", run_id := run_id
      workflow_id := workflow_id, payload := payload }
  match w.sendResult "workflow-requests" event with
  | .ok _ => [.send "workflow-requests" event]
  | .error _ =>
    let ref : PyVal := .dict [("id", .str workflow_id)]
    match w.delayResult run_id ref payload with
    | .ok _ => [.send "workflow-requests" event, .delayCall run_id ref payload]
    | .error _ =>
      [.send "workflow-requests" event, .delayCall run_id ref payload,
        .directCall run_id ref payload]

/-- C5: whenever publishing the run-request event to the broker raises,
`enqueue_workflow_run` invokes the in-process execution path
(`execute_workflow_run.delay`, falling back to the direct call when `delay`
raises too) with the same `run_id`, the workflow reference
`{"id": str(workflow_id)}` and the same payload; the adapter catches every
exception, so (by the totality of `enqueue_workflow_run`, which returns in
every case) the call never raises to the caller. -/
theorem C5_broker_failure_falls_back_in_process (w : SchedWorld)
    (run_id workflow_id : String) (payload : PyVal)
    (h : ∃ msg, w.sendResult "workflow-requests"
      { type := "workflow.run.requested", run_id := run_id
        workflow_id := workflow_id, payload := payload } = .error msg) :
    enqueue_workflow_run w run_id workflow_id payload =
      [.send "workflow-requests"
        { type := "workflow.run.requested", run_id := run_id
          workflow_id := workflow_id, payload := payload },
       .delayCall run_id (.dict [("id", .str workflow_id)]) payload] ∨
    enqueue_workflow_run w run_id workflow_id payload =
      [.send "workflow-requests"
        { type := "workflow.run.requested", run_id := run_id
          workflow_id := workflow_id, payload := payload },
       .delayCall run_id (.dict [("id", .str workflow_id)]) payload,
       .directCall run_id (.dict [("id", .str workflow_id)]) payload] := by
  obtain ⟨msg, hmsg⟩ := h
  simp only [enqueue_workflow_run, hmsg]
  cases hd : w.delayResult run_id (.dict [("id", .str workflow_id)]) payload with
  | ok v => exact Or.inl rfl
  | error e => exact Or.inr rfl

/-- C5 witness: with a broker whose publish raises and a Celery hand-off that
also raises, the adapter performs the direct in-process call with identical
arguments. -/
theorem C5_broker_failure_falls_back_in_process_witness :
    (let w : SchedWorld :=
      { sendResult := fun _ _ => .error "broker down"
        delayResult := fun _ _ _ => .error "celery unavailable"
        callResult := fun _ _ _ => .ok PyVal.none }
    (∃ msg, w.sendResult "workflow-requests"
      { type := "workflow.run.requested", run_id := "r1"
        workflow_id := "wf1", payload := PyVal.int 1 } = .error msg) ∧
    (enqueue_workflow_run w "r1" "wf1" (PyVal.int 1) =
      [.send "workflow-requests"
        { type := "workflow.run.requested", run_id := "r1"
          workflow_id := "wf1", payload := PyVal.int 1 },
       .delayCall "r1" (.dict [("id", .str "wf1")]) (PyVal.int 1)] ∨
     enqueue_workflow_run w "r1" "wf1" (PyVal.int 1) =
      [.send "workflow-requests"
        { type := "workflow.run.requested", run_id := "r1"
          workflow_id := "wf1", payload := PyVal.int 1 },
       .delayCall "r1" (.dict [("id", .str "wf1")]) (PyVal.int 1),
       .directCall "r1" (.dict [("id", .str "wf1")]) (PyVal.int 1)])) :=
  ⟨⟨"broker down", rfl⟩,
    C5_broker_failure_falls_back_in_process _ "r1" "wf1" (PyVal.int 1)
      ⟨"broker down", rfl⟩⟩

/-- Model of the topic-consumption loop `_consume_one` in `run_worker`:
`async for ev in consumer: try: await handler(ev) except: log`.  The
consumer is the in-process FIFO queue of the topic, modelled by the list of
events published to it, in publish order.  The handler is an arbitrary
stateful collaborator: it transforms its own state `σ` (its side effects)
and may raise; the loop catches and logs every handler exception and keeps
consuming. -/
def _consume_one {σ : Type} (handler : σ → PyVal → σ × Except String Unit) :
    σ → List PyVal → σ
  | s, [] => s
  | s, ev :: rest =>
    let r := handler s ev
    _consume_one handler r.1 rest

/-- Instrumentation used to observe deliveries: wraps a handler so that its
state additionally records the list of events it was invoked on. -/
def recordingHandler {σ : Type} (handler : σ → PyVal → σ × Except String Unit) :
    (σ × List PyVal) → PyVal → ((σ × List PyVal) × Except String Unit) :=
  fun st ev =>
    let r := handler st.1 ev
    ((r.1, st.2 ++ [ev]), r.2)

theorem consume_one_recording {σ : Type}
    (handler : σ → PyVal → σ × Except String Unit) :
    ∀ (events : List PyVal) (s0 : σ) (log : List PyVal),
      (_consume_one (recordingHandler handler) (s0, log) events).2 =
        log ++ events := by
  intro events
  induction events with
  | nil => intro s0 log; simp [_consume_one]
  | cons ev rest ih =>
    intro s0 log
    simp only [_consume_one, recordingHandler]
    rw [ih]
    simp

/-- C7: the consumption loop of the worker never terminates because of a
handler exception: for every handler (however it fails) and every list of
events published on the topic, the handler is invoked on every event in
publish order — in particular every event published after a handler failure
is still delivered and handled.  (A loop without the `try/except` would
stop at the first raising event.) -/
theorem C7_handler_exception_does_not_stop_loop {σ : Type}
    (handler : σ → PyVal → σ × Except String Unit) (s0 : σ)
    (events : List PyVal) :
    (_consume_one (recordingHandler handler) (s0, []) events).2 = events := by
  simpa using consume_one_recording handler events s0 []

end MessagingModel

section StateMachineModel

/-! Model of `src/orchestrator/state_machine.py`. -/

namespace SM

/-- Runtime variables dict of the state machine context. -/
abbrev Vars := PyDict PyVal

/-- `StateMachineEvent`: name, data map and an abstract timestamp tick. -/
structure StateMachineEvent where
  name : String
  data : PyDict PyVal
  timestamp : Nat

/-- `Guard`: a predicate over the variables and the event.  The callable may
raise, hence the `Except` result.  (Guards are modelled as non-mutating:
the executor only reads their boolean result.) -/
structure Guard where
  name : String
  condition : Vars → StateMachineEvent → Except String Bool
  description : String := ""

/-- `Action`: a callable that may mutate the variables dict and may raise;
mutations performed before a raise are kept, so the result carries the new
variables in both cases. -/
structure Action where
  name : String
  execute : Vars → Option StateMachineEvent → Vars × Except String Unit
  description : String := ""

/-- `StateType`. -/
inductive StateType where
  | simple
  | composite
  | parallel
  | final
deriving DecidableEq

/-- `TransitionType` (never read by the executor; `local` is renamed
`localWithin` because `local` is a Lean keyword). -/
inductive TransitionType where
  | external
  | internal
  | localWithin
deriving DecidableEq

/-- `Transition`. -/
structure Transition where
  id : String
  source_state : String
  target_state : String
  event : String
  guard : Option Guard := Option.none
  action : Option Action := Option.none
  transition_type : TransitionType := .external
  priority : Int := 0

/-- `State`. -/
structure State where
  id : String
  name : String
  state_type : StateType := .simple
  parent : Option String := Option.none
  substates : List String := []
  initial_state : Option String := Option.none
  entry_action : Option Action := Option.none
  exit_action : Option Action := Option.none
  do_activity : Option Action := Option.none
  regions : List (List String) := []

/-- `StateMachineDefinition`. -/
structure StateMachineDefinition where
  id : String
  name : String
  description : String := ""
  states : List State := []
  transitions : List Transition := []
  initial_state : String := ""
  final_states : List String := []
  vars : Vars := []

/-- The mutable runtime state of `AdvancedStateMachine` and its
`StateMachineContext`: the active-state set (a Python set, modelled as a
duplicate-free insertion-ordered list), the variables dict, the event
history, and the keys of `_running_activities` (the do-activity tasks;
the background loops themselves only touch `variables` and are modelled by
their registration). -/
structure MachineState where
  current_states : List String
  vars : Vars
  history : List StateMachineEvent
  running_activities : List String

/-- `_state_map`: the dict comprehension `{s.id: s for s in states}`
(insertion order, last assignment wins). -/
def stateMap (states : List State) : PyDict State :=
  states.foldl (fun m s => pyDictSet m s.id s) []

/-- Appends a transition to the bucket of its source state
(first loop of `_build_transition_map`). -/
def insertTransition (m : PyDict (List Transition)) (t : Transition) :
    PyDict (List Transition) :=
  match pyDictGet? m t.source_state with
  | Option.none => pyDictSet m t.source_state [t]
  | some ts => pyDictSet m t.source_state (ts ++ [t])

/-- Stable insertion into a priority-descending list: a transition with equal
priority goes after the ones already present, matching the stability of
Python's `list.sort(key=..., reverse=True)`. -/
def insertByPriority (sorted : List Transition) (t : Transition) : List Transition :=
  match sorted with
  | [] => [t]
  | u :: us =>
    if u.priority < t.priority then t :: u :: us else u :: insertByPriority us t

/-- Stable sort by descending priority (any stable sort produces the same
list as Python's stable `list.sort` with `reverse=True`). -/
def sortByPriorityDesc (ts : List Transition) : List Transition :=
  ts.foldl insertByPriority []

/-- `_build_transition_map`: bucket transitions by source state, then sort
each bucket by descending priority. -/
def transitionMap (d : StateMachineDefinition) : PyDict (List Transition) :=
  let raw := d.transitions.foldl insertTransition []
  raw.map (fun p => (p.1, sortByPriorityDesc p.2))

/-- `self._transition_map.get(state_id, [])`. -/
def transitionsFrom (d : StateMachineDefinition) (sid : String) : List Transition :=
  pyDictGetD (transitionMap d) sid []

/-- Errors propagating out of the state-machine executor: a
`ValueError` raised by `_enter_state`, an exception from an action
(re-raised by `_execute_action`), or exhaustion of the modelling recursion
budget (Python's recursion limit). -/
inductive SMErr where
  | valueError (msg : String)
  | actionError (msg : String)
  | fuelExhausted

/-- `_execute_action`: runs the callable on the variables; an exception is
logged and re-raised (the mutated variables are kept). -/
def _execute_action (st : MachineState) (a : Action)
    (ev : Option StateMachineEvent) : Except (SMErr × MachineState) MachineState :=
  let r := a.execute st.vars ev
  match r.2 with
  | .ok _ => .ok { st with vars := r.1 }
  | .error m => .error (.actionError m, { st with vars := r.1 })

/-- Combined model of `_enter_state` (the `Sum.inl` case) and of its
iteration over the regions of a parallel state (the `Sum.inr` case; Python
runs `for region in state.regions: if region: await self._enter_state(region[0])`;
the iteration is expressed as recursion on the region list so that the
whole definition is structural in the `fuel` budget).  Entering a state:
add it to the active set, run the entry action, enter the initial substate
of a composite (skipped if `initial_state` is falsy), enter the first
state of every non-empty region of a parallel, then register the
do-activity task. -/
def enterAux (states : List State) :
    Nat → MachineState → Sum String (List (List String)) →
    Except (SMErr × MachineState) MachineState
  | 0, st, _ => .error (.fuelExhausted, st)
  | _ + 1, st, .inr [] => .ok st
  | fuel + 1, st, .inr (region :: rest) =>
    match region with
    | [] => enterAux states fuel st (.inr rest)
    | r0 :: _ =>
      match enterAux states fuel st (.inl r0) with
      | .error e => .error e
      | .ok st2 => enterAux states fuel st2 (.inr rest)
  | fuel + 1, st, .inl state_id =>
    match pyDictGet? (stateMap states) state_id with
    | Option.none => .error (.valueError ("State " ++ state_id ++ " not found"), st)
    | some state =>
      let st1 := { st with current_states := pySetAdd st.current_states state_id }
      let afterEntry : Except (SMErr × MachineState) MachineState :=
        match state.entry_action with
        | Option.none => .ok st1
        | some a => _execute_action st1 a Option.none
      match afterEntry with
      | .error e => .error e
      | .ok st2 =>
        let afterChildren : Except (SMErr × MachineState) MachineState :=
          if state.state_type = .composite then
            match state.initial_state with
            | Option.none => .ok st2
            | some init0 =>
              if init0 == "" then .ok st2 else enterAux states fuel st2 (.inl init0)
          else if state.state_type = .parallel then
            enterAux states fuel st2 (.inr state.regions)
          else .ok st2
        match afterChildren with
        | .error e => .error e
        | .ok st3 =>
          .ok (match state.do_activity with
               | Option.none => st3
               | some _ =>
                 { st3 with running_activities :=
                     pySetAdd st3.running_activities state_id })

/-- `_enter_state`. -/
def _enter_state (d : StateMachineDefinition) (fuel : Nat) (st : MachineState)
    (state_id : String) : Except (SMErr × MachineState) MachineState :=
  enterAux d.states fuel st (.inl state_id)

/-- Combined model of `_exit_state` (the `Sum.inl` case) and of its
sequential exits over a list of candidate substates (the `Sum.inr` case,
used both for the pre-computed substate snapshot of a composite state and
for the flattened regions of a parallel state; the per-element membership
check of the Python loops is subsumed by the check at the head of
`_exit_state` itself).  Exiting a state: return if inactive, cancel its
do-activity, exit active substates / region states, run the exit action,
then remove it from the active set. -/
def exitAux (states : List State) :
    Nat → MachineState → Sum String (List String) →
    Except (SMErr × MachineState) MachineState
  | 0, st, _ => .error (.fuelExhausted, st)
  | _ + 1, st, .inr [] => .ok st
  | fuel + 1, st, .inr (sid :: rest) =>
    match exitAux states fuel st (.inl sid) with
    | .error e => .error e
    | .ok st2 => exitAux states fuel st2 (.inr rest)
  | fuel + 1, st, .inl state_id =>
    if st.current_states.contains state_id then
      match pyDictGet? (stateMap states) state_id with
      | Option.none => .ok st
      | some state =>
        let st1 := { st with
          running_activities := st.running_activities.erase state_id }
        let afterChildren : Except (SMErr × MachineState) MachineState :=
          if state.state_type = .composite then
            exitAux states fuel st1
              (.inr (state.substates.filter
                (fun s => st1.current_states.contains s)))
          else if state.state_type = .parallel then
            exitAux states fuel st1 (.inr state.regions.flatten)
          else .ok st1
        match afterChildren with
        | .error e => .error e
        | .ok st2 =>
          let afterExit : Except (SMErr × MachineState) MachineState :=
            match state.exit_action with
            | Option.none => .ok st2
            | some a => _execute_action st2 a Option.none
          match afterExit with
          | .error e => .error e
          | .ok st3 =>
            .ok { st3 with
              current_states := st3.current_states.erase state_id }
    else .ok st

/-- `_execute_transition`: exit the source state, run the transition action,
enter the target state; exceptions are logged and re-raised. -/
def _execute_transition (states : List State) (fuel : Nat) (st : MachineState)
    (t : Transition) (ev : StateMachineEvent) :
    Except (SMErr × MachineState) MachineState :=
  match exitAux states fuel st (.inl t.source_state) with
  | .error e => .error e
  | .ok st1 =>
    let afterAct : Except (SMErr × MachineState) MachineState :=
      match t.action with
      | Option.none => .ok st1
      | some a => _execute_action st1 a (some ev)
    match afterAct with
    | .error e => .error e
    | .ok st2 => enterAux states fuel st2 (.inl t.target_state)

/-- The loop of `_process_transitions_for_state` over the (sorted) transition
list of one state: the first transition matching the event name (or the
wildcard) whose guard passes is executed and `True` is returned; a guard
returning false — or a guard raising, which is caught, logged and treated
the same way — makes evaluation continue with the remaining transitions. -/
def processTransitionList (states : List State) (fuel : Nat)
    (ev : StateMachineEvent) :
    MachineState → List Transition → Except (SMErr × MachineState) (Bool × MachineState)
  | st, [] => .ok (false, st)
  | st, t :: rest =>
    if t.event == ev.name || t.event == "*" then
      match t.guard with
      | some g =>
        match g.condition st.vars ev with
        | .ok true =>
          match _execute_transition states fuel st t ev with
          | .error e => .error e
          | .ok st2 => .ok (true, st2)
        | .ok false => processTransitionList states fuel ev st rest
        | .error _ => processTransitionList states fuel ev st rest
      | Option.none =>
        match _execute_transition states fuel st t ev with
        | .error e => .error e
        | .ok st2 => .ok (true, st2)
    else processTransitionList states fuel ev st rest

/-- `_process_transitions_for_state`. -/
def _process_transitions_for_state (d : StateMachineDefinition) (fuel : Nat)
    (st : MachineState) (state_id : String) (ev : StateMachineEvent) :
    Except (SMErr × MachineState) (Bool × MachineState) :=
  processTransitionList d.states fuel ev st (transitionsFrom d state_id)

/-- The loop of `send_event` over the snapshot of the active states. -/
def sendEventLoop (states : List State) (tmap : PyDict (List Transition))
    (fuel : Nat) (ev : StateMachineEvent) :
    List String → Bool → MachineState →
    Except (SMErr × MachineState) (Bool × MachineState)
  | [], fired, st => .ok (fired, st)
  | sid :: rest, fired, st =>
    match processTransitionList states fuel ev st (pyDictGetD tmap sid []) with
    | .error e => .error e
    | .ok (f, st2) => sendEventLoop states tmap fuel ev rest (fired || f) st2

/-- `send_event`: record the event in the history, then process transitions
for every active state (iterating over a snapshot of the active-state set),
returning whether any transition fired. -/
def send_event (d : StateMachineDefinition) (fuel : Nat) (st : MachineState)
    (ev : StateMachineEvent) :
    Except (SMErr × MachineState) (Bool × MachineState) :=
  let st1 := { st with history := st.history ++ [ev] }
  sendEventLoop d.states (transitionMap d) fuel ev st1.current_states false st1

end SM

end StateMachineModel

namespace SM

theorem enterAux_inr_nil (states : List State) (fuel : Nat) (st : MachineState) :
    enterAux states (fuel + 1) st (.inr []) = .ok st := rfl

theorem enterAux_inr_empty (states : List State) (fuel : Nat) (st : MachineState)
    (rest : List (List String)) :
    enterAux states (fuel + 1) st (.inr ([] :: rest)) =
      enterAux states fuel st (.inr rest) := rfl

theorem enterAux_inr_cons (states : List State) (fuel : Nat) (st : MachineState)
    (r0 : String) (rtl : List String) (rest : List (List String)) :
    enterAux states (fuel + 1) st (.inr ((r0 :: rtl) :: rest)) =
      match enterAux states fuel st (.inl r0) with
      | .error e => .error e
      | .ok st2 => enterAux states fuel st2 (.inr rest) := rfl

end SM

namespace SM

/-- A guard that always evaluates to false without raising. -/
def falseGuard : Guard :=
  { name := "guard_false", condition := fun _ _ => .ok false }

/-- Replaces the guard of the transitions named `tid` by the constant-false
guard, leaving every other field (in particular `source_state` and
`priority`) unchanged. -/
def replaceGuardWithFalse (tid : String) (t : Transition) : Transition :=
  if t.id == tid then { t with guard := some falseGuard } else t

/-- The state machine definition with the guard of the transitions named
`tid` replaced by the constant-false guard. -/
def guardFalsified (d : StateMachineDefinition) (tid : String) :
    StateMachineDefinition :=
  { d with transitions := d.transitions.map (replaceGuardWithFalse tid) }

theorem pyDictGet?_map_values {α β : Type} (F : α → β) (m : PyDict α) (k : String) :
    pyDictGet? (m.map (fun p => (p.1, F p.2))) k = (pyDictGet? m k).map F := by
  induction m with
  | nil => rfl
  | cons hd tl ih =>
    obtain ⟨k1, v1⟩ := hd
    by_cases h : k1 = k
    · simp [pyDictGet?, h]
    · simp [pyDictGet?, h, ih]

theorem pyDictSet_map_values {α β : Type} (F : α → β) (m : PyDict α)
    (k : String) (v : α) :
    pyDictSet (m.map (fun p => (p.1, F p.2))) k (F v) =
      (pyDictSet m k v).map (fun p => (p.1, F p.2)) := by
  induction m with
  | nil => rfl
  | cons hd tl ih =>
    obtain ⟨k1, v1⟩ := hd
    by_cases h : k1 = k
    · simp [pyDictSet, h]
    · simp [pyDictSet, h, ih]

theorem insertTransition_map (g : Transition → Transition)
    (hsrc : ∀ t, (g t).source_state = t.source_state)
    (m : PyDict (List Transition)) (t : Transition) :
    insertTransition (m.map (fun p => (p.1, p.2.map g))) (g t) =
      (insertTransition m t).map (fun p => (p.1, p.2.map g)) := by
  unfold insertTransition
  rw [hsrc t, pyDictGet?_map_values (List.map g) m t.source_state]
  cases hm : pyDictGet? m t.source_state with
  | none =>
    simpa using pyDictSet_map_values (List.map g) m t.source_state [t]
  | some ts =>
    simpa using pyDictSet_map_values (List.map g) m t.source_state (ts ++ [t])

theorem buckets_map (g : Transition → Transition)
    (hsrc : ∀ t, (g t).source_state = t.source_state) :
    ∀ (l : List Transition) (acc : PyDict (List Transition)),
      (l.map g).foldl insertTransition (acc.map (fun p => (p.1, p.2.map g))) =
        (l.foldl insertTransition acc).map (fun p => (p.1, p.2.map g)) := by
  intro l
  induction l with
  | nil => intro acc; rfl
  | cons t rest ih =>
    intro acc
    simp only [List.map_cons, List.foldl_cons]
    rw [insertTransition_map g hsrc acc t, ih]

theorem insertByPriority_map (g : Transition → Transition)
    (hpr : ∀ t, (g t).priority = t.priority) :
    ∀ (l : List Transition) (t : Transition),
      insertByPriority (l.map g) (g t) = (insertByPriority l t).map g := by
  intro l
  induction l with
  | nil => intro t; rfl
  | cons u rest ih =>
    intro t
    simp only [List.map_cons, insertByPriority, hpr]
    by_cases h : u.priority < t.priority
    · simp [h]
    · simp [h, ih t]

theorem sortByPriorityDesc_map (g : Transition → Transition)
    (hpr : ∀ t, (g t).priority = t.priority) (l : List Transition) :
    sortByPriorityDesc (l.map g) = (sortByPriorityDesc l).map g := by
  unfold sortByPriorityDesc
  suffices h : ∀ (l acc : List Transition),
      (l.map g).foldl insertByPriority (acc.map g) =
        (l.foldl insertByPriority acc).map g by
    simpa using h l []
  intro l2
  induction l2 with
  | nil => intro acc; rfl
  | cons t rest ih =>
    intro acc
    simp only [List.map_cons, List.foldl_cons]
    rw [insertByPriority_map g hpr acc t, ih]

theorem mem_insertByPriority (l : List Transition) (t x : Transition) :
    x ∈ insertByPriority l t ↔ x = t ∨ x ∈ l := by
  induction l with
  | nil => simp [insertByPriority]
  | cons u rest ih =>
    simp only [insertByPriority]
    by_cases h : u.priority < t.priority
    · simp only [if_pos h, List.mem_cons]
      try tauto
    · simp only [if_neg h, List.mem_cons, ih]
      try tauto

theorem mem_sortByPriorityDesc (l : List Transition) (x : Transition) :
    x ∈ sortByPriorityDesc l ↔ x ∈ l := by
  unfold sortByPriorityDesc
  suffices h : ∀ (l acc : List Transition),
      (x ∈ l.foldl insertByPriority acc ↔ x ∈ acc ∨ x ∈ l) by
    simpa using h l []
  intro l2
  induction l2 with
  | nil => intro acc; simp
  | cons t rest ih =>
    intro acc
    simp only [List.foldl_cons, ih, mem_insertByPriority, List.mem_cons]
    tauto

theorem mem_buckets (l : List Transition) :
    ∀ (acc : PyDict (List Transition)) (k : String) (ts : List Transition),
      pyDictGet? (l.foldl insertTransition acc) k = some ts →
      ∀ x ∈ ts, x ∈ l ∨ ∃ ts0, pyDictGet? acc k = some ts0 ∧ x ∈ ts0 := by
  induction l with
  | nil =>
    intro acc k ts hget x hx
    exact Or.inr ⟨ts, hget, hx⟩
  | cons t rest ih =>
    intro acc k ts hget x hx
    have step := ih (insertTransition acc t) k ts hget x hx
    rcases step with hmem | ⟨ts0, hts0, hx0⟩
    · exact Or.inl (by simp [hmem])
    · unfold insertTransition at hts0
      by_cases hk : t.source_state = k
      · cases hacc : pyDictGet? acc t.source_state with
        | none =>
          rw [hacc] at hts0
          rw [hk] at hts0
          rw [pyDictGet?_set_self] at hts0
          obtain rfl : [t] = ts0 := by injection hts0
          simp only [List.mem_singleton] at hx0
          exact Or.inl (by simp [hx0])
        | some ts1 =>
          rw [hacc] at hts0
          rw [hk] at hts0
          rw [pyDictGet?_set_self] at hts0
          obtain rfl : ts1 ++ [t] = ts0 := by injection hts0
          rcases List.mem_append.mp hx0 with h1 | h2
          · exact Or.inr ⟨ts1, hk ▸ hacc, h1⟩
          · simp only [List.mem_singleton] at h2
            exact Or.inl (by simp [h2])
      · cases hacc : pyDictGet? acc t.source_state with
        | none =>
          rw [hacc, pyDictGet?_set_ne _ _ _ _ hk] at hts0
          exact Or.inr ⟨ts0, hts0, hx0⟩
        | some ts1 =>
          rw [hacc, pyDictGet?_set_ne _ _ _ _ hk] at hts0
          exact Or.inr ⟨ts0, hts0, hx0⟩

theorem mem_transitionsFrom (d : StateMachineDefinition) (sid : String)
    (x : Transition) (hx : x ∈ transitionsFrom d sid) : x ∈ d.transitions := by
  simp only [transitionsFrom, transitionMap, pyDictGetD] at hx
  rw [pyDictGet?_map_values sortByPriorityDesc] at hx
  cases hget : pyDictGet? (d.transitions.foldl insertTransition []) sid with
  | none => rw [hget] at hx; simp at hx
  | some ts =>
    rw [hget] at hx
    simp only [Option.map_some', Option.getD_some] at hx
    rw [mem_sortByPriorityDesc] at hx
    rcases mem_buckets d.transitions [] sid ts hget x hx with h | ⟨ts0, h0, _⟩
    · exact h
    · simp [pyDictGet?] at h0

theorem transitionsFrom_guardFalsified (d : StateMachineDefinition)
    (tid : String) (sid : String) :
    transitionsFrom (guardFalsified d tid) sid =
      (transitionsFrom d sid).map (replaceGuardWithFalse tid) := by
  have hsrc : ∀ t, (replaceGuardWithFalse tid t).source_state = t.source_state := by
    intro t
    unfold replaceGuardWithFalse
    by_cases h : t.id = tid <;> simp [h]
  have hpr : ∀ t, (replaceGuardWithFalse tid t).priority = t.priority := by
    intro t
    unfold replaceGuardWithFalse
    by_cases h : t.id = tid <;> simp [h]
  have hbk : (guardFalsified d tid).transitions.foldl insertTransition [] =
      (d.transitions.foldl insertTransition []).map
        (fun p => (p.1, p.2.map (replaceGuardWithFalse tid))) := by
    simpa [guardFalsified] using
      buckets_map (replaceGuardWithFalse tid) hsrc d.transitions []
  have hmaps : ((d.transitions.foldl insertTransition []).map
        (fun p => (p.1, p.2.map (replaceGuardWithFalse tid)))).map
        (fun p => (p.1, sortByPriorityDesc p.2)) =
      ((d.transitions.foldl insertTransition []).map
        (fun p => (p.1, sortByPriorityDesc p.2))).map
        (fun p => (p.1, p.2.map (replaceGuardWithFalse tid))) := by
    simp only [List.map_map]
    refine List.map_congr_left ?_
    intro p hp
    simp [Function.comp, sortByPriorityDesc_map (replaceGuardWithFalse tid) hpr]
  simp only [transitionsFrom, transitionMap, pyDictGetD]
  rw [hbk, hmaps, pyDictGet?_map_values (List.map (replaceGuardWithFalse tid))]
  cases pyDictGet? ((d.transitions.foldl insertTransition []).map
      (fun p => (p.1, sortByPriorityDesc p.2))) sid <;> simp

end SM

namespace SM

theorem processTransitionList_cons_guard (states : List State) (fuel : Nat)
    (ev : StateMachineEvent) (st : MachineState) (t : Transition)
    (rest : List Transition) (g0 : Guard)
    (hev : (t.event == ev.name || t.event == "*") = true)
    (hg : t.guard = some g0) :
    processTransitionList states fuel ev st (t :: rest) =
      match g0.condition st.vars ev with
      | .ok true =>
        (match _execute_transition states fuel st t ev with
         | .error e => .error e
         | .ok st2 => .ok (true, st2))
      | .ok false => processTransitionList states fuel ev st rest
      | .error _ => processTransitionList states fuel ev st rest := by
  simp only [processTransitionList, if_pos hev, hg]

theorem processTransitionList_cons_noguard (states : List State) (fuel : Nat)
    (ev : StateMachineEvent) (st : MachineState) (t : Transition)
    (rest : List Transition)
    (hev : (t.event == ev.name || t.event == "*") = true)
    (hg : t.guard = Option.none) :
    processTransitionList states fuel ev st (t :: rest) =
      match _execute_transition states fuel st t ev with
      | .error e => .error e
      | .ok st2 => .ok (true, st2) := by
  simp only [processTransitionList, if_pos hev, hg]

theorem processTransitionList_cons_unmatched (states : List State) (fuel : Nat)
    (ev : StateMachineEvent) (st : MachineState) (t : Transition)
    (rest : List Transition)
    (hev : ¬ (t.event == ev.name || t.event == "*") = true) :
    processTransitionList states fuel ev st (t :: rest) =
      processTransitionList states fuel ev st rest := by
  simp only [processTransitionList, if_neg hev]

theorem processTransitionList_replaceGuard (states : List State) (fuel : Nat)
    (ev : StateMachineEvent) (tid : String) :
    ∀ (ts : List Transition) (st : MachineState),
      (∀ t ∈ ts, t.id = tid →
        ∃ g0, t.guard = some g0 ∧
          ∀ v e, ∃ m, g0.condition v e = Except.error m) →
      processTransitionList states fuel ev st (ts.map (replaceGuardWithFalse tid)) =
        processTransitionList states fuel ev st ts := by
  intro ts
  induction ts with
  | nil => intro st _; rfl
  | cons t rest ih =>
    intro st h
    have hrest : ∀ u ∈ rest, u.id = tid →
        ∃ g0, u.guard = some g0 ∧
          ∀ v e, ∃ m, g0.condition v e = Except.error m :=
      fun u hu => h u (by simp [hu])
    simp only [List.map_cons]
    by_cases hid : t.id = tid
    · obtain ⟨g0, hg, hraise⟩ := h t (by simp) hid
      have hrepl : replaceGuardWithFalse tid t =
          { t with guard := some falseGuard } := by
        simp [replaceGuardWithFalse, hid]
      rw [hrepl]
      obtain ⟨m, hm⟩ := hraise st.vars ev
      by_cases hev : (t.event == ev.name || t.event == "*") = true
      · rw [processTransitionList_cons_guard states fuel ev st
            { t with guard := some falseGuard } (rest.map (replaceGuardWithFalse tid))
            falseGuard hev rfl,
          processTransitionList_cons_guard states fuel ev st t rest g0 hev hg, hm]
        simp only [falseGuard]
        exact ih st hrest
      · rw [processTransitionList_cons_unmatched states fuel ev st
            { t with guard := some falseGuard } (rest.map (replaceGuardWithFalse tid)) hev,
          processTransitionList_cons_unmatched states fuel ev st t rest hev]
        exact ih st hrest
    · have hrepl : replaceGuardWithFalse tid t = t := by
        simp [replaceGuardWithFalse, hid]
      rw [hrepl]
      by_cases hev : (t.event == ev.name || t.event == "*") = true
      · cases hg : t.guard with
        | none =>
          rw [processTransitionList_cons_noguard states fuel ev st t
              (rest.map (replaceGuardWithFalse tid)) hev hg,
            processTransitionList_cons_noguard states fuel ev st t rest hev hg]
        | some g0 =>
          rw [processTransitionList_cons_guard states fuel ev st t
              (rest.map (replaceGuardWithFalse tid)) g0 hev hg,
            processTransitionList_cons_guard states fuel ev st t rest g0 hev hg]
          cases hc : g0.condition st.vars ev with
          | ok b =>
            cases b with
            | true => rfl
            | false => exact ih st hrest
          | error m => exact ih st hrest
      · rw [processTransitionList_cons_unmatched states fuel ev st t
            (rest.map (replaceGuardWithFalse tid)) hev,
          processTransitionList_cons_unmatched states fuel ev st t rest hev]
        exact ih st hrest

end SM

namespace SM

theorem sendEventLoop_guardFalsified (d : StateMachineDefinition) (tid : String)
    (h : ∀ t ∈ d.transitions, t.id = tid →
      ∃ g0, t.guard = some g0 ∧
        ∀ v e, ∃ m, g0.condition v e = Except.error m)
    (fuel : Nat) (ev : StateMachineEvent) :
    ∀ (sids : List String) (fired : Bool) (st : MachineState),
      sendEventLoop d.states (transitionMap (guardFalsified d tid)) fuel ev
        sids fired st =
      sendEventLoop d.states (transitionMap d) fuel ev sids fired st := by
  intro sids
  induction sids with
  | nil => intro fired st; rfl
  | cons sid rest ih =>
    intro fired st
    have hb := transitionsFrom_guardFalsified d tid sid
    simp only [transitionsFrom] at hb
    have hall : ∀ t ∈ pyDictGetD (transitionMap d) sid [], t.id = tid →
        ∃ g0, t.guard = some g0 ∧
          ∀ v e, ∃ m, g0.condition v e = Except.error m :=
      fun t ht => h t (mem_transitionsFrom d sid t ht)
    simp only [sendEventLoop]
    rw [hb, processTransitionList_replaceGuard d.states fuel ev tid
      (pyDictGetD (transitionMap d) sid []) st hall]
    cases processTransitionList d.states fuel ev st
        (pyDictGetD (transitionMap d) sid []) with
    | error e => rfl
    | ok p => exact ih (fired || p.1) p.2

end SM

/-- C6: during `send_event`, a transition whose guard raises is treated
exactly as if the guard had returned false: the exception is caught inside
`_process_transitions_for_state`, the transition is skipped, and evaluation
continues with the remaining transitions of the active states.  Formally,
for every machine in which all transitions named `tid` carry a guard that
raises, `send_event` behaves identically to the machine in which those
guards are replaced by a constant-false guard. -/
theorem C6_guard_exception_treated_as_guard_false
    (d : SM.StateMachineDefinition) (tid : String)
    (h : ∀ t ∈ d.transitions, t.id = tid →
      ∃ g0, t.guard = some g0 ∧
        ∀ v e, ∃ m, g0.condition v e = Except.error m)
    (fuel : Nat) (st : SM.MachineState) (ev : SM.StateMachineEvent) :
    SM.send_event d fuel st ev =
      SM.send_event (SM.guardFalsified d tid) fuel st ev := by
  simp only [SM.send_event]
  exact (SM.sendEventLoop_guardFalsified d tid h fuel ev _ false _).symm

/-- C6 witness: a concrete machine with a raising guard on the only
transition named `"t1"` processes events exactly as the machine whose
`"t1"` guard is the constant-false guard. -/
theorem C6_guard_exception_treated_as_guard_false_witness :
    (let gBoom : SM.Guard :=
      { name := "boom", condition := fun _ _ => Except.error "boom" }
    let t1 : SM.Transition :=
      { id := "t1", source_state := "A", target_state := "B", event := "go"
        guard := some gBoom, priority := 1 }
    let t2 : SM.Transition :=
      { id := "t2", source_state := "A", target_state := "B", event := "go" }
    let d : SM.StateMachineDefinition :=
      { id := "m", name := "m"
        states := [{ id := "A", name := "A" }, { id := "B", name := "B" }]
        transitions := [t1, t2] }
    let st0 : SM.MachineState :=
      { current_states := ["A"], vars := [], history := [], running_activities := [] }
    let ev : SM.StateMachineEvent := { name := "go", data := [], timestamp := 0 }
    (∀ t ∈ d.transitions, t.id = "t1" →
      ∃ g0, t.guard = some g0 ∧
        ∀ v e, ∃ m, g0.condition v e = Except.error m) ∧
    SM.send_event d 5 st0 ev =
      SM.send_event (SM.guardFalsified d "t1") 5 st0 ev) := by
  refine ⟨?_, ?_⟩
  · intro t ht hid
    simp only [List.mem_cons, List.mem_singleton, List.not_mem_nil] at ht
    rcases ht with rfl | rfl | hf
    · exact ⟨{ name := "boom", condition := fun _ _ => Except.error "boom" },
        rfl, fun v e => ⟨"boom", rfl⟩⟩
    · exact absurd hid (by decide)
    · exact absurd hf (by simp)
  · refine C6_guard_exception_treated_as_guard_false _ "t1" ?_ 5 _ _
    intro t ht hid
    simp only [List.mem_cons, List.mem_singleton, List.not_mem_nil] at ht
    rcases ht with rfl | rfl | hf
    · exact ⟨{ name := "boom", condition := fun _ _ => Except.error "boom" },
        rfl, fun v e => ⟨"boom", rfl⟩⟩
    · exact absurd hid (by decide)
    · exact absurd hf (by simp)

section WorkflowModel

/-! Model of `src/core/workflow_base.py`: the `WorkflowDefinition` data
model, construction-time validation, Kahn's algorithm for execution
batches, and the `SimpleDAGWorkflow` execution engine. -/

namespace WF

/-- `StepType`. -/
inductive StepType where
  | agent
  | tool
  | condition
  | parallel
  | human_input
  | delay
deriving DecidableEq

/-- The `str()` of a `StepType` member, as interpolated into the
"Unsupported step type" message. -/
def StepType.pyStr : StepType → String
  | .agent => "StepType.AGENT"
  | .tool => "StepType.TOOL"
  | .condition => "StepType.CONDITION"
  | .parallel => "StepType.PARALLEL"
  | .human_input => "StepType.HUMAN_INPUT"
  | .delay => "StepType.DELAY"

/-- The step `config` dict is opaque to the data model; the engine reads
exactly these keys, so the dict is modelled by one optional field per key
read (`config.get(...)` on a missing key yields the default). -/
structure StepConfig where
  agent_name : Option String := Option.none
  tool_name : Option String := Option.none
  condition : Option String := Option.none
  true_value : Option PyVal := Option.none
  false_value : Option PyVal := Option.none
  tool_params : PyDict PyVal := []

/-- `WorkflowStep`. -/
structure WorkflowStep where
  id : String
  name : String := ""
  step_type : StepType := .agent
  config : StepConfig := {}
  dependencies : List String := []
  timeout : Option Int := Option.none
  retry_count : Nat := 0
  condition : Option String := Option.none

/-- `WorkflowDefinition`. -/
structure WorkflowDefinition where
  id : String
  name : String := ""
  description : String := ""
  steps : List WorkflowStep := []
  metadata : PyDict PyVal := []
  timeout : Option Int := Option.none

/-- `WorkflowStatus`. -/
inductive WorkflowStatus where
  | pending
  | running
  | completed
  | failed
  | cancelled
  | paused
deriving DecidableEq

/-- `get_step_by_id`: the first step with the given id. -/
def get_step_by_id (d : WorkflowDefinition) (step_id : String) :
    Option WorkflowStep :=
  d.steps.find? (fun s => s.id == step_id)

/-- The list of step ids, in definition order. -/
def stepIds (d : WorkflowDefinition) : List String :=
  d.steps.map (fun s => s.id)

/-- The dependency list of the step named `x` (empty when no such step
exists), mirroring the `step = get_step_by_id(...); if step:` guard. -/
def stepDeps (d : WorkflowDefinition) (x : String) : List String :=
  match get_step_by_id d x with
  | Option.none => []
  | some s => s.dependencies

/-- The recursion of `has_cycle` inside `_check_circular_dependencies`,
expressed over the dependency list still to be examined for the node on
top of the recursion stack: `for dep_id in step.dependencies: if dep_id
not in visited: if has_cycle(dep_id): return True; elif dep_id in
rec_stack: return True`.  Visiting an unvisited dependency adds it to
`visited` and to the recursion stack and examines its own dependency list
first (the recursive `has_cycle` call); on a `False` return the recursion
stack entry is dropped again, which this functional form models by passing
the caller's stack unchanged to the continuation.  `fuel` bounds the
recursion depth; exhaustion returns `True`, modelling Python's
`RecursionError` (construction fails either way), and is unreachable for
any fuel larger than the total number of ids and dependency entries. -/
def dfsGo (d : WorkflowDefinition) :
    Nat → List String → List String → List String → Bool × List String
  | 0, visited, _, _ => (true, visited)
  | fuel + 1, visited, recStack, deps =>
    match deps with
    | [] => (false, visited)
    | dep :: rest =>
      if visited.contains dep then
        if recStack.contains dep then (true, visited)
        else dfsGo d fuel visited recStack rest
      else
        let visited1 := pySetAdd visited dep
        let recStack1 := pySetAdd recStack dep
        match dfsGo d fuel visited1 recStack1 (stepDeps d dep) with
        | (true, visited2) => (true, visited2)
        | (false, visited2) => dfsGo d fuel visited2 recStack rest

/-- A top-level `has_cycle(step_id)` call (the recursion stack is empty at
that point: every earlier call returned `False` and cleaned it up). -/
def has_cycle (d : WorkflowDefinition) (fuel : Nat) (visited : List String)
    (step_id : String) : Bool × List String :=
  dfsGo d fuel (pySetAdd visited step_id) (pySetAdd [] step_id)
    (stepDeps d step_id)

/-- The loop `for step in self.definition.steps: if step.id not in visited:
if has_cycle(step.id): raise ValueError(...)`. -/
def checkLoop (d : WorkflowDefinition) (fuel : Nat) :
    List String → List WorkflowStep → Except String Unit
  | _, [] => .ok ()
  | visited, s :: rest =>
    if visited.contains s.id then checkLoop d fuel visited rest
    else
      match has_cycle d fuel visited s.id with
      | (true, _) =>
        .error ("Circular dependency detected involving step " ++ s.id)
      | (false, visited2) => checkLoop d fuel visited2 rest

/-- The total number of ids and dependency entries, plus slack: an upper
bound on the depth of the `has_cycle` recursion. -/
def dfsFuel (d : WorkflowDefinition) : Nat :=
  d.steps.length + (d.steps.map (fun s => s.dependencies.length)).sum + 2

/-- `_check_circular_dependencies`. -/
def _check_circular_dependencies (d : WorkflowDefinition) : Except String Unit :=
  checkLoop d (dfsFuel d) [] d.steps

/-- The dependency-existence loop of `_validate_definition`: the first
dependency not naming an existing step raises. -/
def checkDepsExist (ids : List String) : List WorkflowStep → Except String Unit
  | [] => .ok ()
  | s :: rest =>
    match s.dependencies.find? (fun dep => !(ids.contains dep)) with
    | some dep =>
      .error ("Step " ++ s.id ++ " depends on non-existent step " ++ dep)
    | Option.none => checkDepsExist ids rest

/-- `_validate_definition`: reject an empty step list, duplicate step ids
(the id set is smaller than the step list), dependencies on unknown ids,
and circular dependencies, in that order. -/
def _validate_definition (d : WorkflowDefinition) : Except String Unit :=
  if d.steps.isEmpty then .error "Workflow must have at least one step"
  else if (stepIds d).dedup.length != d.steps.length then
    .error "Workflow steps must have unique IDs"
  else
    match checkDepsExist (stepIds d) d.steps with
    | .error e => .error e
    | .ok _ => _check_circular_dependencies d

/-- The two initialization loops of `_build_execution_order`:
`in_degree[step.id] = len(step.dependencies); graph[step.id] = []`. -/
def initDegreeGraph (steps : List WorkflowStep) :
    PyDict Int × PyDict (List String) :=
  steps.foldl
    (fun dg s =>
      (pyDictSet dg.1 s.id (s.dependencies.length : Int), pyDictSet dg.2 s.id []))
    ([], [])

/-- One edge append `graph[dep].append(step.id)` of the edge-building loop.
`graph[dep]` on an uninitialized key raises KeyError, modelled by `none`
(unreachable once dependencies are validated to exist). -/
def appendEdge (sid : String) (gr2 : PyDict (List String)) (dep : String) :
    Option (PyDict (List String)) :=
  match pyDictGet? gr2 dep with
  | Option.none => Option.none
  | some lst => some (pyDictSet gr2 dep (lst ++ [sid]))

/-- The edge-building loop: `for step: for dep: graph[dep].append(step.id)`. -/
def addEdges (steps : List WorkflowStep) (gr0 : PyDict (List String)) :
    Option (PyDict (List String)) :=
  steps.foldlM
    (fun gr s => s.dependencies.foldlM (appendEdge s.id) gr)
    gr0

/-- `in_degree[neighbor] -= 1; if in_degree[neighbor] == 0:
queue.append(neighbor)`. -/
def decrementNeighbor (st : PyDict Int × List String) (nb : String) :
    Option (PyDict Int × List String) :=
  match pyDictGet? st.1 nb with
  | Option.none => Option.none
  | some deg0 =>
    let deg1 := deg0 - 1
    some (pyDictSet st.1 nb deg1, if deg1 = 0 then st.2 ++ [nb] else st.2)

/-- Processing one step of the current batch: decrement every neighbor in
`graph[step_id]`. -/
def processNode (gr : PyDict (List String)) (st : PyDict Int × List String)
    (sid : String) : Option (PyDict Int × List String) :=
  match pyDictGet? gr sid with
  | Option.none => Option.none
  | some nbs => nbs.foldlM decrementNeighbor st

/-- The `while queue:` loop of Kahn's algorithm: append the current batch,
process its members, continue with the newly zero-in-degree queue.  `fuel`
bounds the number of iterations; every iteration schedules a non-empty
batch of ids never scheduled before, so `steps.length + 1` iterations are
always enough (fuel exhaustion, `none`, is unreachable; this is implied by
the theorems below). -/
def kahnLoop (gr : PyDict (List String)) :
    Nat → PyDict Int → List String → List (List String) →
    Option (List (List String))
  | _, _, [], acc => some acc.reverse
  | 0, _, _ :: _, _ => Option.none
  | fuel + 1, deg, queue@(_ :: _), acc =>
    match queue.foldlM (processNode gr) (deg, ([] : List String)) with
    | Option.none => Option.none
    | some (deg2, queue2) => kahnLoop gr fuel deg2 queue2 (queue :: acc)

/-- `_build_execution_order`. -/
def _build_execution_order (d : WorkflowDefinition) :
    Option (List (List String)) :=
  let dg := initDegreeGraph d.steps
  match addEdges d.steps dg.2 with
  | Option.none => Option.none
  | some gr =>
    let queue := (dg.1.filter (fun p => p.2 == 0)).map (fun p => p.1)
    kahnLoop gr (d.steps.length + 1) dg.1 queue []

end WF

end WorkflowModel

section WorkflowEngineModel

namespace WF

/-- An agent in the registry: its `id` attribute and its `run` method.  The
callable may mutate the context and may raise; the returned context carries
the mutations in both cases. -/
structure Agent where
  id : String
  run : PyVal → ExecutionContext → ExecutionContext × Except String PyVal

/-- A tool in the registry: called with the input, the context and the
configured `tool_params`. -/
abbrev ToolFn :=
  PyVal → ExecutionContext → PyDict PyVal → ExecutionContext × Except String PyVal

/-- The `SimpleDAGWorkflow` object: its definition and registries.
`_evaluate_condition` delegates to Python `eval` over an arbitrary
expression string, which cannot be shallow-embedded; since the source
catches every evaluation error (returning False), the evaluator is a total
boolean parameter of the model. -/
structure DAGWorkflow where
  definition : WorkflowDefinition
  agent_registry : PyDict Agent := []
  tool_registry : PyDict ToolFn := []
  _evaluate_condition : String → PyVal → ExecutionContext → Bool := fun _ _ _ => false

/-- `_prepare_step_input`: a step with no dependencies receives the
workflow input argument; otherwise the recorded output of its last-listed
dependency (`previous_outputs.get(last_dep, workflow_input)`). -/
def _prepare_step_input (step : WorkflowStep) (workflow_input : PyVal)
    (previous_outputs : PyDict PyVal) : PyVal :=
  match step.dependencies.getLast? with
  | Option.none => workflow_input
  | some last_dep => pyDictGetD previous_outputs last_dep workflow_input

/-- `_execute_agent_step`.  The best-effort Django `AgentRun` record is an
external side effect whose exceptions the source swallows; it is a no-op
here.  `getattr(agent, "id", agent_name)` is `agent.id` (the model's agents
always carry an id). -/
def _execute_agent_step (wf : DAGWorkflow) (step : WorkflowStep)
    (input_data : PyVal) (ctx : ExecutionContext) (now : Nat) :
    Except (String × ExecutionContext) (PyVal × ExecutionContext) :=
  let nameOk : Option String :=
    match step.config.agent_name with
    | some n => if n == "" then Option.none else some n
    | Option.none => Option.none
  match nameOk with
  | Option.none =>
    .error ("Agent " ++
      (match step.config.agent_name with
       | Option.none => "None"
       | some n => n) ++ " not found in registry", ctx)
  | some n =>
    match pyDictGet? wf.agent_registry n with
    | Option.none => .error ("Agent " ++ n ++ " not found in registry", ctx)
    | some agent =>
      let r := agent.run input_data ctx
      match r.2 with
      | .error m => .error (m, r.1)
      | .ok result =>
        let output :=
          match result with
          | PyVal.dict entries => pyDictGetD entries "output" PyVal.none
          | v => v
        .ok (output,
          r.1.record_agent_execution agent.id
            (match output with
             | PyVal.none => Option.none
             | v => some v) now)

/-- `_execute_tool_step`. -/
def _execute_tool_step (wf : DAGWorkflow) (step : WorkflowStep)
    (input_data : PyVal) (ctx : ExecutionContext) (now : Nat) :
    Except (String × ExecutionContext) (PyVal × ExecutionContext) :=
  let nameOk : Option String :=
    match step.config.tool_name with
    | some n => if n == "" then Option.none else some n
    | Option.none => Option.none
  match nameOk with
  | Option.none =>
    .error ("Tool " ++
      (match step.config.tool_name with
       | Option.none => "None"
       | some n => n) ++ " not found in registry", ctx)
  | some tn =>
    match pyDictGet? wf.tool_registry tn with
    | Option.none => .error ("Tool " ++ tn ++ " not found in registry", ctx)
    | some toolFn =>
      let r := toolFn input_data ctx step.config.tool_params
      match r.2 with
      | .error m => .error (m, r.1)
      | .ok result => .ok (result, r.1.record_tool_execution tn now)

/-- `_execute_condition_step`. -/
def _execute_condition_step (wf : DAGWorkflow) (step : WorkflowStep)
    (input_data : PyVal) (ctx : ExecutionContext) (now : Nat) :
    Except (String × ExecutionContext) (PyVal × ExecutionContext) :=
  let condOk : Option String :=
    match step.config.condition with
    | some c => if c == "" then Option.none else some c
    | Option.none => Option.none
  match condOk with
  | Option.none =>
    .error ("Condition step " ++ step.id ++ " missing condition", ctx)
  | some c =>
    if wf._evaluate_condition c input_data ctx then
      .ok ((step.config.true_value).getD input_data, ctx)
    else
      .ok ((step.config.false_value).getD input_data, ctx)

/-- `_execute_single_step`: prepare the input, dispatch on the step type,
and record the wall-clock duration into `step_timings` on success and on
failure alike (under the ambient-tick clock both `utcnow` readings are
`now`, so the recorded duration is 0). -/
def _execute_single_step (wf : DAGWorkflow) (step : WorkflowStep)
    (input_data : PyVal) (ctx : ExecutionContext)
    (previous_outputs : PyDict PyVal) (now : Nat) :
    Except (String × ExecutionContext) (PyVal × ExecutionContext) :=
  let step_input := _prepare_step_input step input_data previous_outputs
  let dispatch : Except (String × ExecutionContext) (PyVal × ExecutionContext) :=
    match step.step_type with
    | .agent => _execute_agent_step wf step step_input ctx now
    | .tool => _execute_tool_step wf step step_input ctx now
    | .condition => _execute_condition_step wf step step_input ctx now
    | t => .error ("Unsupported step type: " ++ t.pyStr, ctx)
  match dispatch with
  | .ok (result, ctx2) => .ok (result, ctx2.record_step_timing step.id 0 now)
  | .error (m, ctx2) => .error (m, ctx2.record_step_timing step.id 0 now)

/-- The loop of `_execute_step_batch`: the source first collects the
coroutines of the steps that exist (`if step:`) and then awaits them in
order; since creating a coroutine has no effect before it is awaited, the
two loops are merged here.  A step failure records a `step_execution_error`
into the context and re-raises the original exception; a success records
the output as an intermediate result. -/
def batchGo (wf : DAGWorkflow) (input_data : PyVal)
    (previous_outputs : PyDict PyVal) (now : Nat) :
    List String → PyDict PyVal → ExecutionContext →
    Except (String × ExecutionContext) (PyDict PyVal × ExecutionContext)
  | [], results, ctx => .ok (results, ctx)
  | sid :: rest, results, ctx =>
    match get_step_by_id wf.definition sid with
    | Option.none => batchGo wf input_data previous_outputs now rest results ctx
    | some step =>
      match _execute_single_step wf step input_data ctx previous_outputs now with
      | .ok (result, ctx2) =>
        batchGo wf input_data previous_outputs now rest
          (pyDictSet results sid result)
          (ctx2.add_intermediate_result sid result Option.none now)
      | .error (m, ctx2) =>
        .error (m, ctx2.add_error "step_execution_error"
          ("Step " ++ sid ++ ": " ++ m) Option.none now)

/-- `_execute_step_batch`. -/
def _execute_step_batch (wf : DAGWorkflow) (step_ids : List String)
    (input_data : PyVal) (ctx : ExecutionContext)
    (previous_outputs : PyDict PyVal) (now : Nat) :
    Except (String × ExecutionContext) (PyDict PyVal × ExecutionContext) :=
  batchGo wf input_data previous_outputs now step_ids [] ctx

/-- The loop state of `_execute_workflow`: the rolling `current_data`
cursor, the `completed_steps` set, the `step_outputs` dict and the
context. -/
structure RunState where
  current_data : PyVal
  completed_steps : List String
  step_outputs : PyDict PyVal
  ctx : ExecutionContext

/-- One iteration of the batch loop of `_execute_workflow`: check
cooperative cancellation, execute the batch, then fold its results into
the run state (`completed_steps.add`, `step_outputs[step_id] = output`,
`current_data = output`).  `status` is `self.status`, which stays RUNNING
for the whole of a single-threaded run. -/
def execBatch (wf : DAGWorkflow) (status : WorkflowStatus) (now : Nat)
    (st : RunState) (batch : List String) :
    Except (String × ExecutionContext) RunState :=
  if status = .cancelled then
    .error ("Workflow execution was cancelled", st.ctx)
  else
    match _execute_step_batch wf batch st.current_data st.ctx st.step_outputs now with
    | .error e => .error e
    | .ok (results, ctx2) =>
      .ok (results.foldl
        (fun s p =>
          { s with
            completed_steps := pySetAdd s.completed_steps p.1
            step_outputs := pyDictSet s.step_outputs p.1 p.2
            current_data := p.2 })
        { st with ctx := ctx2 })

/-- `SimpleDAGWorkflow._execute_workflow`. -/
def _execute_workflow (wf : DAGWorkflow) (status : WorkflowStatus)
    (input_data : PyVal) (ctx : ExecutionContext) (now : Nat) :
    Except (String × ExecutionContext) (PyVal × ExecutionContext) :=
  let ctx1 := ctx.advance_phase .agent_execution now
  match _build_execution_order wf.definition with
  | Option.none => .error ("KeyError", ctx1)
  | some execution_order =>
    let ctx2 := ctx1.set_shared_data "workflow_input" input_data now
    match execution_order.foldlM (execBatch wf status now)
        { current_data := input_data, completed_steps := []
          step_outputs := [], ctx := ctx2 } with
    | .error e => .error e
    | .ok st => .ok (st.current_data, st.ctx.advance_phase .output_processing now)

/-- `_extract_step_results`. -/
structure StepResults where
  intermediate_results : List IntermediateResult
  executed_tools : List String
  executed_agents : List String
  agent_outputs : PyDict PyVal
  step_timings : PyDict Int

/-- `_extract_step_results`. -/
def _extract_step_results (ctx : ExecutionContext) : StepResults :=
  { intermediate_results := ctx.intermediate_results
    executed_tools := ctx.executed_tools
    executed_agents := ctx.executed_agents
    agent_outputs := ctx.agent_outputs
    step_timings := ctx.step_timings }

/-- `WorkflowExecutionResult` (terminal, immutable). -/
structure WorkflowExecutionResult where
  workflow_id : String
  execution_id : String
  status : WorkflowStatus
  start_time : Nat
  end_time : Option Nat
  output : Option PyVal
  error : Option String
  step_results : StepResults
  duration : Option Int

/-- `WorkflowBase.execute`: starts the context, runs the engine under
status RUNNING, and converts the outcome into a terminal
`WorkflowExecutionResult` — a COMPLETED one carrying the output, or, when
the engine raised, a FAILED one carrying `str(e)` after recording a
`workflow_execution_error` into the context.  `execute` itself returns a
result in both branches and never re-raises.  Audit-trail logging is an
external collaborator modelled as a no-op; `execution_id` stands for the
generated uuid; both `utcnow` readings are the ambient tick, so the
reported duration is 0. -/
def execute (wf : DAGWorkflow) (execution_id : String) (input_data : PyVal)
    (ctx : ExecutionContext) (now : Nat) :
    WorkflowExecutionResult × ExecutionContext × WorkflowStatus :=
  let start_time := now
  let ctx1 := ctx.start_execution now
  match _execute_workflow wf .running input_data ctx1 now with
  | .ok (output, ctx2) =>
    let ctx3 := ctx2.end_execution now
    ({ workflow_id := wf.definition.id
       execution_id := execution_id
       status := .completed
       start_time := start_time
       end_time := some now
       output := some output
       error := Option.none
       step_results := _extract_step_results ctx3
       duration := some 0 }, ctx3, .completed)
  | .error (msg, ctx2) =>
    let ctx3 := ctx2.add_error "workflow_execution_error" msg Option.none now
    ({ workflow_id := wf.definition.id
       execution_id := execution_id
       status := .failed
       start_time := start_time
       end_time := some now
       output := Option.none
       error := some msg
       step_results := _extract_step_results ctx3
       duration := some 0 }, ctx3, .failed)

end WF

end WorkflowEngineModel

section KahnProofs

/-! Correctness development for `_build_execution_order` (claim C1) and the
DFS validation (claim C3). -/

theorem pyDictGet?_append {α : Type} (d1 d2 : PyDict α) (k : String) :
    pyDictGet? (d1 ++ d2) k =
      match pyDictGet? d1 k with
      | some v => some v
      | Option.none => pyDictGet? d2 k := by
  induction d1 with
  | nil => simp [pyDictGet?]
  | cons hd tl ih =>
    obtain ⟨k1, v1⟩ := hd
    by_cases h : k1 = k
    · simp [pyDictGet?, h]
    · simp [pyDictGet?, h, ih]

theorem pyDictGet?_of_pairs {α : Type} (steps : List WF.WorkflowStep)
    (f : WF.WorkflowStep → α) (x : String) :
    pyDictGet? (steps.map (fun s => (s.id, f s))) x =
      (steps.find? (fun s => s.id == x)).map f := by
  induction steps with
  | nil => rfl
  | cons s rest ih =>
    by_cases h : s.id = x
    · simp [pyDictGet?, List.find?, h]
    · have hbeq : (s.id == x) = false := by simp [h]
      simp [pyDictGet?, List.find?, hbeq, ih]

theorem countP_or_disjoint {α : Type} (p r : α → Bool)
    (h : ∀ a, ¬ (p a = true ∧ r a = true)) :
    ∀ l : List α, l.countP (fun a => p a || r a) = l.countP p + l.countP r := by
  intro l
  induction l with
  | nil => simp
  | cons a rest ih =>
    by_cases hp : p a = true
    · have hr : r a = false := by
        cases hra : r a with
        | false => rfl
        | true => exact absurd ⟨hp, hra⟩ (h a)
      simp [List.countP_cons, hp, hr, ih]
      omega
    · simp only [Bool.not_eq_true] at hp
      by_cases hr : r a = true
      · simp [List.countP_cons, hp, hr, ih]
        omega
      · simp only [Bool.not_eq_true] at hr
        simp [List.countP_cons, hp, hr, ih]

theorem countP_split {α : Type} (p r : α → Bool) (l : List α) :
    l.countP p =
      l.countP (fun a => p a && r a) + l.countP (fun a => p a && !r a) := by
  induction l with
  | nil => simp
  | cons a rest ih =>
    cases hp : p a <;> cases hr : r a <;>
      simp [List.countP_cons, hp, hr, ih] <;> omega

theorem nodup_length_le (l L : List String) (hn : l.Nodup)
    (hsub : ∀ x ∈ l, x ∈ L) : l.length ≤ L.length := by
  calc l.length = l.toFinset.card := (List.toFinset_card_of_nodup hn).symm
    _ ≤ L.toFinset.card := by
        apply Finset.card_le_card
        intro x hx
        simp only [List.mem_toFinset] at hx ⊢
        exact hsub x hx
    _ ≤ L.length := L.toFinset_card_le

theorem flatten_index_unique (L : List (List String)) (hn : L.flatten.Nodup)
    (x : String) :
    ∀ i j (hi : i < L.length) (hj : j < L.length),
      x ∈ L.get ⟨i, hi⟩ → x ∈ L.get ⟨j, hj⟩ → i = j := by
  induction L with
  | nil =>
    intro i j hi hj h1 h2
    exact absurd hi (by simp)
  | cons b rest ih =>
    intro i j hi hj hxi hxj
    simp only [List.flatten_cons, List.nodup_append] at hn
    match i, j with
    | 0, 0 => rfl
    | 0, j + 1 =>
      exfalso
      have hj2 : j < rest.length := by simpa using hj
      have hxj2 : x ∈ rest.get ⟨j, hj2⟩ := by simpa using hxj
      have hxr : x ∈ rest.flatten :=
        List.mem_flatten.mpr ⟨rest.get ⟨j, hj2⟩, List.get_mem rest j hj2, hxj2⟩
      exact hn.2.2 hxi hxr
    | i + 1, 0 =>
      exfalso
      have hi2 : i < rest.length := by simpa using hi
      have hxi2 : x ∈ rest.get ⟨i, hi2⟩ := by simpa using hxi
      have hxr : x ∈ rest.flatten :=
        List.mem_flatten.mpr ⟨rest.get ⟨i, hi2⟩, List.get_mem rest i hi2, hxi2⟩
      exact hn.2.2 hxj hxr
    | i + 1, j + 1 =>
      have hi2 : i < rest.length := by simpa using hi
      have hj2 : j < rest.length := by simpa using hj
      have := ih hn.2.1 i j hi2 hj2 (by simpa using hxi) (by simpa using hxj)
      omega

theorem mem_flatten_take (L : List (List String)) (x : String) (j : Nat)
    (hx : x ∈ (L.take j).flatten) :
    ∃ k, ∃ hk : k < L.length, k < j ∧ x ∈ L.get ⟨k, hk⟩ := by
  obtain ⟨l, hl, hxl⟩ := List.mem_flatten.mp hx
  obtain ⟨⟨k, hk⟩, hkl⟩ := List.mem_iff_get.mp hl
  have hkj : k < j ∧ k < L.length := by
    have := hk
    simp only [List.length_take] at this
    omega
  refine ⟨k, hkj.2, hkj.1, ?_⟩
  have hget : (L.take j).get ⟨k, hk⟩ = L.get ⟨k, hkj.2⟩ := by
    simp
  rw [hget] at hkl
  exact hkl ▸ hxl

namespace WF

/-- The direct dependency relation of a definition: the step named `a`
lists `b` among its dependencies. -/
def depEdge (d : WorkflowDefinition) (a b : String) : Prop :=
  ∃ s, get_step_by_id d a = some s ∧ b ∈ s.dependencies

/-- Acyclicity of the dependency graph: no step depends transitively on
itself. -/
def Acyclic (d : WorkflowDefinition) : Prop :=
  ∀ a, ¬ Relation.TransGen (depEdge d) a a

/-- Every dependency names an existing step. -/
def depsOK (d : WorkflowDefinition) : Prop :=
  ∀ s ∈ d.steps, ∀ dep ∈ s.dependencies, dep ∈ stepIds d

/-- The final contents of the `graph[p]` bucket: one occurrence of `s.id`
for every occurrence of `p` among the dependencies of `s`, in step order. -/
def dependentsOf (steps : List WorkflowStep) (p : String) : List String :=
  steps.flatMap
    (fun s => (s.dependencies.filter (fun dep => dep == p)).map (fun _ => s.id))

theorem get_step_by_id_mem {d : WorkflowDefinition} {x : String}
    {s : WorkflowStep} (h : get_step_by_id d x = some s) :
    s ∈ d.steps ∧ s.id = x := by
  refine ⟨List.mem_of_find?_eq_some h, ?_⟩
  have := List.find?_some h
  simpa using this

theorem mem_stepIds_iff {d : WorkflowDefinition} {x : String} :
    x ∈ stepIds d ↔ ∃ s ∈ d.steps, s.id = x := by
  simp [stepIds]

theorem get_step_isSome_iff {d : WorkflowDefinition} {x : String} :
    (get_step_by_id d x).isSome ↔ x ∈ stepIds d := by
  rw [get_step_by_id, List.find?_isSome, mem_stepIds_iff]
  constructor
  · rintro ⟨s, hs, he⟩
    exact ⟨s, hs, by simpa using he⟩
  · rintro ⟨s, hs, he⟩
    exact ⟨s, hs, by simpa using he⟩

theorem find?_eq_of_nodup_keys :
    ∀ (steps : List WorkflowStep) (s : WorkflowStep),
      (steps.map (fun t => t.id)).Nodup → s ∈ steps →
      steps.find? (fun t => t.id == s.id) = some s := by
  intro steps
  induction steps with
  | nil => intro s _ hs; simp at hs
  | cons t rest ih =>
    intro s hn hs
    simp only [List.map_cons, List.nodup_cons] at hn
    rcases List.mem_cons.mp hs with rfl | hmem
    · simp [List.find?]
    · have hne : ¬ t.id = s.id := by
        intro he
        exact hn.1 (he ▸ (List.mem_map.mpr ⟨s, hmem, rfl⟩))
      have hbeq : (t.id == s.id) = false := by simp [hne]
      simp [List.find?, hbeq]
      exact ih s hn.2 hmem

theorem get_step_by_id_of_mem {d : WorkflowDefinition} {s : WorkflowStep}
    (hn : (stepIds d).Nodup) (hs : s ∈ d.steps) :
    get_step_by_id d s.id = some s :=
  find?_eq_of_nodup_keys d.steps s hn hs

theorem stepDeps_of_mem {d : WorkflowDefinition} {s : WorkflowStep}
    (hn : (stepIds d).Nodup) (hs : s ∈ d.steps) :
    stepDeps d s.id = s.dependencies := by
  rw [stepDeps, get_step_by_id_of_mem hn hs]

theorem depEdge_of_mem_stepDeps {d : WorkflowDefinition} {x dd : String}
    (h : dd ∈ stepDeps d x) : depEdge d x dd := by
  rw [stepDeps] at h
  cases hg : get_step_by_id d x with
  | none => rw [hg] at h; simp at h
  | some s =>
    rw [hg] at h
    exact ⟨s, hg, h⟩

theorem mem_stepIds_of_stepDeps_ne {d : WorkflowDefinition} {x : String}
    (h : ¬ stepDeps d x = []) : x ∈ stepIds d := by
  rw [stepDeps] at h
  cases hg : get_step_by_id d x with
  | none => rw [hg] at h; simp at h
  | some s =>
    obtain ⟨hs, he⟩ := get_step_by_id_mem hg
    exact he ▸ List.mem_map.mpr ⟨s, hs, rfl⟩

theorem stepDeps_sub_ids {d : WorkflowDefinition} (hdeps : depsOK d)
    {x dd : String} (h : dd ∈ stepDeps d x) : dd ∈ stepIds d := by
  rw [stepDeps] at h
  cases hg : get_step_by_id d x with
  | none => rw [hg] at h; simp at h
  | some s =>
    rw [hg] at h
    exact hdeps s (get_step_by_id_mem hg).1 dd h

theorem mem_dependentsOf {steps : List WorkflowStep} {p y : String}
    (h : y ∈ dependentsOf steps p) :
    ∃ s ∈ steps, s.id = y ∧ p ∈ s.dependencies := by
  rw [dependentsOf, List.mem_flatMap] at h
  obtain ⟨s, hs, hy⟩ := h
  rw [List.mem_map] at hy
  obtain ⟨dep, hdep, he⟩ := hy
  rw [List.mem_filter] at hdep
  refine ⟨s, hs, he, ?_⟩
  have hdp : dep = p := by simpa using hdep.2
  exact hdp ▸ hdep.1

theorem count_const_map {α : Type} (c x : String) (l : List α) :
    ((l.map (fun _ => c)).count x) = if c = x then l.length else 0 := by
  induction l with
  | nil => simp
  | cons a rest ih =>
    rw [List.map_cons, List.count_cons, ih]
    by_cases h : c = x
    · simp [h]
    · simp [h]

theorem count_dependentsOf :
    ∀ (steps : List WorkflowStep), (steps.map (fun t => t.id)).Nodup →
      ∀ (p x : String),
      (dependentsOf steps p).count x =
        (match steps.find? (fun t => t.id == x) with
         | some s => s.dependencies.count p
         | Option.none => 0) := by
  intro steps
  induction steps with
  | nil => intro _ p x; rfl
  | cons s rest ih =>
    intro hn p x
    simp only [List.map_cons, List.nodup_cons] at hn
    have hcons : dependentsOf (s :: rest) p =
        ((s.dependencies.filter (fun dep => dep == p)).map (fun _ => s.id)) ++
          dependentsOf rest p := rfl
    rw [hcons, List.count_append]
    have hchunk : (((s.dependencies.filter (fun dep => dep == p)).map
        (fun _ => s.id)).count x) =
        if s.id = x then s.dependencies.count p else 0 := by
      rw [count_const_map]
      by_cases h : s.id = x
      · simp only [if_pos h]
        rw [← List.countP_eq_length_filter, ← List.count_eq_countP]
      · simp [h]
    rw [show (dependentsOf rest p).count x =
        (match rest.find? (fun t => t.id == x) with
         | some t => t.dependencies.count p
         | Option.none => 0) from ih hn.2 p x]
    by_cases h : s.id = x
    · have hbeq : (s.id == x) = true := by simp [h]
      have hrest : rest.find? (fun t => t.id == x) = Option.none := by
        rw [List.find?_eq_none]
        intro t ht he
        have : t.id = x := by simpa using he
        exact hn.1 (h ▸ this ▸ List.mem_map.mpr ⟨t, ht, rfl⟩)
      rw [List.find?_cons, hbeq]
      simp [hchunk, h, hrest]
      rw [← List.countP_eq_length_filter, ← List.count_eq_countP]
    · have hbeq : (s.id == x) = false := by simp [h]
      rw [List.find?_cons, hbeq]
      simp only [Bool.false_eq_true, if_false]
      rw [hchunk, if_neg h]
      have hih := ih hn.2 p x
      omega

theorem count_flatMap_dependentsOf (d : WorkflowDefinition)
    (hn : (stepIds d).Nodup) :
    ∀ (Q : List String), Q.Nodup → ∀ x,
      ((Q.flatMap (dependentsOf d.steps)).count x) =
        (stepDeps d x).countP (fun dd => Q.contains dd) := by
  intro Q
  induction Q with
  | nil =>
    intro _ x
    simp [List.countP_eq_length_filter]
  | cons q Qr ih =>
    intro hq x
    have hq1 : ¬ q ∈ Qr := (List.nodup_cons.mp hq).1
    rw [List.flatMap_cons, List.count_append, ih (List.nodup_cons.mp hq).2 x]
    have h2 : (dependentsOf d.steps q).count x = (stepDeps d x).count q := by
      rw [count_dependentsOf d.steps hn q x, stepDeps, get_step_by_id]
      cases d.steps.find? (fun t => t.id == x) <;> simp
    rw [h2, List.count_eq_countP]
    have hdisj : ∀ a : String,
        ¬ ((a == q) = true ∧ Qr.contains a = true) := by
      rintro a ⟨h1a, h2a⟩
      have ha : a = q := by simpa using h1a
      subst ha
      exact hq1 (by simpa using h2a)
    rw [← countP_or_disjoint (fun dd => dd == q) (fun dd => Qr.contains dd) hdisj]
    refine List.countP_congr ?_
    intro dd _
    simp [List.contains_cons]

theorem pyDictSet_fresh {α : Type} (d : PyDict α) (k : String) (v : α)
    (h : pyDictGet? d k = Option.none) : pyDictSet d k v = d ++ [(k, v)] := by
  induction d with
  | nil => rfl
  | cons hd tl ih =>
    obtain ⟨k1, v1⟩ := hd
    by_cases h1 : k1 = k
    · rw [pyDictGet?] at h
      simp [h1] at h
    · rw [pyDictGet?] at h
      simp only [beq_iff_eq, h1, if_false] at h
      simp [pyDictSet, h1, ih h]

theorem initDegreeGraph_eq (steps : List WorkflowStep)
    (hn : (steps.map (fun t => t.id)).Nodup) :
    initDegreeGraph steps =
      (steps.map (fun s => (s.id, (s.dependencies.length : Int))),
       steps.map (fun s => (s.id, ([] : List String)))) := by
  suffices h : ∀ (ss : List WorkflowStep) (acc1 : PyDict Int)
      (acc2 : PyDict (List String)),
      (ss.map (fun t => t.id)).Nodup →
      (∀ s ∈ ss, pyDictGet? acc1 s.id = Option.none) →
      (∀ s ∈ ss, pyDictGet? acc2 s.id = Option.none) →
      ss.foldl
        (fun dg s =>
          (pyDictSet dg.1 s.id (s.dependencies.length : Int), pyDictSet dg.2 s.id []))
        (acc1, acc2) =
        (acc1 ++ ss.map (fun s => (s.id, (s.dependencies.length : Int))),
         acc2 ++ ss.map (fun s => (s.id, ([] : List String)))) by
    have h0 := h steps [] [] hn (fun s _ => rfl) (fun s _ => rfl)
    simpa [initDegreeGraph] using h0
  intro ss
  induction ss with
  | nil =>
    intro acc1 acc2 _ _ _
    simp
  | cons s rest ih =>
    intro acc1 acc2 hn2 h1 h2
    simp only [List.map_cons, List.nodup_cons] at hn2
    simp only [List.foldl_cons]
    rw [pyDictSet_fresh acc1 s.id _ (h1 s (by simp)),
      pyDictSet_fresh acc2 s.id _ (h2 s (by simp))]
    have hfresh1 : ∀ t ∈ rest,
        pyDictGet? (acc1 ++ [(s.id, (s.dependencies.length : Int))]) t.id =
          Option.none := by
      intro t ht
      rw [pyDictGet?_append, h1 t (by simp [ht])]
      have : ¬ s.id = t.id := by
        intro he
        exact hn2.1 (he ▸ List.mem_map.mpr ⟨t, ht, rfl⟩)
      simp [pyDictGet?, this]
    have hfresh2 : ∀ t ∈ rest,
        pyDictGet? (acc2 ++ [(s.id, ([] : List String))]) t.id = Option.none := by
      intro t ht
      rw [pyDictGet?_append, h2 t (by simp [ht])]
      have : ¬ s.id = t.id := by
        intro he
        exact hn2.1 (he ▸ List.mem_map.mpr ⟨t, ht, rfl⟩)
      simp [pyDictGet?, this]
    rw [ih _ _ hn2.2 hfresh1 hfresh2]
    simp

theorem pyDictGet?_initDegree (d : WorkflowDefinition)
    (hn : (stepIds d).Nodup) (x : String) :
    pyDictGet? (initDegreeGraph d.steps).1 x =
      (get_step_by_id d x).map (fun s => (s.dependencies.length : Int)) := by
  rw [initDegreeGraph_eq d.steps hn]
  exact pyDictGet?_of_pairs d.steps _ x

theorem pyDictGet?_initGraph (d : WorkflowDefinition)
    (hn : (stepIds d).Nodup) (x : String) :
    pyDictGet? (initDegreeGraph d.steps).2 x =
      (get_step_by_id d x).map (fun _ => ([] : List String)) := by
  rw [initDegreeGraph_eq d.steps hn]
  exact pyDictGet?_of_pairs d.steps _ x

theorem initial_queue_eq (d : WorkflowDefinition) (hn : (stepIds d).Nodup) :
    (((initDegreeGraph d.steps).1.filter (fun p => p.2 == 0)).map (fun p => p.1)) =
      (d.steps.filter (fun s => s.dependencies.length == 0)).map (fun s => s.id) := by
  rw [initDegreeGraph_eq d.steps hn]
  induction d.steps with
  | nil => rfl
  | cons s rest ih =>
    by_cases h : s.dependencies.length = 0
    · simp only [List.map_cons, List.filter_cons]
      have hb : ((s.dependencies.length : Int) == 0) = true := by
        simp [h]
      have hb2 : (s.dependencies.length == 0) = true := by simp [h]
      rw [hb, hb2]
      simpa using ih
    · simp only [List.map_cons, List.filter_cons]
      have hb : ((s.dependencies.length : Int) == 0) = false := by
        simp [h]
      have hb2 : (s.dependencies.length == 0) = false := by simp [h]
      rw [hb, hb2]
      exact ih

theorem appendEdge_foldlM_spec (sid : String) :
    ∀ (ds : List String) (g : PyDict (List String)),
      (∀ dep ∈ ds, (pyDictGet? g dep).isSome) →
      ∃ g2, ds.foldlM (appendEdge sid) g = some g2 ∧
        ∀ p, pyDictGet? g2 p =
          (pyDictGet? g p).map
            (fun lst =>
              lst ++ ((ds.filter (fun dep => dep == p)).map (fun _ => sid))) := by
  intro ds
  induction ds with
  | nil =>
    intro g _
    refine ⟨g, rfl, ?_⟩
    intro p
    cases pyDictGet? g p <;> simp
  | cons dep rest ih =>
    intro g hsome
    obtain ⟨lst, hlst⟩ := Option.isSome_iff_exists.mp (hsome dep (by simp))
    have hstep : appendEdge sid g dep = some (pyDictSet g dep (lst ++ [sid])) := by
      rw [appendEdge, hlst]
    have hsome2 : ∀ q ∈ rest,
        (pyDictGet? (pyDictSet g dep (lst ++ [sid])) q).isSome := by
      intro q hq
      by_cases he : dep = q
      · subst he
        rw [pyDictGet?_set_self]
        rfl
      · rw [pyDictGet?_set_ne _ _ _ _ he]
        exact hsome q (by simp [hq])
    obtain ⟨g2, hg2, hchar⟩ := ih (pyDictSet g dep (lst ++ [sid])) hsome2
    refine ⟨g2, ?_, ?_⟩
    · rw [List.foldlM_cons, hstep]
      simpa using hg2
    · intro p
      rw [hchar p]
      by_cases he : dep = p
      · subst he
        rw [pyDictGet?_set_self, hlst]
        have hf : ((dep :: rest).filter (fun x => x == dep)) =
            dep :: rest.filter (fun x => x == dep) := by
          simp [List.filter_cons]
        rw [hf]
        simp
      · rw [pyDictGet?_set_ne _ _ _ _ he]
        have hbe : ((dep == p) : Bool) = false := by simp [he]
        have hf : ((dep :: rest).filter (fun x => x == p)) =
            rest.filter (fun x => x == p) := by
          simp [List.filter_cons, hbe]
        rw [hf]

theorem addEdges_fold_spec :
    ∀ (ss : List WorkflowStep) (g : PyDict (List String)),
      (∀ s ∈ ss, ∀ dep ∈ s.dependencies, (pyDictGet? g dep).isSome) →
      ∃ gr, ss.foldlM (fun gr s => s.dependencies.foldlM (appendEdge s.id) gr) g =
          some gr ∧
        ∀ p, pyDictGet? gr p =
          (pyDictGet? g p).map (fun lst => lst ++ dependentsOf ss p) := by
  intro ss
  induction ss with
  | nil =>
    intro g _
    refine ⟨g, rfl, ?_⟩
    intro p
    cases pyDictGet? g p <;> simp [dependentsOf]
  | cons s rest ih =>
    intro g hsome
    obtain ⟨g1, hg1, hchar1⟩ :=
      appendEdge_foldlM_spec s.id s.dependencies g (hsome s (by simp))
    have hsome1 : ∀ t ∈ rest, ∀ dep ∈ t.dependencies,
        (pyDictGet? g1 dep).isSome := by
      intro t ht dep hdep
      rw [hchar1 dep]
      have := hsome t (by simp [ht]) dep hdep
      cases hx : pyDictGet? g dep with
      | none => rw [hx] at this; simp at this
      | some v => simp
    obtain ⟨gr, hgr, hchar⟩ := ih g1 hsome1
    refine ⟨gr, ?_, ?_⟩
    · rw [List.foldlM_cons]
      show (s.dependencies.foldlM (appendEdge s.id) g).bind _ = some gr
      rw [hg1]
      simpa using hgr
    · intro p
      rw [hchar p, hchar1 p]
      have hcons : dependentsOf (s :: rest) p =
          ((s.dependencies.filter (fun dep => dep == p)).map (fun _ => s.id)) ++
            dependentsOf rest p := rfl
      rw [hcons]
      cases pyDictGet? g p <;> simp

theorem addEdges_spec (d : WorkflowDefinition) (hn : (stepIds d).Nodup)
    (hdeps : depsOK d) :
    ∃ gr, addEdges d.steps (initDegreeGraph d.steps).2 = some gr ∧
      ∀ p, pyDictGet? gr p =
        (get_step_by_id d p).map (fun _ => dependentsOf d.steps p) := by
  have hinit := pyDictGet?_initGraph d hn
  have hsome : ∀ s ∈ d.steps, ∀ dep ∈ s.dependencies,
      (pyDictGet? (initDegreeGraph d.steps).2 dep).isSome := by
    intro s hs dep hdep
    rw [hinit dep]
    have hid : dep ∈ stepIds d := hdeps s hs dep hdep
    have := get_step_isSome_iff.mpr hid
    cases hx : get_step_by_id d dep with
    | none => rw [hx] at this; simp at this
    | some v => simp
  obtain ⟨gr, hgr, hchar⟩ := addEdges_fold_spec d.steps _ hsome
  refine ⟨gr, hgr, ?_⟩
  intro p
  rw [hchar p, hinit p]
  cases get_step_by_id d p <;> simp

theorem count_append_singleton (A : List String) (y x : String) :
    (A ++ [y]).count x = A.count x + (if y = x then 1 else 0) := by
  rw [List.count_append, List.count_singleton]
  by_cases h : y = x <;> simp [h]

theorem decFold_spec (d : WorkflowDefinition) (bfn : String → Nat)
    (hb0 : ∀ x, ¬ x ∈ stepIds d → bfn x = 0) :
    ∀ (L A : List String) (deg : PyDict Int) (qacc : List String),
      (∀ y ∈ L, y ∈ stepIds d) →
      (∀ x ∈ stepIds d,
        pyDictGet? deg x = some ((bfn x : Int) - (A.count x : Int))) →
      (∀ x, qacc.count x =
        if 1 ≤ bfn x ∧ bfn x ≤ A.count x then 1 else 0) →
      (∀ x ∈ qacc, x ∈ stepIds d) →
      ∃ deg2 qacc2,
        L.foldlM decrementNeighbor (deg, qacc) = some (deg2, qacc2) ∧
        (∀ x ∈ stepIds d,
          pyDictGet? deg2 x = some ((bfn x : Int) - ((A ++ L).count x : Int))) ∧
        (∀ x, qacc2.count x =
          if 1 ≤ bfn x ∧ bfn x ≤ (A ++ L).count x then 1 else 0) ∧
        (∀ x ∈ qacc2, x ∈ stepIds d) := by
  intro L
  induction L with
  | nil =>
    intro A deg qacc hL hdeg hq hqm
    exact ⟨deg, qacc, rfl, by simpa using hdeg, by simpa using hq, hqm⟩
  | cons y rest ih =>
    intro A deg qacc hL hdeg hq hqm
    have hy : y ∈ stepIds d := hL y (by simp)
    have hdegy := hdeg y hy
    have hstep : decrementNeighbor (deg, qacc) y =
        some (pyDictSet deg y ((bfn y : Int) - (A.count y : Int) - 1),
          if (bfn y : Int) - (A.count y : Int) - 1 = 0 then qacc ++ [y] else qacc) := by
      rw [decrementNeighbor]
      show (match pyDictGet? deg y with
            | Option.none => Option.none
            | some deg0 => some (pyDictSet deg y (deg0 - 1),
                if deg0 - 1 = 0 then qacc ++ [y] else qacc)) = _
      rw [hdegy]
    have hdeg2 : ∀ x ∈ stepIds d,
        pyDictGet? (pyDictSet deg y ((bfn y : Int) - (A.count y : Int) - 1)) x =
          some ((bfn x : Int) - ((A ++ [y]).count x : Int)) := by
      intro x hx
      by_cases he : y = x
      · subst he
        rw [pyDictGet?_set_self, count_append_singleton]
        simp
        omega
      · rw [pyDictGet?_set_ne _ _ _ _ he, hdeg x hx, count_append_singleton]
        simp [he]
    by_cases happ : (bfn y : Int) - (A.count y : Int) - 1 = 0
    · have hby : bfn y = A.count y + 1 := by omega
      have hq2 : ∀ x, (qacc ++ [y]).count x =
          if 1 ≤ bfn x ∧ bfn x ≤ (A ++ [y]).count x then 1 else 0 := by
        intro x
        rw [count_append_singleton, count_append_singleton, hq x]
        by_cases he : y = x
        · subst he
          have hold : ¬ (1 ≤ bfn y ∧ bfn y ≤ A.count y) := by omega
          have hnew : 1 ≤ bfn y ∧ bfn y ≤ A.count y + 1 := by omega
          simp [hold, hnew]
          omega
        · simp [he]
      have hqm2 : ∀ x ∈ qacc ++ [y], x ∈ stepIds d := by
        intro x hx
        rcases List.mem_append.mp hx with h1 | h2
        · exact hqm x h1
        · simp only [List.mem_singleton] at h2
          exact h2 ▸ hy
      obtain ⟨deg2, qacc2, hfold, hdeg3, hq3, hqm3⟩ :=
        ih (A ++ [y]) _ _ (fun z hz => hL z (by simp [hz])) hdeg2 hq2 hqm2
      have hstep2 : decrementNeighbor (deg, qacc) y =
          some (pyDictSet deg y ((bfn y : Int) - (A.count y : Int) - 1),
            qacc ++ [y]) := by
        rw [hstep, if_pos happ]
      refine ⟨deg2, qacc2, ?_, ?_, ?_, hqm3⟩
      · rw [List.foldlM_cons, hstep2]
        simpa using hfold
      · intro x hx
        simpa [List.append_assoc] using hdeg3 x hx
      · intro x
        simpa [List.append_assoc] using hq3 x
    · have hq2 : ∀ x, qacc.count x =
          if 1 ≤ bfn x ∧ bfn x ≤ (A ++ [y]).count x then 1 else 0 := by
        intro x
        rw [count_append_singleton, hq x]
        by_cases he : y = x
        · subst he
          have : ¬ bfn y = A.count y + 1 := by omega
          by_cases h1 : 1 ≤ bfn y ∧ bfn y ≤ A.count y
          · have h2 : 1 ≤ bfn y ∧ bfn y ≤ A.count y + 1 := by omega
            simp [h1, h2]
          · have h2 : ¬ (1 ≤ bfn y ∧ bfn y ≤ A.count y + 1) := by omega
            simp [h1, h2]
        · simp [he]
      obtain ⟨deg2, qacc2, hfold, hdeg3, hq3, hqm3⟩ :=
        ih (A ++ [y]) _ _ (fun z hz => hL z (by simp [hz])) hdeg2 hq2 hqm
      have hstep2 : decrementNeighbor (deg, qacc) y =
          some (pyDictSet deg y ((bfn y : Int) - (A.count y : Int) - 1), qacc) := by
        rw [hstep, if_neg happ]
      refine ⟨deg2, qacc2, ?_, ?_, ?_, hqm3⟩
      · rw [List.foldlM_cons, hstep2]
        simpa using hfold
      · intro x hx
        simpa [List.append_assoc] using hdeg3 x hx
      · intro x
        simpa [List.append_assoc] using hq3 x

theorem processBatch_spec (d : WorkflowDefinition) (hn : (stepIds d).Nodup)
    (gr : PyDict (List String))
    (hgr : ∀ p, pyDictGet? gr p =
      (get_step_by_id d p).map (fun _ => dependentsOf d.steps p))
    (bfn : String → Nat) (hb0 : ∀ x, ¬ x ∈ stepIds d → bfn x = 0) :
    ∀ (Qs P : List String) (deg : PyDict Int) (qacc : List String),
      (∀ x ∈ Qs, x ∈ stepIds d) →
      (∀ x ∈ stepIds d, pyDictGet? deg x =
        some ((bfn x : Int) -
          ((P.flatMap (dependentsOf d.steps)).count x : Int))) →
      (∀ x, qacc.count x =
        if 1 ≤ bfn x ∧ bfn x ≤ (P.flatMap (dependentsOf d.steps)).count x
        then 1 else 0) →
      (∀ x ∈ qacc, x ∈ stepIds d) →
      ∃ deg2 qacc2,
        Qs.foldlM (processNode gr) (deg, qacc) = some (deg2, qacc2) ∧
        (∀ x ∈ stepIds d, pyDictGet? deg2 x =
          some ((bfn x : Int) -
            (((P ++ Qs).flatMap (dependentsOf d.steps)).count x : Int))) ∧
        (∀ x, qacc2.count x =
          if 1 ≤ bfn x ∧
              bfn x ≤ ((P ++ Qs).flatMap (dependentsOf d.steps)).count x
          then 1 else 0) ∧
        (∀ x ∈ qacc2, x ∈ stepIds d) := by
  intro Qs
  induction Qs with
  | nil =>
    intro P deg qacc hQ hdeg hq hqm
    exact ⟨deg, qacc, rfl, by simpa using hdeg, by simpa using hq, hqm⟩
  | cons sid rest ih =>
    intro P deg qacc hQ hdeg hq hqm
    have hsid : sid ∈ stepIds d := hQ sid (by simp)
    have hgrsid : pyDictGet? gr sid = some (dependentsOf d.steps sid) := by
      rw [hgr sid]
      cases hg : get_step_by_id d sid with
      | none =>
        exfalso
        have := get_step_isSome_iff.mpr hsid
        rw [hg] at this
        simp at this
      | some s => simp
    have hL : ∀ y ∈ dependentsOf d.steps sid, y ∈ stepIds d := by
      intro y hy
      obtain ⟨s, hs, he, _⟩ := mem_dependentsOf hy
      exact he ▸ List.mem_map.mpr ⟨s, hs, rfl⟩
    obtain ⟨deg1, qacc1, hfold1, hdeg1, hq1, hqm1⟩ :=
      decFold_spec d bfn hb0 (dependentsOf d.steps sid)
        (P.flatMap (dependentsOf d.steps)) deg qacc hL hdeg hq hqm
    have hflat : P.flatMap (dependentsOf d.steps) ++ dependentsOf d.steps sid =
        (P ++ [sid]).flatMap (dependentsOf d.steps) := by
      simp
    rw [hflat] at hdeg1 hq1
    obtain ⟨deg2, qacc2, hfold2, hdeg2, hq2, hqm2⟩ :=
      ih (P ++ [sid]) deg1 qacc1 (fun z hz => hQ z (by simp [hz])) hdeg1 hq1 hqm1
    refine ⟨deg2, qacc2, ?_, ?_, ?_, hqm2⟩
    · rw [List.foldlM_cons]
      have hpn : processNode gr (deg, qacc) sid = some (deg1, qacc1) := by
        rw [processNode]
        show (match pyDictGet? gr sid with
              | Option.none => Option.none
              | some nbs => nbs.foldlM decrementNeighbor (deg, qacc)) = _
        rw [hgrsid]
        exact hfold1
      rw [hpn]
      simpa using hfold2
    · intro x hx
      simpa [List.append_assoc] using hdeg2 x hx
    · intro x
      simpa [List.append_assoc] using hq2 x

theorem chain_of_iterate (d : WorkflowDefinition) (seq : Nat → String)
    (hedge : ∀ n, depEdge d (seq n) (seq (n + 1))) :
    ∀ i j, i < j → Relation.TransGen (depEdge d) (seq i) (seq j) := by
  intro i j hij
  obtain ⟨k, rfl⟩ : ∃ k, j = i + 1 + k := ⟨j - (i + 1), by omega⟩
  clear hij
  induction k with
  | zero => exact Relation.TransGen.single (hedge i)
  | succ k ihk =>
    have he : i + 1 + (k + 1) = (i + 1 + k) + 1 := by omega
    rw [he]
    exact Relation.TransGen.tail ihk (hedge (i + 1 + k))

theorem cycle_of_stuck (d : WorkflowDefinition) (hdeps : depsOK d)
    (done : List String)
    (hstuck : ∀ x, x ∈ stepIds d → ¬ x ∈ done →
      ∃ dd, dd ∈ stepDeps d x ∧ ¬ dd ∈ done)
    (x0 : String) (hx0 : x0 ∈ stepIds d) (hx0d : ¬ x0 ∈ done) :
    ∃ a, Relation.TransGen (depEdge d) a a := by
  classical
  have hnext : ∀ p : {x : String // x ∈ stepIds d ∧ ¬ x ∈ done},
      ∃ q : {x : String // x ∈ stepIds d ∧ ¬ x ∈ done},
        q.1 ∈ stepDeps d p.1 := by
    rintro ⟨x, hx1, hx2⟩
    obtain ⟨dd, hdd1, hdd2⟩ := hstuck x hx1 hx2
    exact ⟨⟨dd, stepDeps_sub_ids hdeps hdd1, hdd2⟩, hdd1⟩
  choose f hf using hnext
  let seq : Nat → {x : String // x ∈ stepIds d ∧ ¬ x ∈ done} := fun n =>
    Nat.rec ⟨x0, hx0, hx0d⟩ (fun _ prev => f prev) n
  have hedge : ∀ n, depEdge d (seq n).1 (seq (n + 1)).1 := by
    intro n
    exact depEdge_of_mem_stepDeps (hf (seq n))
  have hcyc : ∀ a b : Nat, a < b → (seq a).1 = (seq b).1 →
      ∃ c, Relation.TransGen (depEdge d) c c := by
    intro a b hab he
    refine ⟨(seq a).1, ?_⟩
    have hch := chain_of_iterate d (fun n => (seq n).1) hedge a b hab
    simp only [] at hch
    rw [← he] at hch
    exact hch
  have hmaps : ∀ i : Fin ((stepIds d).length + 1),
      i ∈ (Finset.univ : Finset (Fin ((stepIds d).length + 1))) →
      (seq i.1).1 ∈ (stepIds d).toFinset := by
    intro i _
    exact List.mem_toFinset.mpr (seq i.1).2.1
  have hlt : (stepIds d).toFinset.card <
      (Finset.univ : Finset (Fin ((stepIds d).length + 1))).card := by
    have h1 : (stepIds d).toFinset.card ≤ (stepIds d).length :=
      (stepIds d).toFinset_card_le
    rw [Finset.card_univ, Fintype.card_fin]
    omega
  obtain ⟨i, _, j, _, hij, heq⟩ :=
    Finset.exists_ne_map_eq_of_card_lt_of_maps_to hlt hmaps
  rcases Nat.lt_or_ge i.1 j.1 with h | h
  · exact hcyc i.1 j.1 h heq
  · have hne : j.1 < i.1 := by
      rcases Nat.lt_or_ge j.1 i.1 with h2 | h2
      · exact h2
      · exfalso
        exact hij (Fin.ext (by omega))
    exact hcyc j.1 i.1 hne heq.symm

theorem kahn_done_coverage (d : WorkflowDefinition) (hdeps : depsOK d)
    (done : List String)
    (hI4 : ∀ x, ¬ (x ∈ stepIds d ∧ ¬ x ∈ done ∧
      ∀ dd ∈ stepDeps d x, dd ∈ done))
    (hAc : Acyclic d) : ∀ x ∈ stepIds d, x ∈ done := by
  intro x hx
  by_contra hxd
  have hstuck : ∀ z, z ∈ stepIds d → ¬ z ∈ done →
      ∃ dd, dd ∈ stepDeps d z ∧ ¬ dd ∈ done := by
    intro z hz hzd
    by_contra hno
    push_neg at hno
    exact hI4 z ⟨hz, hzd, hno⟩
  obtain ⟨a, ha⟩ := cycle_of_stuck d hdeps done hstuck x hx hxd
  exact hAc a ha

/-- The in-degree of `x` counted over dependencies not yet scheduled:
the value `in_degree[x]` holds at a batch boundary where `done` is the set
of already scheduled step ids. -/
def remDegree (d : WorkflowDefinition) (done : List String) (x : String) : Nat :=
  (stepDeps d x).countP (fun dd => !(done.contains dd))

theorem stepDeps_nil_of_not_mem {d : WorkflowDefinition} {x : String}
    (h : ¬ x ∈ stepIds d) : stepDeps d x = [] := by
  by_contra hne
  exact h (mem_stepIds_of_stepDeps_ne hne)

theorem remDegree_zero_of_not_mem {d : WorkflowDefinition} {x : String}
    (done : List String) (h : ¬ x ∈ stepIds d) : remDegree d done x = 0 := by
  rw [remDegree, stepDeps_nil_of_not_mem h]
  rfl

theorem remDegree_append (d : WorkflowDefinition) (done Q : List String)
    (hdisj : ∀ q ∈ Q, ¬ q ∈ done) (x : String) :
    remDegree d done x =
      (stepDeps d x).countP (fun dd => Q.contains dd) +
        remDegree d (done ++ Q) x := by
  rw [remDegree, remDegree,
    countP_split (fun dd => !done.contains dd) (fun dd => Q.contains dd)
      (stepDeps d x)]
  congr 1
  · refine List.countP_congr ?_
    intro dd _
    by_cases hq : dd ∈ Q
    · have hd : ¬ dd ∈ done := hdisj dd hq
      simp [hq, hd]
    · simp [hq]
  · refine List.countP_congr ?_
    intro dd _
    by_cases hd : dd ∈ done <;> by_cases hq : dd ∈ Q <;> simp [hd, hq]

theorem remDegree_zero_iff (d : WorkflowDefinition) (done : List String)
    (x : String) :
    remDegree d done x = 0 ↔ ∀ dd ∈ stepDeps d x, dd ∈ done := by
  rw [remDegree, List.countP_eq_zero]
  constructor
  · intro h dd hdd
    have := h dd hdd
    simpa using this
  · intro h dd hdd
    simpa using h dd hdd

theorem newQueue_mem_iff (d : WorkflowDefinition) (done Q : List String)
    (hNod : (done ++ Q).Nodup)
    (hI4 : ∀ x, x ∈ Q ↔ (x ∈ stepIds d ∧ ¬ x ∈ done ∧
      ∀ dd ∈ stepDeps d x, dd ∈ done))
    (hI5 : ∀ x ∈ done, ∀ dd ∈ stepDeps d x, dd ∈ done)
    (x : String) :
    (1 ≤ remDegree d done x ∧
      remDegree d done x ≤ (stepDeps d x).countP (fun dd => Q.contains dd)) ↔
    (x ∈ stepIds d ∧ ¬ x ∈ done ++ Q ∧
      ∀ dd ∈ stepDeps d x, dd ∈ done ++ Q) := by
  have hdisj : ∀ q ∈ Q, ¬ q ∈ done := by
    intro q hq hqd
    exact (List.disjoint_of_nodup_append hNod) hqd hq
  have hsplit := remDegree_append d done Q hdisj x
  have hmono : (stepDeps d x).countP (fun dd => Q.contains dd) ≤
      remDegree d done x := by
    rw [remDegree]
    refine List.countP_mono_left ?_
    intro dd _ hdd
    have hq : dd ∈ Q := by simpa using hdd
    simp [hdisj dd hq]
  constructor
  · rintro ⟨h1, h2⟩
    have heq : remDegree d (done ++ Q) x = 0 := by omega
    have hsubdeps : ∀ dd ∈ stepDeps d x, dd ∈ done ++ Q :=
      (remDegree_zero_iff d (done ++ Q) x).mp heq
    have hxids : x ∈ stepIds d := by
      apply mem_stepIds_of_stepDeps_ne
      intro hnil
      rw [remDegree, hnil] at h1
      simp [List.countP, List.countP.go] at h1
    refine ⟨hxids, ?_, hsubdeps⟩
    intro hxdq
    rcases List.mem_append.mp hxdq with hxd | hxq
    · have : remDegree d done x = 0 :=
        (remDegree_zero_iff d done x).mpr (hI5 x hxd)
      omega
    · have : remDegree d done x = 0 :=
        (remDegree_zero_iff d done x).mpr ((hI4 x).mp hxq).2.2
      omega
  · rintro ⟨hxids, hxdq, hsubdeps⟩
    have heq : remDegree d (done ++ Q) x = 0 :=
      (remDegree_zero_iff d (done ++ Q) x).mpr hsubdeps
    have h1 : 1 ≤ remDegree d done x := by
      by_contra hlt
      have h0 : remDegree d done x = 0 := by omega
      have : ∀ dd ∈ stepDeps d x, dd ∈ done :=
        (remDegree_zero_iff d done x).mp h0
      have hxq : x ∈ Q := (hI4 x).mpr
        ⟨hxids, fun hxd => hxdq (List.mem_append.mpr (Or.inl hxd)), this⟩
      exact hxdq (List.mem_append.mpr (Or.inr hxq))
    exact ⟨h1, by omega⟩

theorem kahnLoop_nil (gr : PyDict (List String)) (fuel : Nat)
    (deg : PyDict Int) (acc : List (List String)) :
    kahnLoop gr fuel deg [] acc = some acc.reverse := by
  cases fuel <;> rfl

theorem kahnLoop_cons_eq (gr : PyDict (List String)) (fuel : Nat)
    (deg : PyDict Int) (y : String) (ys : List String)
    (acc : List (List String)) :
    kahnLoop gr (fuel + 1) deg (y :: ys) acc =
      match (y :: ys).foldlM (processNode gr) (deg, ([] : List String)) with
      | Option.none => Option.none
      | some (deg2, queue2) =>
        kahnLoop gr fuel deg2 queue2 ((y :: ys) :: acc) := rfl

theorem kahnLoop_spec_nil (d : WorkflowDefinition) (hdeps : depsOK d)
    (gr : PyDict (List String)) (fuel : Nat) (done : List String)
    (deg : PyDict Int) (acc : List (List String))
    (hNod : done.Nodup)
    (hI4 : ∀ x, x ∈ ([] : List String) ↔ (x ∈ stepIds d ∧ ¬ x ∈ done ∧
      ∀ dd ∈ stepDeps d x, dd ∈ done)) :
    ∃ rest,
      kahnLoop gr fuel deg [] acc = some (acc.reverse ++ rest) ∧
      (done ++ rest.flatten).Nodup ∧
      (∀ x ∈ rest.flatten, x ∈ stepIds d) ∧
      (Acyclic d → ∀ x ∈ stepIds d, x ∈ done ++ rest.flatten) ∧
      (∀ j (hj : j < rest.length), ∀ x ∈ rest.get ⟨j, hj⟩,
        ∀ dd ∈ stepDeps d x, dd ∈ done ++ (rest.take j).flatten) ∧
      (∀ j (hj : j < rest.length), ∀ x,
        x ∈ rest.get ⟨j, hj⟩ ↔
          (x ∈ stepIds d ∧ ¬ x ∈ done ++ (rest.take j).flatten ∧
            ∀ dd ∈ stepDeps d x, dd ∈ done ++ (rest.take j).flatten)) := by
  refine ⟨[], ?_, ?_, ?_, ?_, ?_, ?_⟩
  · rw [kahnLoop_nil]
    simp
  · simpa using hNod
  · intro x hx
    simp at hx
  · intro hAc x hx
    have h4 : ∀ z, ¬ (z ∈ stepIds d ∧ ¬ z ∈ done ∧
        ∀ dd ∈ stepDeps d z, dd ∈ done) := by
      intro z hz
      have := (hI4 z).mpr hz
      simp at this
    have h := kahn_done_coverage d hdeps done h4 hAc x hx
    simp [h]
  · intro j hj
    exact absurd hj (by simp)
  · intro j hj
    exact absurd hj (by simp)

theorem kahnLoop_spec (d : WorkflowDefinition) (hn : (stepIds d).Nodup)
    (hdeps : depsOK d) (gr : PyDict (List String))
    (hgr : ∀ p, pyDictGet? gr p =
      (get_step_by_id d p).map (fun _ => dependentsOf d.steps p)) :
    ∀ (fuel : Nat) (done queue : List String) (deg : PyDict Int)
      (acc : List (List String)),
      (done ++ queue).Nodup →
      (∀ x ∈ done ++ queue, x ∈ stepIds d) →
      (∀ x ∈ stepIds d, pyDictGet? deg x = some ((remDegree d done x : Int))) →
      (∀ x, x ∈ queue ↔ (x ∈ stepIds d ∧ ¬ x ∈ done ∧
        ∀ dd ∈ stepDeps d x, dd ∈ done)) →
      (∀ x ∈ done, ∀ dd ∈ stepDeps d x, dd ∈ done) →
      ((stepIds d).length + 1 ≤ fuel + done.length) →
      ∃ rest,
        kahnLoop gr fuel deg queue acc = some (acc.reverse ++ rest) ∧
        (done ++ rest.flatten).Nodup ∧
        (∀ x ∈ rest.flatten, x ∈ stepIds d) ∧
        (Acyclic d → ∀ x ∈ stepIds d, x ∈ done ++ rest.flatten) ∧
        (∀ j (hj : j < rest.length), ∀ x ∈ rest.get ⟨j, hj⟩,
          ∀ dd ∈ stepDeps d x, dd ∈ done ++ (rest.take j).flatten) ∧
        (∀ j (hj : j < rest.length), ∀ x,
          x ∈ rest.get ⟨j, hj⟩ ↔
            (x ∈ stepIds d ∧ ¬ x ∈ done ++ (rest.take j).flatten ∧
              ∀ dd ∈ stepDeps d x, dd ∈ done ++ (rest.take j).flatten)) := by
  intro fuel
  induction fuel with
  | zero =>
    intro done queue deg acc hNod hsub hdeg hI4 hI5 hfuel
    cases queue with
    | nil =>
      exact kahnLoop_spec_nil d hdeps gr 0 done deg acc (by simpa using hNod) hI4
    | cons y ys =>
      exfalso
      have hlen := nodup_length_le (done ++ y :: ys) (stepIds d) hNod hsub
      simp only [List.length_append, List.length_cons] at hlen
      omega
  | succ f ih =>
    intro done queue deg acc hNod hsub hdeg hI4 hI5 hfuel
    cases queue with
    | nil =>
      exact kahnLoop_spec_nil d hdeps gr (f + 1) done deg acc
        (by simpa using hNod) hI4
    | cons y ys =>
      have hQsub : ∀ x ∈ y :: ys, x ∈ stepIds d := by
        intro x hx
        exact hsub x (List.mem_append.mpr (Or.inr hx))
      have hQnodup : (y :: ys).Nodup := (List.nodup_append.mp hNod).2.1
      have hdisj : ∀ q ∈ y :: ys, ¬ q ∈ done := by
        intro q hq hqd
        exact (List.disjoint_of_nodup_append hNod) hqd hq
      have hb0 : ∀ x, ¬ x ∈ stepIds d → remDegree d done x = 0 :=
        fun x hx => remDegree_zero_of_not_mem done hx
      have hdeg0 : ∀ x ∈ stepIds d, pyDictGet? deg x =
          some ((remDegree d done x : Int) -
            ((((([] : List String)).flatMap (dependentsOf d.steps)).count x : Int))) := by
        intro x hx
        rw [hdeg x hx]
        simp
      have hq0 : ∀ x, (([] : List String)).count x =
          if 1 ≤ remDegree d done x ∧
              remDegree d done x ≤
                ((([] : List String)).flatMap (dependentsOf d.steps)).count x
          then 1 else 0 := by
        intro x
        simp only [List.flatMap_nil, List.count_nil]
        have hc : ¬ (1 ≤ remDegree d done x ∧ remDegree d done x ≤ 0) := by
          omega
        rw [if_neg hc]
      obtain ⟨deg2, qacc2, hfold, hdeg2, hq2, hqm2⟩ :=
        processBatch_spec d hn gr hgr (remDegree d done) hb0 (y :: ys) [] deg []
          hQsub hdeg0 hq0 (by intro x hx; simp at hx)
      simp only [List.nil_append] at hdeg2 hq2
      have hcnt := count_flatMap_dependentsOf d hn (y :: ys) hQnodup
      have hq2' : ∀ x, qacc2.count x =
          if 1 ≤ remDegree d done x ∧
              remDegree d done x ≤
                (stepDeps d x).countP (fun dd => (y :: ys).contains dd)
          then 1 else 0 := by
        intro x
        rw [hq2 x]
        simp only [hcnt]
      have hdeg' : ∀ x ∈ stepIds d, pyDictGet? deg2 x =
          some ((remDegree d (done ++ y :: ys) x : Int)) := by
        intro x hx
        rw [hdeg2 x hx, hcnt x]
        have hsplit := remDegree_append d done (y :: ys) hdisj x
        congr 1
        omega
      have hI4' : ∀ x, x ∈ qacc2 ↔ (x ∈ stepIds d ∧ ¬ x ∈ done ++ y :: ys ∧
          ∀ dd ∈ stepDeps d x, dd ∈ done ++ y :: ys) := by
        intro x
        rw [← newQueue_mem_iff d done (y :: ys) hNod hI4 hI5 x]
        constructor
        · intro hx
          have hpos : 0 < qacc2.count x := List.count_pos_iff.mpr hx
          rw [hq2' x] at hpos
          by_cases hcond : 1 ≤ remDegree d done x ∧
              remDegree d done x ≤
                (stepDeps d x).countP (fun dd => (y :: ys).contains dd)
          · exact hcond
          · rw [if_neg hcond] at hpos
            omega
        · intro hcond
          have h1 : qacc2.count x = 1 := by
            rw [hq2' x, if_pos hcond]
          exact List.count_pos_iff.mp (by omega)
      have hqnd : qacc2.Nodup := by
        rw [List.nodup_iff_count_le_one]
        intro x
        rw [hq2' x]
        by_cases hcond : 1 ≤ remDegree d done x ∧
            remDegree d done x ≤
              (stepDeps d x).countP (fun dd => (y :: ys).contains dd)
        · rw [if_pos hcond]
        · rw [if_neg hcond]
          omega
      have hNod' : ((done ++ y :: ys) ++ qacc2).Nodup := by
        rw [List.nodup_append]
        refine ⟨hNod, hqnd, ?_⟩
        intro a ha haq
        exact ((hI4' a).mp haq).2.1 ha
      have hsub' : ∀ x ∈ (done ++ y :: ys) ++ qacc2, x ∈ stepIds d := by
        intro x hx
        rcases List.mem_append.mp hx with h1 | h2
        · exact hsub x h1
        · exact hqm2 x h2
      have hI5' : ∀ x ∈ done ++ y :: ys,
          ∀ dd ∈ stepDeps d x, dd ∈ done ++ y :: ys := by
        intro x hx dd hdd
        rcases List.mem_append.mp hx with h1 | h2
        · exact List.mem_append.mpr (Or.inl (hI5 x h1 dd hdd))
        · exact List.mem_append.mpr (Or.inl (((hI4 x).mp h2).2.2 dd hdd))
      have hfuel' : (stepIds d).length + 1 ≤ f + (done ++ y :: ys).length := by
        rw [List.length_append, List.length_cons]
        omega
      obtain ⟨rest', hloop', hNodR, hsubR, hcovR, hordR, hmemR⟩ :=
        ih (done ++ y :: ys) qacc2 deg2 ((y :: ys) :: acc)
          hNod' hsub' hdeg' hI4' hI5' hfuel'
      refine ⟨(y :: ys) :: rest', ?_, ?_, ?_, ?_, ?_, ?_⟩
      · rw [kahnLoop_cons_eq, hfold]
        show kahnLoop gr f deg2 qacc2 ((y :: ys) :: acc) = _
        rw [hloop']
        simp [List.reverse_cons, List.append_assoc]
      · simpa [List.append_assoc] using hNodR
      · intro x hx
        simp only [List.flatten_cons, List.mem_append] at hx
        rcases hx with h1 | h2
        · exact hQsub x h1
        · exact hsubR x h2
      · intro hAc x hx
        have h := hcovR hAc x hx
        simp only [List.mem_append, List.flatten_cons, List.mem_cons] at h ⊢
        tauto
      · intro j hj x hx dd hdd
        match j with
        | 0 =>
          have hxq : x ∈ y :: ys := by simpa using hx
          have hddd : dd ∈ done := ((hI4 x).mp hxq).2.2 dd hdd
          simpa using hddd
        | j + 1 =>
          have hj2 : j < rest'.length := by simpa using hj
          have hx2 : x ∈ rest'.get ⟨j, hj2⟩ := by simpa using hx
          have h := hordR j hj2 x hx2 dd hdd
          simp only [List.take_succ_cons, List.flatten_cons,
            List.mem_append, List.mem_cons] at h ⊢
          tauto
      · intro j hj x
        match j with
        | 0 =>
          have hg : ((y :: ys) :: rest').get ⟨0, hj⟩ = y :: ys := rfl
          rw [hg]
          simpa using hI4 x
        | j + 1 =>
          have hj2 : j < rest'.length := by simpa using hj
          have hg : ((y :: ys) :: rest').get ⟨j + 1, hj⟩ = rest'.get ⟨j, hj2⟩ := rfl
          rw [hg]
          have hL : done ++ (((y :: ys) :: rest').take (j + 1)).flatten =
              (done ++ y :: ys) ++ (rest'.take j).flatten := by
            rw [List.take_succ_cons, List.flatten_cons, List.append_assoc]
          rw [hL]
          exact hmemR j hj2 x

theorem remDegree_nil (d : WorkflowDefinition) (x : String) :
    remDegree d [] x = (stepDeps d x).length := by
  rw [remDegree, List.countP_eq_length]
  intro a _
  simp

theorem acyclic_of_rank (d : WorkflowDefinition) (rank : String → Nat)
    (h : ∀ a b, depEdge d a b → rank b < rank a) : Acyclic d := by
  have key : ∀ x y, Relation.TransGen (depEdge d) x y → rank y < rank x := by
    intro x y h2
    induction h2 with
    | single hxy => exact h _ _ hxy
    | tail hxy hyz ih => exact Nat.lt_trans (h _ _ hyz) ih
  intro a hcyc
  exact absurd (key a a hcyc) (Nat.lt_irrefl _)

theorem build_execution_order_spec (d : WorkflowDefinition)
    (hn : (stepIds d).Nodup) (hdeps : depsOK d) (hAc : Acyclic d) :
    ∃ batches, _build_execution_order d = some batches ∧
      batches.flatten.Nodup ∧
      (∀ x ∈ batches.flatten, x ∈ stepIds d) ∧
      (∀ x ∈ stepIds d, x ∈ batches.flatten) ∧
      (∀ j (hj : j < batches.length), ∀ x ∈ batches.get ⟨j, hj⟩,
        ∀ dd ∈ stepDeps d x, dd ∈ (batches.take j).flatten) ∧
      (∀ j (hj : j < batches.length), ∀ x,
        x ∈ batches.get ⟨j, hj⟩ ↔
          (x ∈ stepIds d ∧ ¬ x ∈ (batches.take j).flatten ∧
            ∀ dd ∈ stepDeps d x, dd ∈ (batches.take j).flatten)) := by
  obtain ⟨gr, hgr, hgrchar⟩ := addEdges_spec d hn hdeps
  have hq0nodup : ((d.steps.filter (fun s => s.dependencies.length == 0)).map
      (fun s => s.id)).Nodup :=
    List.Nodup.sublist (List.Sublist.map _ (List.filter_sublist d.steps)) hn
  have hNod0 : (([] : List String) ++
      (d.steps.filter (fun s => s.dependencies.length == 0)).map
        (fun s => s.id)).Nodup := by
    simpa using hq0nodup
  have hsub0 : ∀ x ∈ ([] : List String) ++
      (d.steps.filter (fun s => s.dependencies.length == 0)).map (fun s => s.id),
      x ∈ stepIds d := by
    intro x hx
    simp only [List.nil_append] at hx
    obtain ⟨s, hsf, hid⟩ := List.mem_map.mp hx
    exact hid ▸ List.mem_map.mpr ⟨s, (List.mem_filter.mp hsf).1, rfl⟩
  have hdeg0 : ∀ x ∈ stepIds d,
      pyDictGet? (initDegreeGraph d.steps).1 x =
        some ((remDegree d [] x : Int)) := by
    intro x hx
    rw [pyDictGet?_initDegree d hn x]
    have hsome := get_step_isSome_iff.mpr hx
    cases hg : get_step_by_id d x with
    | none =>
      rw [hg] at hsome
      simp at hsome
    | some s =>
      have hsd : stepDeps d x = s.dependencies := by rw [stepDeps, hg]
      rw [Option.map_some', remDegree_nil, hsd]
  have hI40 : ∀ x, x ∈ (d.steps.filter (fun s => s.dependencies.length == 0)).map
        (fun s => s.id) ↔
      (x ∈ stepIds d ∧ ¬ x ∈ ([] : List String) ∧
        ∀ dd ∈ stepDeps d x, dd ∈ ([] : List String)) := by
    intro x
    constructor
    · intro hx
      obtain ⟨s, hsf, hid⟩ := List.mem_map.mp hx
      obtain ⟨hs, hlen⟩ := List.mem_filter.mp hsf
      have hlen0 : s.dependencies = [] := by
        have h0 : s.dependencies.length = 0 := by simpa using hlen
        exact List.length_eq_zero.mp h0
      refine ⟨hid ▸ List.mem_map.mpr ⟨s, hs, rfl⟩, by simp, ?_⟩
      intro dd hdd
      rw [← hid, stepDeps_of_mem hn hs, hlen0] at hdd
      simp at hdd
    · rintro ⟨hx, _, hdd⟩
      obtain ⟨s, hs, hid⟩ := mem_stepIds_iff.mp hx
      have hsd : stepDeps d x = s.dependencies := by
        rw [← hid]
        exact stepDeps_of_mem hn hs
      have hdeps0 : s.dependencies = [] := by
        cases hcase : s.dependencies with
        | nil => rfl
        | cons a t =>
          exfalso
          have hmem : a ∈ ([] : List String) := by
            refine hdd a ?_
            rw [hsd, hcase]
            simp
          simp at hmem
      exact List.mem_map.mpr ⟨s, List.mem_filter.mpr ⟨hs, by simp [hdeps0]⟩, hid⟩
  have hI50 : ∀ x ∈ ([] : List String),
      ∀ dd ∈ stepDeps d x, dd ∈ ([] : List String) := by
    intro x hx
    simp at hx
  have hfuel0 : (stepIds d).length + 1 ≤
      (d.steps.length + 1) + ([] : List String).length := by
    simp [stepIds]
  obtain ⟨rest, hloop, hNodR, hsubR, hcovR, hordR, hmemR⟩ :=
    kahnLoop_spec d hn hdeps gr hgrchar (d.steps.length + 1) []
      ((d.steps.filter (fun s => s.dependencies.length == 0)).map (fun s => s.id))
      (initDegreeGraph d.steps).1 [] hNod0 hsub0 hdeg0 hI40 hI50 hfuel0
  have hbuild : _build_execution_order d = some rest := by
    unfold _build_execution_order
    simp only [hgr, initial_queue_eq d hn]
    simpa using hloop
  refine ⟨rest, hbuild, by simpa using hNodR, ?_, ?_, ?_, ?_⟩
  · intro x hx
    exact hsubR x hx
  · intro x hx
    simpa using hcovR hAc x hx
  · intro j hj x hx dd hdd
    simpa using hordR j hj x hx dd hdd
  · intro j hj x
    simpa using hmemR j hj x

end WF

end KahnProofs

/-- **C1.** For every valid `WorkflowDefinition` — non-empty step list, unique
step ids, every dependency referencing an existing step, and an acyclic
dependency graph — `SimpleDAGWorkflow._build_execution_order` succeeds, the
computed batch list assigns every step id to exactly one batch, and for every
step `A` and every dependency `B` listed by `A`, `B`'s batch index is strictly
less than `A`'s batch index. -/
theorem C1_build_execution_order_batches_respect_dependencies
    (d : WF.WorkflowDefinition) (hne : ¬ d.steps = [])
    (hn : (WF.stepIds d).Nodup) (hdeps : WF.depsOK d) (hAc : WF.Acyclic d) :
    ∃ batches, WF._build_execution_order d = some batches ∧
      (∀ x ∈ WF.stepIds d, ∃ i, ∃ hi : i < batches.length,
        x ∈ batches.get ⟨i, hi⟩ ∧
        ∀ j (hj : j < batches.length), x ∈ batches.get ⟨j, hj⟩ → j = i) ∧
      (∀ s ∈ d.steps, ∀ b ∈ s.dependencies,
        ∀ i (hi : i < batches.length) (j) (hj : j < batches.length),
          s.id ∈ batches.get ⟨i, hi⟩ → b ∈ batches.get ⟨j, hj⟩ → j < i) := by
  obtain ⟨batches, hbuild, hflatnd, hflatsub, hcov, hord, -⟩ :=
    WF.build_execution_order_spec d hn hdeps hAc
  refine ⟨batches, hbuild, ?_, ?_⟩
  · intro x hx
    have hxf : x ∈ batches.flatten := hcov x hx
    obtain ⟨l, hl, hxl⟩ := List.mem_flatten.mp hxf
    obtain ⟨⟨i, hi⟩, hil⟩ := List.mem_iff_get.mp hl
    refine ⟨i, hi, hil ▸ hxl, ?_⟩
    intro j hj hxj
    exact flatten_index_unique batches hflatnd x j i hj hi hxj (hil ▸ hxl)
  · intro s hs b hb i hi j hj hsid hbj
    have hdd : b ∈ WF.stepDeps d s.id := by
      rw [WF.stepDeps_of_mem hn hs]
      exact hb
    have h := hord i hi s.id hsid b hdd
    obtain ⟨k, hk, hki, hbk⟩ := mem_flatten_take batches b i h
    have hjk : j = k := flatten_index_unique batches hflatnd b j k hj hk hbj hbk
    omega

/-- A two-step workflow used as the concrete witness for C1: `"a"` depends on
`"b"`. -/
def c1step_b : WF.WorkflowStep := { id := "b" }

def c1step_a : WF.WorkflowStep := { id := "a", dependencies := ["b"] }

def c1defn : WF.WorkflowDefinition := { id := "w", steps := [c1step_b, c1step_a] }

theorem c1defn_acyclic : WF.Acyclic c1defn := by
  refine WF.acyclic_of_rank c1defn (fun z => if z = "a" then 1 else 0) ?_
  rintro x y ⟨s, hg, hy⟩
  by_cases hxb : "b" = x
  · have hgb : WF.get_step_by_id c1defn x = some c1step_b := by
      rw [← hxb]
      rfl
    rw [hgb] at hg
    have hs : s = c1step_b := (Option.some.inj hg).symm
    rw [hs] at hy
    simp [c1step_b] at hy
  · by_cases hxa : "a" = x
    · have hga : WF.get_step_by_id c1defn x = some c1step_a := by
        rw [← hxa]
        rfl
      rw [hga] at hg
      have hs : s = c1step_a := (Option.some.inj hg).symm
      rw [hs] at hy
      have hyb : y = "b" := by simpa [c1step_a] using hy
      rw [hyb, ← hxa]
      simp
    · exfalso
      have hnone : WF.get_step_by_id c1defn x = Option.none := by
        rw [WF.get_step_by_id, List.find?_eq_none]
        intro t ht
        have ht2 : t = c1step_b ∨ t = c1step_a := by
          simpa [c1defn] using ht
        rcases ht2 with rfl | rfl
        · simpa [c1step_b] using hxb
        · simpa [c1step_a] using hxa
      rw [hnone] at hg
      exact Option.noConfusion hg

/-- Witness for C1 at the concrete two-step workflow `c1defn`. -/
theorem C1_build_execution_order_batches_respect_dependencies_witness :
    ∃ batches, WF._build_execution_order c1defn = some batches ∧
      (∀ x ∈ WF.stepIds c1defn, ∃ i, ∃ hi : i < batches.length,
        x ∈ batches.get ⟨i, hi⟩ ∧
        ∀ j (hj : j < batches.length), x ∈ batches.get ⟨j, hj⟩ → j = i) ∧
      (∀ s ∈ c1defn.steps, ∀ b ∈ s.dependencies,
        ∀ i (hi : i < batches.length) (j) (hj : j < batches.length),
          s.id ∈ batches.get ⟨i, hi⟩ → b ∈ batches.get ⟨j, hj⟩ → j < i) :=
  C1_build_execution_order_batches_respect_dependencies c1defn
    (by simp [c1defn]) (by decide) (by unfold WF.depsOK; decide) c1defn_acyclic

section ValidationProofs

theorem mem_pySetAdd {s : List String} {a x : String} :
    x ∈ pySetAdd s a ↔ x ∈ s ∨ x = a := by
  rw [pySetAdd]
  by_cases h : a ∈ s
  · simp [h]
    intro he
    exact he ▸ h
  · simp [h]

namespace WF

/-- `x` cannot reach any node that lies on a dependency cycle.  When every
step id is clean the whole dependency graph is acyclic. -/
def Clean (d : WorkflowDefinition) (x : String) : Prop :=
  ¬ ∃ c, Relation.ReflTransGen (depEdge d) x c ∧
    Relation.TransGen (depEdge d) c c

theorem stepDeps_of_edge {d : WorkflowDefinition} {x b : String}
    (h : depEdge d x b) : b ∈ stepDeps d x := by
  obtain ⟨s, hg, hbd⟩ := h
  rw [stepDeps, hg]
  exact hbd

theorem clean_of_deps (d : WorkflowDefinition) (x : String)
    (h : ∀ b ∈ stepDeps d x, Clean d b) : Clean d x := by
  rintro ⟨c, hxc, hcyc⟩
  rcases Relation.ReflTransGen.cases_head hxc with rfl | ⟨b, hxb, hbc⟩
  · obtain ⟨b, hxb, hbx⟩ := Relation.TransGen.head'_iff.mp hcyc
    exact h b (stepDeps_of_edge hxb) ⟨x, hbx, hcyc⟩
  · exact h b (stepDeps_of_edge hxb) ⟨c, hbc, hcyc⟩

theorem acyclic_of_all_clean (d : WorkflowDefinition)
    (h : ∀ s ∈ d.steps, Clean d s.id) : Acyclic d := by
  intro a hcyc
  obtain ⟨b, hab, _⟩ := Relation.TransGen.head'_iff.mp hcyc
  obtain ⟨s, hg, _⟩ := hab
  obtain ⟨hs, hid⟩ := get_step_by_id_mem hg
  refine h s hs ⟨a, ?_, hcyc⟩
  rw [hid]

theorem dfsGo_zero (d : WorkflowDefinition) (v r deps : List String) :
    dfsGo d 0 v r deps = (true, v) := rfl

theorem dfsGo_succ_nil (d : WorkflowDefinition) (fuel : Nat)
    (v r : List String) : dfsGo d (fuel + 1) v r [] = (false, v) := rfl

theorem dfsGo_succ_cons (d : WorkflowDefinition) (fuel : Nat)
    (v r : List String) (dep : String) (rest : List String) :
    dfsGo d (fuel + 1) v r (dep :: rest) =
      if v.contains dep then
        if r.contains dep then (true, v)
        else dfsGo d fuel v r rest
      else
        match dfsGo d fuel (pySetAdd v dep) (pySetAdd r dep) (stepDeps d dep) with
        | (true, v2) => (true, v2)
        | (false, v2) => dfsGo d fuel v2 r rest := rfl

theorem dfsGo_false_sound (d : WorkflowDefinition) :
    ∀ (fuel : Nat) (visited recStack deps visited2 : List String),
      dfsGo d fuel visited recStack deps = (false, visited2) →
      (∀ x ∈ recStack, x ∈ visited) →
      (∀ x ∈ visited, ¬ x ∈ recStack → Clean d x) →
      (∀ x ∈ visited, x ∈ visited2) ∧
      (∀ x ∈ visited2, ¬ x ∈ recStack → Clean d x) ∧
      (∀ dd ∈ deps, dd ∈ visited2 ∧ ¬ dd ∈ recStack) := by
  intro fuel
  induction fuel with
  | zero =>
    intro visited recStack deps visited2 h hrv hclean
    rw [dfsGo_zero] at h
    simp at h
  | succ fuel ih =>
    intro visited recStack deps visited2 h hrv hclean
    cases deps with
    | nil =>
      rw [dfsGo_succ_nil] at h
      obtain ⟨-, rfl⟩ : False = False ∧ visited = visited2 := by
        constructor
        · rfl
        · exact congrArg Prod.snd h
      refine ⟨fun x hx => hx, hclean, ?_⟩
      intro dd hdd
      simp at hdd
    | cons dep rest =>
      rw [dfsGo_succ_cons] at h
      by_cases hv : visited.contains dep = true
      · rw [if_pos hv] at h
        by_cases hr : recStack.contains dep = true
        · rw [if_pos hr] at h
          simp at h
        · rw [if_neg hr] at h
          obtain ⟨h1, h2, h3⟩ := ih visited recStack rest visited2 h hrv hclean
          refine ⟨h1, h2, ?_⟩
          intro dd hdd
          rcases List.mem_cons.mp hdd with rfl | hdd2
          · refine ⟨h1 dd (by simpa using hv), ?_⟩
            simpa using hr
          · exact h3 dd hdd2
      · rw [if_neg hv] at h
        have hdepnv : ¬ dep ∈ visited := by simpa using hv
        rcases hrec : dfsGo d fuel (pySetAdd visited dep) (pySetAdd recStack dep)
            (stepDeps d dep) with ⟨b, vmid⟩
        rw [hrec] at h
        cases b with
        | true => simp at h
        | false =>
          have hstep : dfsGo d fuel vmid recStack rest = (false, visited2) := h
          have hrv1 : ∀ x ∈ pySetAdd recStack dep, x ∈ pySetAdd visited dep := by
            intro x hx
            rcases mem_pySetAdd.mp hx with hx2 | rfl
            · exact mem_pySetAdd.mpr (Or.inl (hrv x hx2))
            · exact mem_pySetAdd.mpr (Or.inr rfl)
          have hclean1 : ∀ x ∈ pySetAdd visited dep,
              ¬ x ∈ pySetAdd recStack dep → Clean d x := by
            intro x hx hxr
            rcases mem_pySetAdd.mp hx with hx2 | rfl
            · refine hclean x hx2 ?_
              intro hx3
              exact hxr (mem_pySetAdd.mpr (Or.inl hx3))
            · exact absurd (mem_pySetAdd.mpr (Or.inr rfl)) hxr
          obtain ⟨m1, m2, m3⟩ := ih (pySetAdd visited dep) (pySetAdd recStack dep)
            (stepDeps d dep) vmid hrec hrv1 hclean1
          have hdepclean : Clean d dep := by
            refine clean_of_deps d dep ?_
            intro b hb
            obtain ⟨hb1, hb2⟩ := m3 b hb
            exact m2 b hb1 hb2
          have hcleanmid : ∀ x ∈ vmid, ¬ x ∈ recStack → Clean d x := by
            intro x hx hxr
            by_cases hxd : x = dep
            · exact hxd ▸ hdepclean
            · refine m2 x hx ?_
              intro hx2
              rcases mem_pySetAdd.mp hx2 with hx3 | hx4
              · exact hxr hx3
              · exact hxd hx4
          have hrvmid : ∀ x ∈ recStack, x ∈ vmid := by
            intro x hx
            exact m1 x (mem_pySetAdd.mpr (Or.inl (hrv x hx)))
          obtain ⟨f1, f2, f3⟩ := ih vmid recStack rest visited2 hstep hrvmid hcleanmid
          have hdepnr : ¬ dep ∈ recStack := fun hc => hdepnv (hrv dep hc)
          refine ⟨?_, f2, ?_⟩
          · intro x hx
            exact f1 x (m1 x (mem_pySetAdd.mpr (Or.inl hx)))
          · intro dd hdd
            rcases List.mem_cons.mp hdd with rfl | hdd2
            · exact ⟨f1 dd (m1 dd (mem_pySetAdd.mpr (Or.inr rfl))), hdepnr⟩
            · exact f3 dd hdd2

theorem has_cycle_false_sound (d : WorkflowDefinition) (fuel : Nat)
    (visited : List String) (sid : String) (visited2 : List String)
    (h : has_cycle d fuel visited sid = (false, visited2))
    (hpre : ∀ x ∈ visited, Clean d x) :
    (∀ x ∈ visited, x ∈ visited2) ∧ (∀ x ∈ visited2, Clean d x) ∧
      sid ∈ visited2 := by
  rw [has_cycle] at h
  have hrv : ∀ x ∈ pySetAdd [] sid, x ∈ pySetAdd visited sid := by
    intro x hx
    rcases mem_pySetAdd.mp hx with hx2 | rfl
    · simp at hx2
    · exact mem_pySetAdd.mpr (Or.inr rfl)
  have hclean0 : ∀ x ∈ pySetAdd visited sid,
      ¬ x ∈ pySetAdd [] sid → Clean d x := by
    intro x hx hxr
    rcases mem_pySetAdd.mp hx with hx2 | rfl
    · exact hpre x hx2
    · exact absurd (mem_pySetAdd.mpr (Or.inr rfl)) hxr
  obtain ⟨m1, m2, m3⟩ :=
    dfsGo_false_sound d fuel (pySetAdd visited sid) (pySetAdd [] sid)
      (stepDeps d sid) visited2 h hrv hclean0
  have hsidclean : Clean d sid := by
    refine clean_of_deps d sid ?_
    intro b hb
    obtain ⟨hb1, hb2⟩ := m3 b hb
    exact m2 b hb1 hb2
  have hall : ∀ x ∈ visited2, Clean d x := by
    intro x hx
    by_cases hxs : x = sid
    · exact hxs ▸ hsidclean
    · refine m2 x hx ?_
      intro hx2
      rcases mem_pySetAdd.mp hx2 with hx3 | hx4
      · simp at hx3
      · exact hxs hx4
  refine ⟨?_, hall, m1 sid (mem_pySetAdd.mpr (Or.inr rfl))⟩
  intro x hx
  exact m1 x (mem_pySetAdd.mpr (Or.inl hx))

theorem checkLoop_sound (d : WorkflowDefinition) (fuel : Nat) :
    ∀ (steps : List WorkflowStep) (visited : List String),
      checkLoop d fuel visited steps = .ok () →
      (∀ x ∈ visited, Clean d x) →
      ∀ s ∈ steps, Clean d s.id := by
  intro steps
  induction steps with
  | nil =>
    intro visited h hpre s hs
    simp at hs
  | cons s rest ih =>
    intro visited h hpre t ht
    rw [checkLoop] at h
    by_cases hv : visited.contains s.id = true
    · rw [if_pos hv] at h
      rcases List.mem_cons.mp ht with rfl | ht2
      · exact hpre t.id (by simpa using hv)
      · exact ih visited h hpre t ht2
    · rw [if_neg hv] at h
      rcases hcyc : has_cycle d fuel visited s.id with ⟨b, visited2⟩
      rw [hcyc] at h
      cases b with
      | true => simp at h
      | false =>
        have hstep : checkLoop d fuel visited2 rest = .ok () := h
        obtain ⟨m1, m2, m3⟩ := has_cycle_false_sound d fuel visited s.id visited2
          hcyc hpre
        rcases List.mem_cons.mp ht with rfl | ht2
        · exact m2 t.id m3
        · exact ih visited2 hstep m2 t ht2

theorem check_circular_sound (d : WorkflowDefinition)
    (h : _check_circular_dependencies d = .ok ()) : Acyclic d := by
  rw [_check_circular_dependencies] at h
  refine acyclic_of_all_clean d ?_
  refine checkLoop_sound d (dfsFuel d) d.steps [] h ?_
  intro x hx
  simp at hx

theorem checkDepsExist_sound :
    ∀ (steps : List WorkflowStep) (ids : List String),
      checkDepsExist ids steps = .ok () →
      ∀ s ∈ steps, ∀ dep ∈ s.dependencies, dep ∈ ids := by
  intro steps
  induction steps with
  | nil =>
    intro ids h s hs
    simp at hs
  | cons s rest ih =>
    intro ids h t ht
    rw [checkDepsExist] at h
    rcases hf : s.dependencies.find? (fun dep => !(ids.contains dep)) with - | dep
    · rw [hf] at h
      rcases List.mem_cons.mp ht with rfl | ht2
      · intro dep hdep
        have := List.find?_eq_none.mp hf dep hdep
        simpa using this
      · exact ih ids h t ht2
    · rw [hf] at h
      simp at h

end WF

end ValidationProofs

/-- **C3.** Construction-time validation is sound and rejecting: if
`_validate_definition` accepts a definition, the step list is non-empty, step
ids are unique, every dependency references an existing step id, and the
dependency graph is acyclic; conversely — since `_validate_definition` is a
total function into `Except` called by `WorkflowBase.__init__` before any
batch is computed and before any run starts — any definition with a
dependency cycle, and any definition with duplicate step ids, is rejected
with a validation error. -/
theorem C3_validate_definition_sound_and_rejecting (d : WF.WorkflowDefinition) :
    (WF._validate_definition d = .ok () →
      ¬ d.steps = [] ∧ (WF.stepIds d).Nodup ∧ WF.depsOK d ∧ WF.Acyclic d) ∧
    (¬ WF.Acyclic d → ∃ e, WF._validate_definition d = .error e) ∧
    (¬ (WF.stepIds d).Nodup → ∃ e, WF._validate_definition d = .error e) := by
  have hsound : WF._validate_definition d = .ok () →
      ¬ d.steps = [] ∧ (WF.stepIds d).Nodup ∧ WF.depsOK d ∧ WF.Acyclic d := by
    intro h
    unfold WF._validate_definition at h
    by_cases h1 : d.steps.isEmpty = true
    · rw [if_pos h1] at h
      simp at h
    · rw [if_neg h1] at h
      by_cases h2 : ((WF.stepIds d).dedup.length != d.steps.length) = true
      · rw [if_pos h2] at h
        simp at h
      · rw [if_neg h2] at h
        have hlen : (WF.stepIds d).dedup.length = d.steps.length := by
          simpa using h2
        have hlen2 : (WF.stepIds d).length = d.steps.length := by
          simp [WF.stepIds]
        have hdedup : (WF.stepIds d).dedup = WF.stepIds d :=
          List.Sublist.eq_of_length (WF.stepIds d).dedup_sublist (by omega)
        have hnodup : (WF.stepIds d).Nodup := List.dedup_eq_self.mp hdedup
        rcases hc : WF.checkDepsExist (WF.stepIds d) d.steps with e | u
        · rw [hc] at h
          simp at h
        · rw [hc] at h
          have hok : WF._check_circular_dependencies d = .ok () := h
          refine ⟨by simpa using h1, hnodup, ?_, WF.check_circular_sound d hok⟩
          exact WF.checkDepsExist_sound d.steps (WF.stepIds d) hc
  refine ⟨hsound, ?_, ?_⟩
  · intro hnac
    rcases hv : WF._validate_definition d with e | u
    · exact ⟨e, rfl⟩
    · cases u
      exact absurd (hsound hv).2.2.2 hnac
  · intro hnd
    rcases hv : WF._validate_definition d with e | u
    · exact ⟨e, rfl⟩
    · cases u
      exact absurd (hsound hv).2.1 hnd

/-- A two-step cyclic workflow (`"a" → "b" → "a"`), rejected by validation. -/
def c3stepA : WF.WorkflowStep := { id := "a", dependencies := ["b"] }

def c3stepB : WF.WorkflowStep := { id := "b", dependencies := ["a"] }

def c3cyc : WF.WorkflowDefinition := { id := "w2", steps := [c3stepA, c3stepB] }

theorem c3cyc_not_acyclic : ¬ WF.Acyclic c3cyc := by
  intro hAc
  refine hAc "a" ?_
  have e1 : WF.depEdge c3cyc "a" "b" := ⟨c3stepA, rfl, by simp [c3stepA]⟩
  have e2 : WF.depEdge c3cyc "b" "a" := ⟨c3stepB, rfl, by simp [c3stepB]⟩
  exact Relation.TransGen.head e1 (Relation.TransGen.single e2)

/-- Witness for C3: the acyclic two-step workflow `c1defn` validates and is
proved valid; the cyclic workflow `c3cyc` is rejected with an error. -/
theorem C3_validate_definition_sound_and_rejecting_witness :
    (WF._validate_definition c1defn = .ok () ∧
      (¬ c1defn.steps = [] ∧ (WF.stepIds c1defn).Nodup ∧ WF.depsOK c1defn ∧
        WF.Acyclic c1defn)) ∧
    (∃ e, WF._validate_definition c3cyc = .error e) :=
  ⟨⟨rfl, (C3_validate_definition_sound_and_rejecting c1defn).1 rfl⟩,
    (C3_validate_definition_sound_and_rejecting c3cyc).2.1 c3cyc_not_acyclic⟩

section EngineProofs

theorem pyDictGet?_isSome_set {α : Type} (d : PyDict α) (k y : String) (v : α)
    (h : (pyDictGet? d y).isSome) :
    (pyDictGet? (pyDictSet d k v) y).isSome := by
  by_cases he : k = y
  · subst he
    rw [pyDictGet?_set_self]
    rfl
  · rw [pyDictGet?_set_ne _ _ _ _ he]
    exact h

theorem pyDictGet?_isSome_set_self {α : Type} (d : PyDict α) (k : String)
    (v : α) : (pyDictGet? (pyDictSet d k v) k).isSome := by
  rw [pyDictGet?_set_self]
  rfl

theorem getLast?_mem : ∀ (l : List String) (a : String),
    l.getLast? = some a → a ∈ l := by
  intro l
  induction l with
  | nil =>
    intro a h
    simp at h
  | cons x rest ih =>
    intro a h
    cases rest with
    | nil =>
      have hx : x = a := by simpa using h
      simp [hx]
    | cons y t =>
      rw [List.getLast?_cons_cons] at h
      exact List.mem_cons_of_mem x (ih a h)

namespace WF

/-- After folding a results dict into the run state, a key present either in
the old `step_outputs` or among the results is present in the new
`step_outputs`. -/
theorem applyResults_outputs_isSome :
    ∀ (pairs : PyDict PyVal) (st0 : RunState) (y : String),
      ((pyDictGet? st0.step_outputs y).isSome ∨ (pyDictGet? pairs y).isSome) →
      (pyDictGet?
        (pairs.foldl
          (fun s p =>
            { s with
              completed_steps := pySetAdd s.completed_steps p.1
              step_outputs := pyDictSet s.step_outputs p.1 p.2
              current_data := p.2 })
          st0).step_outputs y).isSome := by
  intro pairs
  induction pairs with
  | nil =>
    intro st0 y h
    rcases h with h | h
    · simpa using h
    · simp [pyDictGet?] at h
  | cons p rest ih =>
    intro st0 y h
    rw [List.foldl_cons]
    apply ih
    rcases h with h | h
    · exact Or.inl (pyDictGet?_isSome_set _ _ _ _ h)
    · obtain ⟨k, v⟩ := p
      rw [pyDictGet?] at h
      by_cases hk : k = y
      · subst hk
        exact Or.inl (pyDictGet?_isSome_set_self _ _ _)
      · have hb : (k == y) = false := by simp [hk]
        rw [hb] at h
        exact Or.inr h

theorem batchGo_cons (wf : DAGWorkflow) (inp : PyVal) (prev : PyDict PyVal)
    (now : Nat) (sid : String) (rest : List String)
    (results0 : PyDict PyVal) (ctx : ExecutionContext) :
    batchGo wf inp prev now (sid :: rest) results0 ctx =
      match get_step_by_id wf.definition sid with
      | Option.none => batchGo wf inp prev now rest results0 ctx
      | some step =>
        match _execute_single_step wf step inp ctx prev now with
        | .ok (result, ctx2) =>
          batchGo wf inp prev now rest (pyDictSet results0 sid result)
            (ctx2.add_intermediate_result sid result Option.none now)
        | .error (m, ctx2) =>
          .error (m, ctx2.add_error "step_execution_error"
            ("Step " ++ sid ++ ": " ++ m) Option.none now) := rfl

/-- Every step id of a batch that exists in the definition gets an entry in
the results dict of a successful `batchGo` run, and earlier entries are
kept. -/
theorem batchGo_ok_results (wf : DAGWorkflow) (inp : PyVal)
    (prev : PyDict PyVal) (now : Nat) :
    ∀ (L : List String) (results0 : PyDict PyVal) (ctx : ExecutionContext)
      (results : PyDict PyVal) (ctx2 : ExecutionContext),
      batchGo wf inp prev now L results0 ctx = .ok (results, ctx2) →
      ∀ y, ((pyDictGet? results0 y).isSome ∨
          (y ∈ L ∧ y ∈ stepIds wf.definition)) →
        (pyDictGet? results y).isSome := by
  intro L
  induction L with
  | nil =>
    intro results0 ctx results ctx2 h y hy
    have h0 : (Except.ok (results0, ctx) :
        Except (String × ExecutionContext) (PyDict PyVal × ExecutionContext)) =
        .ok (results, ctx2) := h
    have h1 : results0 = results := by
      injection h0 with h2
      exact congrArg Prod.fst h2
    rcases hy with hy | hy
    · exact h1 ▸ hy
    · simp at hy
  | cons sid rest ih =>
    intro results0 ctx results ctx2 h y hy
    rw [batchGo_cons] at h
    rcases hg : get_step_by_id wf.definition sid with - | step
    · rw [hg] at h
      refine ih results0 ctx results ctx2 h y ?_
      rcases hy with hy | ⟨hy1, hy2⟩
      · exact Or.inl hy
      · rcases List.mem_cons.mp hy1 with rfl | hy3
        · exfalso
          have hsome := get_step_isSome_iff.mpr hy2
          rw [hg] at hsome
          simp at hsome
        · exact Or.inr ⟨hy3, hy2⟩
    · rw [hg] at h
      have h2 : (match _execute_single_step wf step inp ctx prev now with
          | .ok (result, ctxO) =>
            batchGo wf inp prev now rest (pyDictSet results0 sid result)
              (ctxO.add_intermediate_result sid result Option.none now)
          | .error (m, ctxE) =>
            (.error (m, ctxE.add_error "step_execution_error"
              ("Step " ++ sid ++ ": " ++ m) Option.none now) :
              Except (String × ExecutionContext)
                (PyDict PyVal × ExecutionContext))) = .ok (results, ctx2) := h
      rcases hex : _execute_single_step wf step inp ctx prev now with
        ⟨m, ctxE⟩ | ⟨result, ctxO⟩
      · rw [hex] at h2
        simp at h2
      · rw [hex] at h2
        refine ih _ _ results ctx2 h2 y ?_
        rcases hy with hy | ⟨hy1, hy2⟩
        · exact Or.inl (pyDictGet?_isSome_set _ _ _ _ hy)
        · rcases List.mem_cons.mp hy1 with rfl | hy3
          · exact Or.inl (pyDictGet?_isSome_set_self _ _ _)
          · exact Or.inr ⟨hy3, hy2⟩

/-- After successfully folding a prefix of batches, `step_outputs` has an
entry for every step id of those batches. -/
theorem execBatch_fold_outputs (wf : DAGWorkflow) (now : Nat) :
    ∀ (batches : List (List String)) (st0 st : RunState),
      (∀ b ∈ batches, ∀ y ∈ b, y ∈ stepIds wf.definition) →
      batches.foldlM (execBatch wf .running now) st0 = .ok st →
      ∀ y, ((pyDictGet? st0.step_outputs y).isSome ∨ y ∈ batches.flatten) →
        (pyDictGet? st.step_outputs y).isSome := by
  intro batches
  induction batches with
  | nil =>
    intro st0 st hids h y hy
    have h0 : (Except.ok st0 :
        Except (String × ExecutionContext) RunState) = .ok st := h
    have h1 : st0 = st := by
      injection h0
    rcases hy with hy | hy
    · exact h1 ▸ hy
    · simp at hy
  | cons b rest ih =>
    intro st0 st hids h y hy
    rw [List.foldlM_cons] at h
    rcases hb : execBatch wf .running now st0 b with e | st1
    · rw [hb] at h
      have h3 : (Except.error e :
          Except (String × ExecutionContext) RunState) = .ok st := h
      simp at h3
    · rw [hb] at h
      have h2 : rest.foldlM (execBatch wf .running now) st1 = .ok st := h
      have hb2 : ((match _execute_step_batch wf b st0.current_data st0.ctx
          st0.step_outputs now with
        | .error e => .error e
        | .ok (results, ctx2) =>
          .ok (results.foldl
            (fun (s : RunState) (p : String × PyVal) =>
              { s with
                completed_steps := pySetAdd s.completed_steps p.1
                step_outputs := pyDictSet s.step_outputs p.1 p.2
                current_data := p.2 })
            { st0 with ctx := ctx2 })) :
          Except (String × ExecutionContext) RunState) = .ok st1 := hb
      rcases hr : _execute_step_batch wf b st0.current_data st0.ctx
          st0.step_outputs now with e2 | ⟨results, ctx2⟩
      · rw [hr] at hb2
        simp at hb2
      · rw [hr] at hb2
        have hst1 : results.foldl
            (fun (s : RunState) (p : String × PyVal) =>
              { s with
                completed_steps := pySetAdd s.completed_steps p.1
                step_outputs := pyDictSet s.step_outputs p.1 p.2
                current_data := p.2 })
            { st0 with ctx := ctx2 } = st1 := by
          injection hb2
        have hids2 : ∀ b2 ∈ rest, ∀ y2 ∈ b2, y2 ∈ stepIds wf.definition := by
          intro b2 hb3 y2 hy2
          exact hids b2 (by simp [hb3]) y2 hy2
        refine ih st1 st hids2 h2 y ?_
        rcases hy with hy | hy
        · refine Or.inl ?_
          rw [← hst1]
          exact applyResults_outputs_isSome results _ y (Or.inl hy)
        · rw [List.flatten_cons, List.mem_append] at hy
          rcases hy with hy | hy
          · refine Or.inl ?_
            rw [← hst1]
            refine applyResults_outputs_isSome results _ y (Or.inr ?_)
            have hr2 : batchGo wf st0.current_data st0.step_outputs now b []
                st0.ctx = .ok (results, ctx2) := hr
            refine batchGo_ok_results wf st0.current_data st0.step_outputs now
              b [] st0.ctx results ctx2 hr2 y (Or.inr ⟨hy, ?_⟩)
            exact hids b (by simp) y hy
          · exact Or.inr hy

end WF

end EngineProofs

/-- **C4.** In a run of the DAG engine over a valid definition that has
successfully executed the batches before batch `i`, the input prepared for a
step of batch `i` is: the workflow's external input when the step lists no
dependencies (such a step is necessarily in batch 0, where `current_data` is
still the external input), and the recorded output of its last-listed
dependency (the `step_outputs` entry of that dependency) when it lists
some. -/
theorem C4_step_input_is_workflow_input_or_last_dep_output
    (wf : WF.DAGWorkflow) (input_data : PyVal) (ctx2 : ExecutionContext)
    (now : Nat) (order : List (List String)) (st : WF.RunState)
    (hn : (WF.stepIds wf.definition).Nodup) (hdeps : WF.depsOK wf.definition)
    (hAc : WF.Acyclic wf.definition)
    (horder : WF._build_execution_order wf.definition = some order)
    (i : Nat) (hi : i < order.length)
    (hpre : (order.take i).foldlM (WF.execBatch wf .running now)
      { current_data := input_data, completed_steps := []
        step_outputs := [], ctx := ctx2 } = .ok st)
    (s : WF.WorkflowStep) (hs : s ∈ wf.definition.steps)
    (hsb : s.id ∈ order.get ⟨i, hi⟩) :
    (s.dependencies = [] →
      WF._prepare_step_input s st.current_data st.step_outputs = input_data) ∧
    (∀ lastd, s.dependencies.getLast? = some lastd →
      ∃ v, pyDictGet? st.step_outputs lastd = some v ∧
        WF._prepare_step_input s st.current_data st.step_outputs = v) := by
  obtain ⟨batches, hbuild, hflatnd, hflatsub, hcov, hord, hmem⟩ :=
    WF.build_execution_order_spec wf.definition hn hdeps hAc
  rw [horder] at hbuild
  injection hbuild with hbeq
  subst hbeq
  constructor
  · intro hnil
    have h0lt : 0 < order.length := Nat.lt_of_le_of_lt (Nat.zero_le i) hi
    have hin0 : s.id ∈ order.get ⟨0, h0lt⟩ := by
      rw [hmem 0 h0lt s.id]
      refine ⟨WF.mem_stepIds_iff.mpr ⟨s, hs, rfl⟩, by simp, ?_⟩
      intro dd hdd
      rw [WF.stepDeps_of_mem hn hs, hnil] at hdd
      simp at hdd
    have hi0 : i = 0 :=
      flatten_index_unique order hflatnd s.id i 0 hi h0lt hsb hin0
    subst hi0
    have hst : ({ current_data := input_data, completed_steps := [], step_outputs := [], ctx := ctx2 } : WF.RunState) = st := by
      have h2 : (Except.ok ({ current_data := input_data, completed_steps := [], step_outputs := [], ctx := ctx2 } : WF.RunState) :
          Except (String × ExecutionContext) WF.RunState) = .ok st := hpre
      injection h2
    rw [← hst]
    simp [WF._prepare_step_input, hnil]
  · intro lastd hlast
    have hlmem : lastd ∈ s.dependencies := getLast?_mem s.dependencies lastd hlast
    have hdd : lastd ∈ WF.stepDeps wf.definition s.id := by
      rw [WF.stepDeps_of_mem hn hs]
      exact hlmem
    have htake : lastd ∈ (order.take i).flatten := hord i hi s.id hsb lastd hdd
    have hids : ∀ b ∈ order.take i, ∀ y ∈ b, y ∈ WF.stepIds wf.definition := by
      intro b hb y hy
      have hbo : b ∈ order := List.take_subset i order hb
      exact hflatsub y (List.mem_flatten.mpr ⟨b, hbo, hy⟩)
    have hsome : (pyDictGet? st.step_outputs lastd).isSome :=
      WF.execBatch_fold_outputs wf now (order.take i) _ st hids hpre lastd
        (Or.inr htake)
    obtain ⟨v, hv⟩ := Option.isSome_iff_exists.mp hsome
    refine ⟨v, hv, ?_⟩
    simp [WF._prepare_step_input, hlast, pyDictGetD, hv]

/-- A concrete two-step workflow of condition steps (which execute without
registries): `"a"` depends on `"b"`. -/
def c4stepB : WF.WorkflowStep :=
  { id := "b", step_type := .condition, config := { condition := some "c" } }

def c4stepA : WF.WorkflowStep :=
  { id := "a", step_type := .condition, config := { condition := some "c" },
    dependencies := ["b"] }

def c4defn : WF.WorkflowDefinition := { id := "w4", steps := [c4stepB, c4stepA] }

def c4wf : WF.DAGWorkflow := { definition := c4defn }

def c4ctx : ExecutionContext :=
  ExecutionContext.init Option.none Option.none Option.none Option.none
    Option.none Option.none Option.none "e1" "s1" 0

theorem c4defn_acyclic : WF.Acyclic c4defn := by
  refine WF.acyclic_of_rank c4defn (fun z => if z = "a" then 1 else 0) ?_
  rintro x y ⟨s, hg, hy⟩
  by_cases hxb : "b" = x
  · have hgb : WF.get_step_by_id c4defn x = some c4stepB := by
      rw [← hxb]
      rfl
    rw [hgb] at hg
    have hs : s = c4stepB := (Option.some.inj hg).symm
    rw [hs] at hy
    simp [c4stepB] at hy
  · by_cases hxa : "a" = x
    · have hga : WF.get_step_by_id c4defn x = some c4stepA := by
        rw [← hxa]
        rfl
      rw [hga] at hg
      have hs : s = c4stepA := (Option.some.inj hg).symm
      rw [hs] at hy
      have hyb : y = "b" := by simpa [c4stepA] using hy
      rw [hyb, ← hxa]
      simp
    · exfalso
      have hnone : WF.get_step_by_id c4defn x = Option.none := by
        rw [WF.get_step_by_id, List.find?_eq_none]
        intro t ht
        have ht2 : t = c4stepB ∨ t = c4stepA := by
          simpa [c4defn] using ht
        rcases ht2 with rfl | rfl
        · simpa [c4stepB] using hxb
        · simpa [c4stepA] using hxa
      rw [hnone] at hg
      exact Option.noConfusion hg

/-- Witness for C4: in `c4wf`, the no-dependency step `"b"` (batch 0)
receives the external input, and the step `"a"` (batch 1) receives the
recorded output of its last-listed dependency `"b"`. -/
theorem C4_step_input_is_workflow_input_or_last_dep_output_witness :
    (∃ st : WF.RunState,
      (([["b"], ["a"]].take 0).foldlM (WF.execBatch c4wf .running 0)
        { current_data := PyVal.str "in", completed_steps := [], step_outputs := [], ctx := c4ctx } = .ok st) ∧
      WF._prepare_step_input c4stepB st.current_data st.step_outputs =
        PyVal.str "in") ∧
    (∃ st : WF.RunState,
      (([["b"], ["a"]].take 1).foldlM (WF.execBatch c4wf .running 0)
        { current_data := PyVal.str "in", completed_steps := [], step_outputs := [], ctx := c4ctx } = .ok st) ∧
      ∃ v, pyDictGet? st.step_outputs "b" = some v ∧
        WF._prepare_step_input c4stepA st.current_data st.step_outputs = v) := by
  constructor
  · refine ⟨_, rfl, ?_⟩
    exact (C4_step_input_is_workflow_input_or_last_dep_output c4wf
      (PyVal.str "in") c4ctx 0 [["b"], ["a"]] _ (by decide)
      (by unfold WF.depsOK; decide) c4defn_acyclic rfl 0 (by decide) rfl
      c4stepB (by simp [c4wf, c4defn]) (by decide)).1 rfl
  · refine ⟨_, rfl, ?_⟩
    exact (C4_step_input_is_workflow_input_or_last_dep_output c4wf
      (PyVal.str "in") c4ctx 0 [["b"], ["a"]] _ (by decide)
      (by unfold WF.depsOK; decide) c4defn_acyclic rfl 1 (by decide) rfl
      c4stepA (by simp [c4wf, c4defn]) (by decide)).2 "b" rfl

namespace WF

/-- A successful `batchGo` prefix composes: running the whole list continues
from the prefix's results and context. -/
theorem batchGo_append_ok (wf : DAGWorkflow) (inp : PyVal)
    (prev : PyDict PyVal) (now : Nat) :
    ∀ (L1 L2 : List String) (res0 : PyDict PyVal) (ctx : ExecutionContext)
      (res1 : PyDict PyVal) (ctx1 : ExecutionContext),
      batchGo wf inp prev now L1 res0 ctx = .ok (res1, ctx1) →
      batchGo wf inp prev now (L1 ++ L2) res0 ctx =
        batchGo wf inp prev now L2 res1 ctx1 := by
  intro L1
  induction L1 with
  | nil =>
    intro L2 res0 ctx res1 ctx1 h
    have h0 : (Except.ok (res0, ctx) :
        Except (String × ExecutionContext) (PyDict PyVal × ExecutionContext)) =
        .ok (res1, ctx1) := h
    have h1 : res0 = res1 ∧ ctx = ctx1 := by
      injection h0 with h2
      exact ⟨congrArg Prod.fst h2, congrArg Prod.snd h2⟩
    rw [List.nil_append, h1.1, h1.2]
  | cons sid rest ih =>
    intro L2 res0 ctx res1 ctx1 h
    rw [List.cons_append]
    rw [batchGo_cons] at h ⊢
    rcases hg : get_step_by_id wf.definition sid with - | step
    · rw [hg] at h
      exact ih L2 res0 ctx res1 ctx1 h
    · rw [hg] at h
      have h2 : (match _execute_single_step wf step inp ctx prev now with
          | .ok (result, ctxO) =>
            batchGo wf inp prev now rest (pyDictSet res0 sid result)
              (ctxO.add_intermediate_result sid result Option.none now)
          | .error (m, ctxE) =>
            (.error (m, ctxE.add_error "step_execution_error"
              ("Step " ++ sid ++ ": " ++ m) Option.none now) :
              Except (String × ExecutionContext)
                (PyDict PyVal × ExecutionContext))) = .ok (res1, ctx1) := h
      rcases hex : _execute_single_step wf step inp ctx prev now with
        ⟨m, ctxE⟩ | ⟨result, ctxO⟩
      · rw [hex] at h2
        simp at h2
      · rw [hex] at h2
        show (match _execute_single_step wf step inp ctx prev now with
          | .ok (result, ctxO) =>
            batchGo wf inp prev now (rest ++ L2) (pyDictSet res0 sid result)
              (ctxO.add_intermediate_result sid result Option.none now)
          | .error (m, ctxE) =>
            .error (m, ctxE.add_error "step_execution_error"
              ("Step " ++ sid ++ ": " ++ m) Option.none now)) = _
        rw [hex]
        exact ih L2 _ _ res1 ctx1 h2

end WF

/-- **C2.** When any step's execution raises during a run (modelled by
`_execute_single_step` returning an error carrying the exception message, as
it does whenever an agent or tool callable raises), `execute` still returns a
result instead of raising: the result's status is FAILED and its `error`
field carries the failure message, and the context's error log receives the
`step_execution_error` entry plus the terminal `workflow_execution_error`
entry. -/
theorem C2_execute_returns_failed_on_step_error
    (wf : WF.DAGWorkflow) (execution_id : String) (input_data : PyVal)
    (ctx : ExecutionContext) (now : Nat) (order : List (List String))
    (st : WF.RunState) (i : Nat) (hi : i < order.length)
    (pre post : List String) (sid : String) (step : WF.WorkflowStep)
    (resPre : PyDict PyVal) (ctxPre : ExecutionContext)
    (m : String) (ctxF : ExecutionContext)
    (horder : WF._build_execution_order wf.definition = some order)
    (hpre : (order.take i).foldlM (WF.execBatch wf .running now)
      { current_data := input_data, completed_steps := [], step_outputs := [], ctx := (((ctx.start_execution now).advance_phase .agent_execution now).set_shared_data "workflow_input" input_data now) } = .ok st)
    (hsplit : order.get ⟨i, hi⟩ = pre ++ sid :: post)
    (hpreBatch : WF.batchGo wf st.current_data st.step_outputs now pre [] st.ctx =
      .ok (resPre, ctxPre))
    (hgs : WF.get_step_by_id wf.definition sid = some step)
    (hfail : WF._execute_single_step wf step st.current_data ctxPre
      st.step_outputs now = .error (m, ctxF)) :
    ∃ ctxFinal,
      WF.execute wf execution_id input_data ctx now =
        ({ workflow_id := wf.definition.id
           execution_id := execution_id
           status := .failed
           start_time := now
           end_time := some now
           output := Option.none
           error := some m
           step_results := WF._extract_step_results ctxFinal
           duration := some 0 }, ctxFinal, .failed) ∧
      ∃ e1 e2, ctxFinal.errors = ctxF.errors ++ [e1, e2] ∧
        e1.etype = "step_execution_error" ∧
        e1.message = "Step " ++ sid ++ ": " ++ m ∧
        e2.etype = "workflow_execution_error" ∧
        e2.message = m := by
  have hcons : WF.batchGo wf st.current_data st.step_outputs now (sid :: post)
      resPre ctxPre =
      .error (m, ctxF.add_error "step_execution_error"
        ("Step " ++ sid ++ ": " ++ m) Option.none now) := by
    have hred : WF.batchGo wf st.current_data st.step_outputs now (sid :: post)
        resPre ctxPre =
        (match WF._execute_single_step wf step st.current_data ctxPre
            st.step_outputs now with
          | .ok (result, ctxO) =>
            WF.batchGo wf st.current_data st.step_outputs now post
              (pyDictSet resPre sid result)
              (ctxO.add_intermediate_result sid result Option.none now)
          | .error (m2, ctxE) =>
            .error (m2, ctxE.add_error "step_execution_error"
              ("Step " ++ sid ++ ": " ++ m2) Option.none now)) := by
      rw [WF.batchGo_cons, hgs]
    rw [hred, hfail]
  have hbatch : WF.batchGo wf st.current_data st.step_outputs now
      (pre ++ sid :: post) [] st.ctx =
      .error (m, ctxF.add_error "step_execution_error"
        ("Step " ++ sid ++ ": " ++ m) Option.none now) := by
    rw [WF.batchGo_append_ok wf st.current_data st.step_outputs now pre
      (sid :: post) [] st.ctx resPre ctxPre hpreBatch]
    exact hcons
  have hexec : WF.execBatch wf .running now st (order.get ⟨i, hi⟩) =
      .error (m, ctxF.add_error "step_execution_error"
        ("Step " ++ sid ++ ": " ++ m) Option.none now) := by
    have h1 : WF.execBatch wf .running now st (order.get ⟨i, hi⟩) =
        (match WF._execute_step_batch wf (order.get ⟨i, hi⟩) st.current_data
            st.ctx st.step_outputs now with
          | .error e =>
            (.error e : Except (String × ExecutionContext) WF.RunState)
          | .ok (results, c2) =>
            .ok (results.foldl
              (fun (s : WF.RunState) (p : String × PyVal) =>
                { s with
                  completed_steps := pySetAdd s.completed_steps p.1
                  step_outputs := pyDictSet s.step_outputs p.1 p.2
                  current_data := p.2 })
              { st with ctx := c2 })) := rfl
    rw [h1]
    have h2 : WF._execute_step_batch wf (order.get ⟨i, hi⟩) st.current_data
        st.ctx st.step_outputs now =
        .error (m, ctxF.add_error "step_execution_error"
          ("Step " ++ sid ++ ": " ++ m) Option.none now) := by
      show WF.batchGo wf st.current_data st.step_outputs now
        (order.get ⟨i, hi⟩) [] st.ctx = _
      rw [hsplit]
      exact hbatch
    rw [h2]
  have hdecomp : order =
      order.take i ++ order.get ⟨i, hi⟩ :: order.drop (i + 1) := by
    conv_lhs => rw [← List.take_append_drop i order]
    congr 1
    exact List.drop_eq_get_cons hi
  have hfold : order.foldlM (WF.execBatch wf .running now)
      ({ current_data := input_data, completed_steps := [], step_outputs := [], ctx := (((ctx.start_execution now).advance_phase .agent_execution now).set_shared_data "workflow_input" input_data now) } : WF.RunState) =
      .error (m, ctxF.add_error "step_execution_error"
        ("Step " ++ sid ++ ": " ++ m) Option.none now) := by
    conv_lhs => rw [hdecomp]
    rw [List.foldlM_append, hpre]
    show (order.get ⟨i, hi⟩ :: order.drop (i + 1)).foldlM
      (WF.execBatch wf .running now) st = _
    rw [List.foldlM_cons, hexec]
    rfl
  have hwf : WF._execute_workflow wf .running input_data
      (ctx.start_execution now) now =
      .error (m, ctxF.add_error "step_execution_error"
        ("Step " ++ sid ++ ": " ++ m) Option.none now) := by
    unfold WF._execute_workflow
    simp only [horder]
    rw [hfold]
  refine ⟨(ctxF.add_error "step_execution_error"
      ("Step " ++ sid ++ ": " ++ m) Option.none now).add_error
      "workflow_execution_error" m Option.none now, ?_, ?_⟩
  · unfold WF.execute
    simp only [hwf]
  · refine ⟨⟨"step_execution_error", "Step " ++ sid ++ ": " ++ m, now, ctxF.phase.value, ctxF.step_count, []⟩,
      ⟨"workflow_execution_error", m, now, ctxF.phase.value, ctxF.step_count, []⟩,
      ?_, rfl, rfl, rfl, rfl⟩
    simp [ExecutionContext.add_error]

/-- A one-step workflow whose registered tool always raises. -/
def c2tool : WF.ToolFn := fun _ c _ => (c, .error "boom")

def c2step : WF.WorkflowStep :=
  { id := "t", step_type := .tool, config := { tool_name := some "f" } }

def c2defn : WF.WorkflowDefinition := { id := "w2c", steps := [c2step] }

def c2wf : WF.DAGWorkflow :=
  { definition := c2defn, tool_registry := [("f", c2tool)] }

def c2ctx : ExecutionContext :=
  ExecutionContext.init Option.none Option.none Option.none Option.none
    Option.none Option.none Option.none "e2" "s2" 0

/-- The context reaching the engine's batch loop in the witness run. -/
def c2ctx2 : ExecutionContext :=
  ((c2ctx.start_execution 0).advance_phase .agent_execution 0).set_shared_data
    "workflow_input" (PyVal.str "in") 0

/-- Witness for C2: running `c2wf` (whose only step's tool raises `"boom"`)
returns a FAILED result carrying the message, with the step and workflow
error entries appended to the log. -/
theorem C2_execute_returns_failed_on_step_error_witness :
    ∃ ctxF ctxFinal : ExecutionContext,
      WF.execute c2wf "e" (PyVal.str "in") c2ctx 0 =
        ({ workflow_id := c2wf.definition.id
           execution_id := "e"
           status := .failed
           start_time := 0
           end_time := some 0
           output := Option.none
           error := some "boom"
           step_results := WF._extract_step_results ctxFinal
           duration := some 0 }, ctxFinal, .failed) ∧
      ∃ e1 e2, ctxFinal.errors = ctxF.errors ++ [e1, e2] ∧
        e1.etype = "step_execution_error" ∧
        e1.message = "Step " ++ "t" ++ ": " ++ "boom" ∧
        e2.etype = "workflow_execution_error" ∧
        e2.message = "boom" := by
  obtain ⟨ctxFinal, h1, h2⟩ :=
    C2_execute_returns_failed_on_step_error c2wf "e" (PyVal.str "in") c2ctx 0
      [["t"]]
      { current_data := PyVal.str "in", completed_steps := [], step_outputs := [], ctx := c2ctx2 }
      0 (by decide) [] [] "t" c2step [] c2ctx2 "boom"
      (c2ctx2.record_step_timing "t" 0 0) rfl rfl rfl rfl rfl rfl
  exact ⟨c2ctx2.record_step_timing "t" 0 0, ctxFinal, h1, h2⟩

section ParallelEntryProofs

theorem mem_foldl_pySetAdd :
    ∀ (ks : List String) (s : List String) (x : String),
      x ∈ ks.foldl pySetAdd s ↔ (x ∈ s ∨ x ∈ ks) := by
  intro ks
  induction ks with
  | nil =>
    intro s x
    simp
  | cons k rest ih =>
    intro s x
    rw [List.foldl_cons, ih, mem_pySetAdd]
    constructor
    · rintro ((h | h) | h)
      · exact Or.inl h
      · exact Or.inr (by simp [h])
      · exact Or.inr (by simp [h])
    · rintro (h | h)
      · exact Or.inl (Or.inl h)
      · rcases List.mem_cons.mp h with rfl | h2
        · exact Or.inl (Or.inr rfl)
        · exact Or.inr h2

namespace SM

/-- Entering a state that is neither composite nor parallel and whose entry
action (if any) does not raise: the state is added to the active set and
nothing else changes in it.  The state need not be fresh — Python's
`set.add` is idempotent, which `pySetAdd` mirrors. -/
theorem enter_plain_state (states : List State) (fuel : Nat)
    (st : MachineState) (sid : String) (s0 : State)
    (h : pyDictGet? (stateMap states) sid = some s0)
    (hty1 : ¬ s0.state_type = .composite)
    (hty2 : ¬ s0.state_type = .parallel)
    (hact : ∀ a, s0.entry_action = some a →
      ∀ v ev, (a.execute v ev).2 = .ok ()) :
    ∃ st2, enterAux states (fuel + 1) st (.inl sid) = .ok st2 ∧
      st2.current_states = pySetAdd st.current_states sid := by
  cases hae : s0.entry_action with
  | none =>
    cases hdo : s0.do_activity with
    | none =>
      refine ⟨{ st with current_states := pySetAdd st.current_states sid }, ?_, rfl⟩
      simp [enterAux, h, hae, hty1, hty2, hdo]
    | some a2 =>
      refine ⟨{ st with current_states := pySetAdd st.current_states sid, running_activities := pySetAdd st.running_activities sid }, ?_, rfl⟩
      simp [enterAux, h, hae, hty1, hty2, hdo]
  | some a =>
    have hok := hact a hae st.vars Option.none
    cases hdo : s0.do_activity with
    | none =>
      refine ⟨{ st with current_states := pySetAdd st.current_states sid, vars := (a.execute st.vars Option.none).1 }, ?_, rfl⟩
      simp [enterAux, h, hae, hty1, hty2, hdo, _execute_action, hok]
    | some a2 =>
      refine ⟨{ st with current_states := pySetAdd st.current_states sid, vars := (a.execute st.vars Option.none).1, running_activities := pySetAdd st.running_activities sid }, ?_, rfl⟩
      simp [enterAux, h, hae, hty1, hty2, hdo, _execute_action, hok]

/-- The region loop of a parallel state, for non-empty regions whose heads
exist, are neither composite nor parallel, and whose entry actions do not
raise: it activates exactly the region heads, in order. -/
theorem enter_regions_plain (states : List State) :
    ∀ (regions : List (List String)) (fuel : Nat) (st : MachineState),
      regions.length + 1 ≤ fuel →
      (∀ r ∈ regions, ¬ r = []) →
      (∀ r ∈ regions, ∃ s0,
        pyDictGet? (stateMap states) (r.headD "") = some s0 ∧
        ¬ s0.state_type = .composite ∧ ¬ s0.state_type = .parallel ∧
        ∀ a, s0.entry_action = some a → ∀ v ev, (a.execute v ev).2 = .ok ()) →
      ∃ st2, enterAux states fuel st (.inr regions) = .ok st2 ∧
        st2.current_states =
          (regions.map (fun r => r.headD "")).foldl pySetAdd
            st.current_states := by
  intro regions
  induction regions with
  | nil =>
    intro fuel st hf _ _
    obtain ⟨f, rfl⟩ : ∃ f, fuel = f + 1 := ⟨fuel - 1, by omega⟩
    exact ⟨st, enterAux_inr_nil states f st, by simp⟩
  | cons r rest ih =>
    intro fuel st hf hne hheads
    obtain ⟨f, rfl⟩ : ∃ f, fuel = f + 1 := ⟨fuel - 1, by omega⟩
    have hf1 : rest.length + 1 ≤ f := by
      simp only [List.length_cons] at hf
      omega
    obtain ⟨r0, rtl, rfl⟩ : ∃ r0 rtl, r = r0 :: rtl := by
      cases r with
      | nil => exact absurd rfl (hne [] (by simp))
      | cons a b => exact ⟨a, b, rfl⟩
    obtain ⟨s0, hs0, hty1, hty2, hact⟩ := hheads (r0 :: rtl) (by simp)
    obtain ⟨f2, rfl⟩ : ∃ f2, f = f2 + 1 := ⟨f - 1, by omega⟩
    have hs0' : pyDictGet? (stateMap states) r0 = some s0 := by simpa using hs0
    obtain ⟨stA, hA, hAcur⟩ :=
      enter_plain_state states f2 st r0 s0 hs0' hty1 hty2 hact
    obtain ⟨st2, h2, h2cur⟩ := ih (f2 + 1) stA (by omega)
      (fun r hr => hne r (by simp [hr]))
      (fun r hr => hheads r (by simp [hr]))
    refine ⟨st2, ?_, ?_⟩
    · rw [enterAux_inr_cons, hA]
      simpa using h2
    · rw [h2cur, hAcur]
      simp

end SM

end ParallelEntryProofs

/-- **C8 (amended).** Entering a PARALLEL state `P` whose `N` regions are all
non-empty, whose first-listed region states are `N` distinct states of the
machine that are neither composite nor parallel, and whose entry actions
(`P`'s own and the region heads', where present) do not raise, succeeds and
results in exactly those `N` substates being active — one per region, each
the first state listed in its region — in addition to `P` itself becoming
active; no other state is activated. -/
theorem C8_parallel_enter_one_substate_per_region
    (d : SM.StateMachineDefinition) (st : SM.MachineState) (P : SM.State)
    (fuel : Nat)
    (hP : pyDictGet? (SM.stateMap d.states) P.id = some P)
    (hty : P.state_type = .parallel)
    (hPact : ∀ a, P.entry_action = some a →
      ∀ v ev, (a.execute v ev).2 = .ok ())
    (hfuel : P.regions.length + 2 ≤ fuel)
    (hne : ∀ r ∈ P.regions, ¬ r = [])
    (hheads : ∀ r ∈ P.regions, ∃ s0,
      pyDictGet? (SM.stateMap d.states) (r.headD "") = some s0 ∧
      ¬ s0.state_type = .composite ∧ ¬ s0.state_type = .parallel ∧
      ∀ a, s0.entry_action = some a → ∀ v ev, (a.execute v ev).2 = .ok ())
    (hdistinct : (P.regions.map (fun r => r.headD "")).Nodup) :
    ∃ st2, SM._enter_state d fuel st P.id = .ok st2 ∧
      P.id ∈ st2.current_states ∧
      (∀ r ∈ P.regions, r.headD "" ∈ st2.current_states) ∧
      (P.regions.map (fun r => r.headD "")).length = P.regions.length ∧
      (P.regions.map (fun r => r.headD "")).Nodup ∧
      (∀ i (hi : i < P.regions.length),
        (P.regions.map (fun r => r.headD "")).get ⟨i, by simpa using hi⟩ =
          (P.regions.get ⟨i, hi⟩).headD "") ∧
      (∀ x, x ∈ st2.current_states ↔
        (x ∈ st.current_states ∨ x = P.id ∨
          x ∈ P.regions.map (fun r => r.headD ""))) := by
  obtain ⟨f, rfl⟩ : ∃ f, fuel = f + 1 := ⟨fuel - 1, by omega⟩
  have hfr : P.regions.length + 1 ≤ f := by omega
  cases hae : P.entry_action with
  | none =>
    obtain ⟨stR, hR, hRcur⟩ := SM.enter_regions_plain d.states P.regions f
      { st with current_states := pySetAdd st.current_states P.id }
      hfr hne hheads
    have hRcur2 : stR.current_states =
        (P.regions.map (fun r => r.headD "")).foldl pySetAdd
          (pySetAdd st.current_states P.id) := by
      simpa using hRcur
    have hmem : ∀ x, x ∈ stR.current_states ↔
        (x ∈ st.current_states ∨ x = P.id ∨
          x ∈ P.regions.map (fun r => r.headD "")) := by
      intro x
      rw [hRcur2, mem_foldl_pySetAdd, mem_pySetAdd]
      tauto
    cases hdo : P.do_activity with
    | none =>
      refine ⟨stR, ?_, (hmem P.id).mpr (Or.inr (Or.inl rfl)), ?_, by simp,
        hdistinct, by intro i hi; simp, hmem⟩
      · show SM.enterAux d.states (f + 1) st (.inl P.id) = _
        simp [SM.enterAux, hP, hae, hty, hdo, hR]
      · intro r hr
        exact (hmem _).mpr (Or.inr (Or.inr (List.mem_map.mpr ⟨r, hr, rfl⟩)))
    | some a2 =>
      refine ⟨{ stR with
          running_activities := pySetAdd stR.running_activities P.id },
        ?_, (hmem P.id).mpr (Or.inr (Or.inl rfl)), ?_, by simp,
        hdistinct, by intro i hi; simp, hmem⟩
      · show SM.enterAux d.states (f + 1) st (.inl P.id) = _
        simp [SM.enterAux, hP, hae, hty, hdo, hR]
      · intro r hr
        exact (hmem _).mpr (Or.inr (Or.inr (List.mem_map.mpr ⟨r, hr, rfl⟩)))
  | some a =>
    have hok := hPact a hae st.vars Option.none
    obtain ⟨stR, hR, hRcur⟩ := SM.enter_regions_plain d.states P.regions f
      { st with current_states := pySetAdd st.current_states P.id, vars := (a.execute st.vars Option.none).1 }
      hfr hne hheads
    have hRcur2 : stR.current_states =
        (P.regions.map (fun r => r.headD "")).foldl pySetAdd
          (pySetAdd st.current_states P.id) := by
      simpa using hRcur
    have hmem : ∀ x, x ∈ stR.current_states ↔
        (x ∈ st.current_states ∨ x = P.id ∨
          x ∈ P.regions.map (fun r => r.headD "")) := by
      intro x
      rw [hRcur2, mem_foldl_pySetAdd, mem_pySetAdd]
      tauto
    cases hdo : P.do_activity with
    | none =>
      refine ⟨stR, ?_, (hmem P.id).mpr (Or.inr (Or.inl rfl)), ?_, by simp,
        hdistinct, by intro i hi; simp, hmem⟩
      · show SM.enterAux d.states (f + 1) st (.inl P.id) = _
        simp [SM.enterAux, hP, hae, hty, hdo, hR, SM._execute_action, hok]
      · intro r hr
        exact (hmem _).mpr (Or.inr (Or.inr (List.mem_map.mpr ⟨r, hr, rfl⟩)))
    | some a2 =>
      refine ⟨{ stR with
          running_activities := pySetAdd stR.running_activities P.id },
        ?_, (hmem P.id).mpr (Or.inr (Or.inl rfl)), ?_, by simp,
        hdistinct, by intro i hi; simp, hmem⟩
      · show SM.enterAux d.states (f + 1) st (.inl P.id) = _
        simp [SM.enterAux, hP, hae, hty, hdo, hR, SM._execute_action, hok]
      · intro r hr
        exact (hmem _).mpr (Or.inr (Or.inr (List.mem_map.mpr ⟨r, hr, rfl⟩)))

/-- C8 witness: a parallel state with two one-state regions and a
variable-setting (non-raising) entry action activates exactly its two region
heads besides itself, and nothing else. -/
theorem C8_parallel_enter_one_substate_per_region_witness :
    (let act : SM.Action :=
      { name := "mark", execute := fun v _ => (pyDictSet v "entered" (PyVal.bool true), .ok ()) }
    let P : SM.State :=
      { id := "P", name := "P", state_type := .parallel, entry_action := some act, regions := [["a"], ["b"]] }
    let d : SM.StateMachineDefinition :=
      { id := "m", name := "m", states := [P, { id := "a", name := "a" }, { id := "b", name := "b" }] }
    let st0 : SM.MachineState :=
      { current_states := [], vars := [], history := [], running_activities := [] }
    ∃ st2, SM._enter_state d 4 st0 P.id = .ok st2 ∧
      P.id ∈ st2.current_states ∧
      (∀ r ∈ P.regions, r.headD "" ∈ st2.current_states) ∧
      (P.regions.map (fun r => r.headD "")).length = P.regions.length ∧
      (P.regions.map (fun r => r.headD "")).Nodup ∧
      (∀ i (hi : i < P.regions.length),
        (P.regions.map (fun r => r.headD "")).get ⟨i, by simpa using hi⟩ =
          (P.regions.get ⟨i, hi⟩).headD "") ∧
      (∀ x, x ∈ st2.current_states ↔
        (x ∈ st0.current_states ∨ x = P.id ∨
          x ∈ P.regions.map (fun r => r.headD "")))) := by
  refine C8_parallel_enter_one_substate_per_region _ _ _ 4 rfl rfl ?_
    (by decide) ?_ ?_ (by decide)
  · intro a ha v ev
    cases ha
    rfl
  · intro r hr
    fin_cases hr <;> decide
  · intro r hr
    fin_cases hr
    · exact ⟨{ id := "a", name := "a" }, rfl, by decide, by decide,
        fun a ha => nomatch ha⟩
    · exact ⟨{ id := "b", name := "b" }, rfl, by decide, by decide,
        fun a ha => nomatch ha⟩

/-- C8 counterexample: the claim as frozen fails for a PARALLEL state whose
regions are not all non-empty one-head simple configurations.  Each conjunct
exhibits one failure mode concretely: (i) an empty region is skipped
(`if region:`), leaving one active substate where the claim demands two;
(ii) two regions sharing a head activate one distinct substate, not two
(`set.add` is idempotent); (iii) a composite head also activates its initial
substate, giving two new substates for one region; (iv) a parallel head also
activates its own region head, likewise; (v) a head whose entry action
raises aborts `_enter_state` with the exception instead of producing the
active configuration; (vi) a head that is not a state of the machine raises
`ValueError`. -/
theorem C8_counterexample :
    (let P : SM.State :=
      { id := "P", name := "P", state_type := .parallel, regions := [[], ["a"]] }
    let d : SM.StateMachineDefinition :=
      { id := "m", name := "m", states := [P, { id := "a", name := "a" }] }
    let st0 : SM.MachineState :=
      { current_states := [], vars := [], history := [], running_activities := [] }
    P.regions.length = 2 ∧
    ∃ st2, SM._enter_state d 5 st0 P.id = .ok st2 ∧
      st2.current_states = ["P", "a"] ∧
      ¬ (st2.current_states.filter (fun x => x != "P")).length = 2) ∧
    (let P : SM.State :=
      { id := "P", name := "P", state_type := .parallel, regions := [["a"], ["a"]] }
    let d : SM.StateMachineDefinition :=
      { id := "m", name := "m", states := [P, { id := "a", name := "a" }] }
    let st0 : SM.MachineState :=
      { current_states := [], vars := [], history := [], running_activities := [] }
    P.regions.length = 2 ∧
    ∃ st2, SM._enter_state d 6 st0 P.id = .ok st2 ∧
      st2.current_states = ["P", "a"] ∧
      ¬ (st2.current_states.filter (fun x => x != "P")).length = 2) ∧
    (let P : SM.State :=
      { id := "P", name := "P", state_type := .parallel, regions := [["c"]] }
    let d : SM.StateMachineDefinition :=
      { id := "m", name := "m", states := [P,
        { id := "c", name := "c", state_type := .composite, initial_state := some "d" },
        { id := "d", name := "d" }] }
    let st0 : SM.MachineState :=
      { current_states := [], vars := [], history := [], running_activities := [] }
    P.regions.length = 1 ∧
    ∃ st2, SM._enter_state d 6 st0 P.id = .ok st2 ∧
      st2.current_states = ["P", "c", "d"] ∧
      ¬ (st2.current_states.filter (fun x => x != "P")).length = 1) ∧
    (let P : SM.State :=
      { id := "P", name := "P", state_type := .parallel, regions := [["q"]] }
    let d : SM.StateMachineDefinition :=
      { id := "m", name := "m", states := [P,
        { id := "q", name := "q", state_type := .parallel, regions := [["a"]] },
        { id := "a", name := "a" }] }
    let st0 : SM.MachineState :=
      { current_states := [], vars := [], history := [], running_activities := [] }
    P.regions.length = 1 ∧
    ∃ st2, SM._enter_state d 6 st0 P.id = .ok st2 ∧
      st2.current_states = ["P", "q", "a"] ∧
      ¬ (st2.current_states.filter (fun x => x != "P")).length = 1) ∧
    (let bad : SM.Action :=
      { name := "bad", execute := fun v _ => (v, .error "x") }
    let P : SM.State :=
      { id := "P", name := "P", state_type := .parallel, regions := [["e"]] }
    let d : SM.StateMachineDefinition :=
      { id := "m", name := "m", states := [P,
        { id := "e", name := "e", entry_action := some bad }] }
    let st0 : SM.MachineState :=
      { current_states := [], vars := [], history := [], running_activities := [] }
    ∃ st3, SM._enter_state d 5 st0 P.id =
      .error (SM.SMErr.actionError "x", st3)) ∧
    (let P : SM.State :=
      { id := "P", name := "P", state_type := .parallel, regions := [["z"]] }
    let d : SM.StateMachineDefinition :=
      { id := "m", name := "m", states := [P] }
    let st0 : SM.MachineState :=
      { current_states := [], vars := [], history := [], running_activities := [] }
    ∃ st3, SM._enter_state d 5 st0 P.id =
      .error (SM.SMErr.valueError "State z not found", st3)) := by
  refine ⟨⟨rfl, _, rfl, rfl, by decide⟩, ⟨rfl, _, rfl, rfl, by decide⟩,
    ⟨rfl, _, rfl, rfl, by decide⟩, ⟨rfl, _, rfl, rfl, by decide⟩,
    ⟨_, rfl⟩, ⟨_, rfl⟩⟩
